import Mathlib

/-!
# Verification of the terminusdb-store layered storage engine core

This file shallowly embeds the core data structures and algorithms of the
`terminusdb-store` repository (the PFC string dictionary, the succinct
adjacency list, the base triple stream join, and the simple layer builder
commit pipeline) as executable Lean definitions, and proves or refutes the
frozen specification claims about them.

Machine integers (`u64`, `usize`) are modelled as `Nat`; the places where a
fixed width matters (the 8-byte big-endian footers) take the value modulo
`2 ^ 64` explicitly.  Fallible operations and Rust panics are modelled with
`Option`/`Except`.  Byte strings are `List Nat` (each entry a byte value).

Components of the repository that the claims depend on but whose source
files are not available (`vbyte.rs`, `logarray.rs`, `bitindex.rs`,
`util.rs`, `layer/builder.rs`, `layer/layer.rs`, `layer/child.rs`) are
modelled from the specification text; each such definition carries a doc
comment starting with `Modelled from the spec:`.
-/

namespace TStore

/-! ## Generic list utilities shared by several components -/

/-- `Vec::dedup` from the Rust standard library: remove consecutive
duplicate elements, keeping the first of each run. -/
def rustDedup {α : Type} [DecidableEq α] : List α → List α
  | [] => []
  | [a] => [a]
  | a :: b :: rest => if a = b then rustDedup (b :: rest) else a :: rustDedup (b :: rest)

theorem rustDedup_sublist {α : Type} [DecidableEq α] (l : List α) :
    (rustDedup l).Sublist l := by
  induction l with
  | nil => simp [rustDedup]
  | cons a rest ih =>
    cases rest with
    | nil => simp [rustDedup]
    | cons b rest' =>
      by_cases h : a = b
      · simpa [rustDedup, h] using List.Sublist.cons a ih
      · simpa [rustDedup, h] using ih

theorem rustDedup_cons_eq {α : Type} [DecidableEq α] (b : α) (l : List α) :
    ∃ t, rustDedup (b :: l) = b :: t := by
  induction l with
  | nil => exact ⟨[], rfl⟩
  | cons c rest ih =>
    by_cases h : b = c
    · subst h
      obtain ⟨t, ht⟩ := ih
      exact ⟨t, by rw [rustDedup, if_pos rfl]; exact ht⟩
    · exact ⟨rustDedup (c :: rest), by rw [rustDedup, if_neg h]⟩

theorem rustDedup_chain_ne {α : Type} [DecidableEq α] (l : List α) :
    (rustDedup l).Chain' (· ≠ ·) := by
  induction l with
  | nil => simp [rustDedup]
  | cons a rest ih =>
    cases rest with
    | nil => simp [rustDedup]
    | cons b rest' =>
      by_cases h : a = b
      · simpa [rustDedup, h] using ih
      · rw [rustDedup, if_neg h]
        obtain ⟨t, ht⟩ := rustDedup_cons_eq b rest'
        rw [ht]
        exact List.Chain'.cons h (ht ▸ ih)

/-- A list that is sorted by an antisymmetric `≤` and has no two consecutive
equal elements has no duplicates at all. -/
theorem nodup_of_pairwise_le_chain_ne {α : Type} {le : α → α → Prop}
    (hanti : ∀ a b, le a b → le b a → a = b) (htr : ∀ a b c, le a b → le b c → le a c)
    {l : List α} (hs : l.Pairwise le) (hne : l.Chain' (· ≠ ·)) : l.Nodup := by
  have hlt : l.Chain' (fun a b => le a b ∧ a ≠ b) := by
    induction l with
    | nil => simp
    | cons a rest ih =>
      rcases rest with _ | ⟨b, rest'⟩
      · simp
      · rcases List.chain'_cons.mp hne with ⟨hab, hne'⟩
        refine List.chain'_cons.mpr ⟨⟨?_, hab⟩, ih hs.of_cons hne'⟩
        exact (List.pairwise_cons.mp hs).1 b (List.mem_cons_self b rest')
  have htrans : ∀ a b c : α, (le a b ∧ a ≠ b) → (le b c ∧ b ≠ c) → (le a c ∧ a ≠ c) := by
    rintro a b c ⟨hab, hne1⟩ ⟨hbc, hne2⟩
    refine ⟨htr a b c hab hbc, ?_⟩
    rintro rfl
    exact hne1 (hanti a b hab hbc)
  haveI : IsTrans α (fun a b => le a b ∧ a ≠ b) := ⟨fun a b c h1 h2 => htrans a b c h1 h2⟩
  have : l.Pairwise (fun a b => le a b ∧ a ≠ b) := List.chain'_iff_pairwise.mp hlt
  exact List.Pairwise.imp (fun h => h.2) this

/-! ## Triples and their lexicographic order

The Rust code derives `Ord` on `IdTriple { subject, predicate, object }`,
giving lexicographic comparison on `(s, p, o)`.  We model id triples as
`Nat × Nat × Nat` with that order. -/

/-- Id triple `(subject, predicate, object)`. -/
abbrev IdTrip := Nat × Nat × Nat

/-- Lexicographic `≤` on id triples: the derived `Ord` of `IdTriple`. -/
def tripleLe (a b : IdTrip) : Bool :=
  decide (a.1 < b.1 ∨ (a.1 = b.1 ∧ (a.2.1 < b.2.1 ∨ (a.2.1 = b.2.1 ∧ a.2.2 ≤ b.2.2))))

/-- Strict lexicographic `<` on id triples. -/
def tripleLt (a b : IdTrip) : Prop :=
  a.1 < b.1 ∨ (a.1 = b.1 ∧ (a.2.1 < b.2.1 ∨ (a.2.1 = b.2.1 ∧ a.2.2 < b.2.2)))

instance (a b : IdTrip) : Decidable (tripleLt a b) :=
  decidable_of_iff
    (a.1 < b.1 ∨ (a.1 = b.1 ∧ (a.2.1 < b.2.1 ∨ (a.2.1 = b.2.1 ∧ a.2.2 < b.2.2)))) Iff.rfl

theorem tripleLe_total (a b : IdTrip) : tripleLe a b = true ∨ tripleLe b a = true := by
  simp only [tripleLe, decide_eq_true_eq]
  omega

theorem tripleLe_trans {a b c : IdTrip} (h1 : tripleLe a b = true) (h2 : tripleLe b c = true) :
    tripleLe a c = true := by
  simp only [tripleLe, decide_eq_true_eq] at *
  omega

theorem tripleLe_antisymm {a b : IdTrip} (h1 : tripleLe a b = true) (h2 : tripleLe b a = true) :
    a = b := by
  obtain ⟨a1, a2, a3⟩ := a
  obtain ⟨b1, b2, b3⟩ := b
  simp only [tripleLe, decide_eq_true_eq] at h1 h2
  simp only [Prod.mk.injEq]
  omega

instance : IsTotal IdTrip (fun a b => tripleLe a b = true) := ⟨tripleLe_total⟩

instance : IsTrans IdTrip (fun a b => tripleLe a b = true) :=
  ⟨fun _ _ _ h1 h2 => tripleLe_trans h1 h2⟩

/-- `par_sort_unstable` on a vector of id triples (an unstable comparison
sort; modelled by insertion sort, which computes the same sorted list). -/
def sortTriples (l : List IdTrip) : List IdTrip :=
  List.insertionSort (fun a b => tripleLe a b = true) l

/-- `par_sort_unstable` followed by `dedup` on a vector of id triples,
as performed by `SimpleLayerBuilder::commit`. -/
def sortDedupTriples (l : List IdTrip) : List IdTrip :=
  rustDedup (sortTriples l)

theorem sortDedupTriples_nodup (l : List IdTrip) : (sortDedupTriples l).Nodup := by
  have hsorted : (sortTriples l).Pairwise (fun a b => tripleLe a b = true) :=
    List.sorted_insertionSort _ l
  have hsub : (sortDedupTriples l).Sublist (sortTriples l) := rustDedup_sublist _
  have hpw : (sortDedupTriples l).Pairwise (fun a b => tripleLe a b = true) :=
    hsorted.sublist hsub
  exact nodup_of_pairwise_le_chain_ne
    (fun a b h1 h2 => tripleLe_antisymm h1 h2)
    (fun a b c h1 h2 => tripleLe_trans h1 h2)
    hpw (rustDedup_chain_ne _)

theorem mem_rustDedup {α : Type} [DecidableEq α] {l : List α} {a : α} :
    a ∈ rustDedup l ↔ a ∈ l := by
  induction l with
  | nil => simp [rustDedup]
  | cons b rest ih =>
    cases rest with
    | nil => simp [rustDedup]
    | cons c rest' =>
      by_cases h : b = c
      · subst h
        rw [rustDedup, if_pos rfl]
        rw [ih]
        simp
      · rw [rustDedup, if_neg h]
        simp only [List.mem_cons] at *
        rw [ih]

theorem mem_sortDedupTriples {l : List IdTrip} {t : IdTrip} :
    t ∈ sortDedupTriples l ↔ t ∈ l := by
  unfold sortDedupTriples sortTriples
  rw [mem_rustDedup, (List.perm_insertionSort _ l).mem_iff]

/-! ## The base triple stream (`src/layer/base.rs`)

`BaseTripleStream` joins the `sp_o` adjacency pair stream against the
`s_p` adjacency pair stream to recover `(s, p, o)` triples.  Streams are
shallowly embedded as the lists of items they eventually yield;
`poll_next` becomes a step function consuming list heads. -/

/-- Errors surfaced by the triple stream join. -/
inductive StreamError : Type
  | unexpectedEof
  deriving DecidableEq, Repr

/-- The mutable state of `BaseTripleStream`: `last_s_p` and `last_sp`. -/
structure BTSState : Type where
  lastS : Nat
  lastP : Nat
  lastSp : Nat
  deriving DecidableEq, Repr

/-- One `poll_next` of `BaseTripleStream` (src/layer/base.rs:501-533).
Returns `none` when the `sp_o` stream is exhausted, otherwise the yielded
triple together with the advanced streams and state. -/
def btsPoll (spo sp : List (Nat × Nat)) (st : BTSState) :
    Except StreamError (Option (IdTrip × (List (Nat × Nat) × List (Nat × Nat) × BTSState))) :=
  match spo with
  | [] => .ok none
  | (spv, o) :: spoRest =>
    if st.lastSp < spv then
      match sp with
      | [] => .error .unexpectedEof
      | (s, p) :: spRest =>
        .ok (some ((s, p, o), (spoRest, spRest, ⟨s, p, spv⟩)))
    else
      .ok (some ((st.lastS, st.lastP, o), (spoRest, sp, st)))

/-- Driving `BaseTripleStream` to completion: collect every triple the
stream yields, or the first error. -/
def btsRun (spo sp : List (Nat × Nat)) (st : BTSState) :
    Except StreamError (List IdTrip) :=
  match spo with
  | [] => .ok []
  | (spv, o) :: spoRest =>
    if st.lastSp < spv then
      match sp with
      | [] => .error .unexpectedEof
      | (s, p) :: spRest =>
        (btsRun spoRest spRest ⟨s, p, spv⟩).map (fun l => (s, p, o) :: l)
    else
      (btsRun spoRest sp st).map (fun l => (st.lastS, st.lastP, o) :: l)

/-- `Modelled from the spec:` the forward `TripleFileBuilder`
(`src/layer/builder.rs` is not part of the sources).  Per §4.6 the S→P
side receives `(subject, predicate)` pairs de-duplicated per subject.
This is the list of pairs it pushes, given the previous `(s, p)`. -/
def spList : Nat × Nat → List IdTrip → List (Nat × Nat)
  | _, [] => []
  | (ls, lp), (s, p, _) :: rest =>
    if s = ls ∧ p = lp then spList (ls, lp) rest
    else (s, p) :: spList (s, p) rest

/-- `Modelled from the spec:` the SP→O side of the `TripleFileBuilder`
(§4.6): left is an internal "sp pair id" incremented whenever `(s, p)`
changes, right is the object id. -/
def spoList : Nat → Nat × Nat → List IdTrip → List (Nat × Nat)
  | _, _, [] => []
  | i, (ls, lp), (s, p, o) :: rest =>
    if s = ls ∧ p = lp then (i, o) :: spoList i (ls, lp) rest
    else (i + 1, o) :: spoList (i + 1) (s, p) rest

/-- Joining the two pair lists produced by the triple file builder
recovers exactly the input triples.  This is the heart of claim C3 and
holds for arbitrary triple lists (ordering is only needed to justify
that the adjacency files faithfully store these pair lists). -/
theorem btsRun_spoList_spList (ts : List IdTrip) :
    ∀ (ls lp i : Nat),
      btsRun (spoList i (ls, lp) ts) (spList (ls, lp) ts) ⟨ls, lp, i⟩ = .ok ts := by
  induction ts with
  | nil => intro ls lp i; simp [btsRun, spoList, spList]
  | cons t rest ih =>
    intro ls lp i
    obtain ⟨s, p, o⟩ := t
    by_cases h : s = ls ∧ p = lp
    · obtain ⟨rfl, rfl⟩ := h
      have hc : s = s ∧ p = p := ⟨rfl, rfl⟩
      simp only [spoList, spList, if_pos hc]
      simp [btsRun, ih s p i, Except.map]
    · simp only [spoList, spList, if_neg h]
      simp [btsRun, ih s p (i + 1), Except.map]

/-! ## Adjacency lists (`src/structure/adjacencylist.rs`)

The on-disk adjacency list is a `LogArray` of right-hand values (`nums`)
plus a `BitIndex` (`bits`) of equal length marking the last pair of each
left value.  `bitindex.rs`/`logarray.rs` are not in the sources, so the
rank/select primitives are modelled from the spec (§4.1): `rank1 i`
counts set bits in positions `0..=i`, `select1 k` finds the position of
the k-th set bit (`k` is 1-based, as used by `offset_for`/`end_for`). -/

/-- `Modelled from the spec:` `rank1(i)` of a BitIndex — the number of 1
bits among positions `0..=i` (`bitindex.rs` is not in the sources). -/
def rank1 (bits : List Bool) (i : Nat) : Nat :=
  (bits.take (i + 1)).count true

/-- `Modelled from the spec:` `select1(k)` of a BitIndex — the position
of the k-th 1 bit, 1-based in `k` (`bitindex.rs` is not in the sources). -/
def select1 : List Bool → Nat → Option Nat
  | [], _ => none
  | true :: bs, k => if k ≤ 1 then some 0 else (select1 bs (k - 1)).map (· + 1)
  | false :: bs, k => (select1 bs k).map (· + 1)

/-- A parsed adjacency list: the `nums` LogArray and the `bits` BitIndex. -/
structure AdjList : Type where
  nums : List Nat
  bits : List Bool
  deriving DecidableEq, Repr

/-- `AdjacencyList::left_count` (src/structure/adjacencylist.rs:52-58). -/
def AdjList.leftCount (al : AdjList) : Nat :=
  if al.bits.length = 0 then 0 else rank1 al.bits (al.bits.length - 1)

/-- `AdjacencyList::offset_for` (src/structure/adjacencylist.rs:64-70);
the `unwrap` on `select1` is modelled by `Option`. -/
def AdjList.offsetFor (al : AdjList) (index : Nat) : Option Nat :=
  if index = 1 then some 0 else (select1 al.bits (index - 1)).map (· + 1)

/-- `AdjacencyList::get` (src/structure/adjacencylist.rs:99-116).  The two
`panic!` branches and the `select1` unwraps are modelled as `none`; the
LogArray `slice` is `drop`/`take` (`logarray.rs` is not in the sources). -/
def AdjList.get (al : AdjList) (index : Nat) : Option (List Nat) :=
  if index < 1 then none
  else if al.leftCount < index then none
  else do
    let start ← al.offsetFor index
    let e ← select1 al.bits index
    pure ((al.nums.drop start).take (e + 1 - start))

/-- The loop of `AdjacencyListIterator::next`
(src/structure/adjacencylist.rs:146-168): walk the positions, bump `left`
after each set bit, and skip zero right-hand values. -/
def adjIterGo : List Bool → List Nat → Nat → List (Nat × Nat)
  | b :: bs, n :: ns, left =>
    let rest := adjIterGo bs ns (if b then left + 1 else left)
    if n = 0 then rest else (left, n) :: rest
  | _, _, _ => []

/-- `AdjacencyList::iter` (src/structure/adjacencylist.rs:118-125). -/
def AdjList.iter (al : AdjList) : List (Nat × Nat) :=
  adjIterGo al.bits al.nums 1

/-- `adjacency_list_stream_pairs` (src/structure/adjacencylist.rs:206-213):
stream the bits and nums files, counting lefts from 1 and filtering out
zero rights.  Semantically identical to the in-memory iterator. -/
def adjStreamPairs (bits : List Bool) (nums : List Nat) : List (Nat × Nat) :=
  adjIterGo bits nums 1

/-- The state of `AdjacencyListBuilder`: the bit and num arrays written so
far plus the last pushed pair. -/
structure AdjBuilder : Type where
  bits : List Bool
  nums : List Nat
  lastLeft : Nat
  lastRight : Nat
  deriving DecidableEq, Repr

/-- A fresh `AdjacencyListBuilder` (src/structure/adjacencylist.rs:238-258). -/
def AdjBuilder.init : AdjBuilder := ⟨[], [], 0, 0⟩

/-- `AdjacencyListBuilder::push` (src/structure/adjacencylist.rs:260-320).
The `panic!("tried to push an unordered adjacent pair")` is `none`. -/
def adjPush (b : AdjBuilder) (left right : Nat) : Option AdjBuilder :=
  if left < b.lastLeft ∨ (left = b.lastLeft ∧ right ≤ b.lastRight) then none
  else if b.lastLeft = 0 ∧ left - b.lastLeft = 1 then
    -- first entry with no skip: no bit is pushed yet
    some ⟨b.bits, b.nums ++ [right], left, right⟩
  else if left - b.lastLeft = 0 then
    -- same left as before: the previous entry was not the last one
    some ⟨b.bits ++ [false], b.nums ++ [right], left, right⟩
  else
    -- greater left: close the previous segment and materialise holes
    some ⟨b.bits ++ List.replicate
            (if b.lastLeft = 0 then left - b.lastLeft - 1 else left - b.lastLeft) true,
          b.nums ++ List.replicate (left - b.lastLeft - 1) 0 ++ [right], left, right⟩

/-- `AdjacencyListBuilder::push_all` (src/structure/adjacencylist.rs:322-327). -/
def adjPushAll (b : AdjBuilder) (pairs : List (Nat × Nat)) : Option AdjBuilder :=
  pairs.foldlM (fun st (p : Nat × Nat) => adjPush st p.1 p.2) b

/-- `AdjacencyListBuilder::finalize` (src/structure/adjacencylist.rs:329-351):
append the trailing 1 bit when any pair was pushed. -/
def adjFinalize (b : AdjBuilder) : AdjList :=
  ⟨b.nums, if b.nums.length = 0 then b.bits else b.bits ++ [true]⟩

/-! ### Characterising the built structure

After pushing pairs in strict `(left, right)` ascending order with lefts
`≥ 1`, the built arrays decompose into one segment per left value
`1..L`: the segment for `m` holds the rights pushed for `m`, or the
single hole entry `0`, and `bits` ends each segment with a 1. -/

/-- Strict lexicographic order on pushed pairs. -/
def pairLt (a b : Nat × Nat) : Prop :=
  a.1 < b.1 ∨ (a.1 = b.1 ∧ a.2 < b.2)

instance (a b : Nat × Nat) : Decidable (pairLt a b) :=
  decidable_of_iff (a.1 < b.1 ∨ (a.1 = b.1 ∧ a.2 < b.2)) Iff.rfl

instance : IsTrans (Nat × Nat) pairLt :=
  ⟨fun a b c h1 h2 => by unfold pairLt at *; omega⟩

/-- The rights pushed for left value `m`, in push order. -/
def rightsFor (pairs : List (Nat × Nat)) (m : Nat) : List Nat :=
  (pairs.filter (fun p => p.1 = m)).map (·.2)

/-- The stored segment for left value `m`: the pushed rights, or the hole
entry `[0]`. -/
def groupFor (pairs : List (Nat × Nat)) (m : Nat) : List Nat :=
  if rightsFor pairs m = [] then [0] else rightsFor pairs m

/-- The largest pushed left value (0 if nothing was pushed). -/
def lastLeftOf (pairs : List (Nat × Nat)) : Nat :=
  (pairs.getLast?.map (·.1)).getD 0

/-- The last pushed right value (0 if nothing was pushed). -/
def lastRightOf (pairs : List (Nat × Nat)) : Nat :=
  (pairs.getLast?.map (·.2)).getD 0

/-- All stored segments, for left values `1..L_max`. -/
def groupsOf (pairs : List (Nat × Nat)) : List (List Nat) :=
  (List.range (lastLeftOf pairs)).map (fun i => groupFor pairs (i + 1))

/-- The bit array corresponding to a list of segments: each segment
contributes `0*(len-1) 1`. -/
def bitsOfGroups (gs : List (List Nat)) : List Bool :=
  gs.flatMap (fun g => List.replicate (g.length - 1) false ++ [true])

theorem rightsFor_concat (pairs : List (Nat × Nat)) (q : Nat × Nat) (m : Nat) :
    rightsFor (pairs ++ [q]) m
      = rightsFor pairs m ++ (if q.1 = m then [q.2] else []) := by
  unfold rightsFor
  rw [List.filter_append, List.map_append]
  by_cases h : q.1 = m <;> simp [h]

theorem lastLeftOf_concat (pairs : List (Nat × Nat)) (q : Nat × Nat) :
    lastLeftOf (pairs ++ [q]) = q.1 := by
  unfold lastLeftOf
  rw [List.getLast?_concat]
  rfl

theorem lastRightOf_concat (pairs : List (Nat × Nat)) (q : Nat × Nat) :
    lastRightOf (pairs ++ [q]) = q.2 := by
  unfold lastRightOf
  rw [List.getLast?_concat]
  rfl

theorem left_le_lastLeftOf {pairs : List (Nat × Nat)}
    (hchain : pairs.Chain' pairLt) : ∀ p ∈ pairs, p.1 ≤ lastLeftOf pairs := by
  induction pairs using List.reverseRecOn with
  | nil => intro p hp; simp at hp
  | append_singleton rest q ih =>
    intro p hp
    rw [lastLeftOf_concat]
    rcases List.mem_append.mp hp with hmem | hq
    · rcases List.chain'_append.mp hchain with ⟨hc1, _, hrel⟩
      rcases hlast : rest.getLast? with _ | last
      · rcases rest with _ | ⟨a, t⟩
        · simp at hmem
        · simp [List.getLast?_eq_getLast] at hlast
      · have hrel' : pairLt last q := hrel last hlast q rfl
        have hle : p.1 ≤ lastLeftOf rest := ih hc1 p hmem
        have : lastLeftOf rest = last.1 := by
          unfold lastLeftOf; rw [hlast]; rfl
        unfold pairLt at hrel'
        omega
    · simp only [List.mem_singleton] at hq
      subst hq
      exact le_refl _

theorem rightsFor_eq_nil_of_gt {pairs : List (Nat × Nat)}
    (hchain : pairs.Chain' pairLt) {m : Nat} (hm : lastLeftOf pairs < m) :
    rightsFor pairs m = [] := by
  unfold rightsFor
  rw [List.map_eq_nil_iff, List.filter_eq_nil_iff]
  intro p hp
  have := left_le_lastLeftOf hchain p hp
  simp only [decide_eq_true_eq]
  omega

theorem rightsFor_lastLeftOf_ne_nil {pairs : List (Nat × Nat)} (h : pairs ≠ []) :
    rightsFor pairs (lastLeftOf pairs) ≠ [] := by
  have hlast : pairs.getLast h ∈ pairs := List.getLast_mem h
  have hL : lastLeftOf pairs = (pairs.getLast h).1 := by
    unfold lastLeftOf
    rw [List.getLast?_eq_getLast pairs h]
    rfl
  unfold rightsFor
  intro hcon
  rw [List.map_eq_nil_iff, List.filter_eq_nil_iff] at hcon
  exact hcon _ hlast (by simp [hL])

theorem groupsOf_concat_same {pairs : List (Nat × Nat)} {q : Nat × Nat}
    (hne : pairs ≠ []) (heq : q.1 = lastLeftOf pairs) (hL1 : 1 ≤ lastLeftOf pairs) :
    groupsOf (pairs ++ [q])
      = (List.range (lastLeftOf pairs - 1)).map (fun i => groupFor pairs (i + 1))
        ++ [groupFor pairs (lastLeftOf pairs) ++ [q.2]] := by
  set L := lastLeftOf pairs with hLdef
  unfold groupsOf
  rw [lastLeftOf_concat, heq]
  have hLsplit : L = (L - 1) + 1 := by omega
  rw [hLsplit, List.range_succ, List.map_append]
  congr 1
  · apply List.map_congr_left
    intro i hi
    rw [List.mem_range] at hi
    unfold groupFor
    rw [rightsFor_concat, heq]
    have hne' : ¬ (L = i + 1) := by omega
    simp [hne']
  · simp only [List.map_cons, List.map_nil]
    congr 1
    unfold groupFor
    rw [rightsFor_concat, heq]
    have hiq : L - 1 + 1 = L := by omega
    rw [hiq]
    have hnn : rightsFor pairs L ≠ [] := rightsFor_lastLeftOf_ne_nil hne
    simp [hnn]

theorem groupsOf_concat_new {pairs : List (Nat × Nat)} {q : Nat × Nat}
    (hchain : pairs.Chain' pairLt) (hgt : lastLeftOf pairs < q.1) :
    groupsOf (pairs ++ [q])
      = groupsOf pairs ++ List.replicate (q.1 - lastLeftOf pairs - 1) [0] ++ [[q.2]] := by
  set L := lastLeftOf pairs with hLdef
  set k := q.1 - L - 1 with hkdef
  unfold groupsOf
  rw [lastLeftOf_concat, List.append_assoc]
  have hsplit : q.1 = L + (k + 1) := by omega
  rw [hsplit, List.range_add, List.map_append, List.map_map]
  congr 1
  · -- segments 1..L are unchanged
    apply List.map_congr_left
    intro i hi
    rw [List.mem_range] at hi
    unfold groupFor
    rw [rightsFor_concat]
    have hne' : ¬ (q.1 = i + 1) := by omega
    simp [hne']
  · -- the holes L+1..q.1-1 followed by the new segment [q.2]
    rw [List.range_succ, List.map_append]
    congr 1
    · -- holes
      have hconst : ∀ i ∈ List.range k,
          ((fun i => groupFor (pairs ++ [q]) (i + 1)) ∘ (fun x => L + x)) i = [0] := by
        intro i hi
        rw [List.mem_range] at hi
        simp only [Function.comp_apply]
        unfold groupFor
        rw [rightsFor_concat]
        have h1 : ¬ (q.1 = L + i + 1) := by omega
        have h2 : rightsFor pairs (L + i + 1) = [] :=
          rightsFor_eq_nil_of_gt hchain (by omega)
        simp [h1, h2]
      rw [List.map_congr_left hconst]
      simp
    · -- the new final segment
      simp only [List.map_cons, List.map_nil, Function.comp_apply]
      congr 1
      unfold groupFor
      rw [rightsFor_concat]
      have h1 : q.1 = L + k + 1 := by omega
      have h2 : rightsFor pairs (L + k + 1) = [] :=
        rightsFor_eq_nil_of_gt hchain (by omega)
      simp [h1, h2]

theorem flatten_replicate_singleton {α : Type} (k : Nat) (a : α) :
    (List.replicate k [a]).flatten = List.replicate k a := by
  induction k with
  | zero => rfl
  | succ n ih => simp [List.replicate_succ, ih]

theorem bitsOfGroups_append (a b : List (List Nat)) :
    bitsOfGroups (a ++ b) = bitsOfGroups a ++ bitsOfGroups b := by
  unfold bitsOfGroups
  exact List.flatMap_append ..

theorem bitsOfGroups_replicate_hole (k : Nat) :
    bitsOfGroups (List.replicate k [0]) = List.replicate k true := by
  induction k with
  | zero => rfl
  | succ n ih => simp only [List.replicate_succ, bitsOfGroups, List.flatMap_cons] at *; simp [ih]

theorem groupFor_ne_nil (pairs : List (Nat × Nat)) (m : Nat) : groupFor pairs m ≠ [] := by
  unfold groupFor
  by_cases h : rightsFor pairs m = [] <;> simp [h]

theorem getLast?_cons_zero (rest : List (Nat × Nat)) :
    ((0, 0) :: rest).getLast? = some (lastLeftOf rest, lastRightOf rest) := by
  induction rest using List.reverseRecOn with
  | nil => rfl
  | append_singleton t q _ =>
    rw [show (0, 0) :: (t ++ [q]) = ((0, 0) :: t) ++ [q] by rfl, List.getLast?_concat,
        lastLeftOf_concat, lastRightOf_concat]

theorem lastLeftOf_pos {pairs : List ((Nat × Nat))} (hne : pairs ≠ [])
    (hl : ∀ p ∈ pairs, 1 ≤ p.1) : 1 ≤ lastLeftOf pairs := by
  have hlast : pairs.getLast hne ∈ pairs := List.getLast_mem hne
  have hL : lastLeftOf pairs = (pairs.getLast hne).1 := by
    unfold lastLeftOf
    rw [List.getLast?_eq_getLast pairs hne]
    rfl
  rw [hL]
  exact hl _ hlast

theorem lastLeftOf_nil : lastLeftOf [] = 0 := rfl

theorem groupsOf_nil : groupsOf [] = [] := rfl

/-- The invariant tying a builder state to the pairs pushed so far:
`nums` holds the flattened segments and `bits` lags exactly one closing
1 bit behind the segment encoding (the lag described in the source
comment at src/structure/adjacencylist.rs:261-263). -/
def AdjInv (pairs : List (Nat × Nat)) (st : AdjBuilder) : Prop :=
  st.lastLeft = lastLeftOf pairs ∧
  st.lastRight = lastRightOf pairs ∧
  st.nums = (groupsOf pairs).flatten ∧
  ((pairs = [] ∧ st.bits = []) ∨
    (pairs ≠ [] ∧ st.bits ++ [true] = bitsOfGroups (groupsOf pairs)))

/-- Pushing strictly ascending pairs with positive lefts always succeeds
and produces the canonical segment encoding. -/
theorem adjPushAll_char (pairs : List (Nat × Nat))
    (hchain : List.Chain' pairLt ((0, 0) :: pairs))
    (hl : ∀ p ∈ pairs, 1 ≤ p.1) :
    ∃ st, adjPushAll AdjBuilder.init pairs = some st ∧ AdjInv pairs st := by
  induction pairs using List.reverseRecOn with
  | nil =>
    exact ⟨AdjBuilder.init, rfl, rfl, rfl, rfl, Or.inl ⟨rfl, rfl⟩⟩
  | append_singleton rest q ih =>
    have hchain' : List.Chain' pairLt (((0, 0) :: rest) ++ [q]) := hchain
    rcases List.chain'_append.mp hchain' with ⟨hc1, _, hrel⟩
    have hrel' : pairLt (lastLeftOf rest, lastRightOf rest) q :=
      hrel _ (getLast?_cons_zero rest) q rfl
    have hl' : ∀ p ∈ rest, 1 ≤ p.1 := fun p hp => hl p (List.mem_append.mpr (Or.inl hp))
    have hq1 : 1 ≤ q.1 := hl q (List.mem_append.mpr (Or.inr (List.mem_singleton.mpr rfl)))
    obtain ⟨st, hrun, hll, hlr, hnums, hbits⟩ := ih hc1 hl'
    have hpush : adjPushAll AdjBuilder.init (rest ++ [q])
        = (adjPushAll AdjBuilder.init rest).bind (fun s => adjPush s q.1 q.2) := by
      unfold adjPushAll
      rw [List.foldlM_append]
      simp
    rw [hpush, hrun]
    simp only [Option.some_bind]
    have hrel2 : lastLeftOf rest < q.1 ∨ (lastLeftOf rest = q.1 ∧ lastRightOf rest < q.2) := by
      unfold pairLt at hrel'
      simpa using hrel'
    have hguard : ¬ (q.1 < st.lastLeft ∨ (q.1 = st.lastLeft ∧ q.2 ≤ st.lastRight)) := by
      rw [hll, hlr]
      omega
    rcases hbits with ⟨hrest_nil, hbits_nil⟩ | ⟨hrest_ne, hbits_eq⟩
    · -- rest = []: the builder is still in its initial state
      subst hrest_nil
      have hll0 : st.lastLeft = 0 := hll
      have hnums0 : st.nums = [] := by simpa [groupsOf, lastLeftOf] using hnums
      by_cases hone : q.1 = 1
      · -- first entry, no skip
        refine ⟨⟨st.bits, st.nums ++ [q.2], q.1, q.2⟩, ?_, ?_, ?_, ?_, ?_⟩
        · unfold adjPush
          rw [if_neg hguard, if_pos ⟨hll0, by omega⟩]
        · rw [lastLeftOf_concat]
        · rw [lastRightOf_concat]
        · rw [groupsOf_concat_new List.chain'_nil (by rw [lastLeftOf_nil]; omega)]
          simp only [hone, hnums0, hbits_nil, groupsOf_nil, lastLeftOf_nil, List.nil_append]
          simp [flatten_replicate_singleton]
        · refine Or.inr ⟨by simp, ?_⟩
          rw [groupsOf_concat_new List.chain'_nil (by rw [lastLeftOf_nil]; omega)]
          simp only [hone, hbits_nil, groupsOf_nil, lastLeftOf_nil, List.nil_append]
          rw [bitsOfGroups_append, bitsOfGroups_replicate_hole]
          simp [bitsOfGroups]
      · -- first entry with a skip: q.1 ≥ 2
        have hq2 : 2 ≤ q.1 := by omega
        refine ⟨⟨st.bits ++ List.replicate (q.1 - st.lastLeft - 1) true,
                 st.nums ++ List.replicate (q.1 - st.lastLeft - 1) 0 ++ [q.2], q.1, q.2⟩,
                 ?_, ?_, ?_, ?_, ?_⟩
        · unfold adjPush
          rw [if_neg hguard, if_neg (by omega), if_neg (by omega), if_pos hll0]
        · rw [lastLeftOf_concat]
        · rw [lastRightOf_concat]
        · rw [groupsOf_concat_new List.chain'_nil (by rw [lastLeftOf_nil]; omega)]
          simp only [hll0, hnums0, hbits_nil, groupsOf_nil, lastLeftOf_nil, List.nil_append]
          rw [List.flatten_append, flatten_replicate_singleton]
          simp
        · refine Or.inr ⟨by simp, ?_⟩
          rw [groupsOf_concat_new List.chain'_nil (by rw [lastLeftOf_nil]; omega)]
          simp only [hll0, hbits_nil, groupsOf_nil, lastLeftOf_nil, List.nil_append]
          rw [bitsOfGroups_append, bitsOfGroups_replicate_hole]
          simp [bitsOfGroups]
    · -- rest is nonempty
      have hchain_rest : rest.Chain' pairLt := hc1.tail
      have hLpos : 1 ≤ lastLeftOf rest := lastLeftOf_pos hrest_ne hl'
      have hllpos : st.lastLeft ≠ 0 := by omega
      by_cases hsame : q.1 = lastLeftOf rest
      · -- same left: extend the last segment
        refine ⟨⟨st.bits ++ [false], st.nums ++ [q.2], q.1, q.2⟩, ?_, ?_, ?_, ?_, ?_⟩
        · unfold adjPush
          rw [if_neg hguard, if_neg (by omega), if_pos (by omega)]
        · rw [lastLeftOf_concat]
        · rw [lastRightOf_concat]
        · rw [groupsOf_concat_same hrest_ne hsame hLpos]
          -- old nums are the flatten of all segments; split off the last one
          have hold : groupsOf rest
              = (List.range (lastLeftOf rest - 1)).map (fun i => groupFor rest (i + 1))
                ++ [groupFor rest (lastLeftOf rest)] := by
            unfold groupsOf
            conv_lhs => rw [show lastLeftOf rest = (lastLeftOf rest - 1) + 1 by omega]
            rw [List.range_succ, List.map_append]
            simp only [List.map_cons, List.map_nil]
            rw [show lastLeftOf rest - 1 + 1 = lastLeftOf rest from by omega]
          simp [hnums, hold, List.flatten_append]
        · refine Or.inr ⟨by simp, ?_⟩
          have hold : groupsOf rest
              = (List.range (lastLeftOf rest - 1)).map (fun i => groupFor rest (i + 1))
                ++ [groupFor rest (lastLeftOf rest)] := by
            unfold groupsOf
            conv_lhs => rw [show lastLeftOf rest = (lastLeftOf rest - 1) + 1 by omega]
            rw [List.range_succ, List.map_append]
            simp only [List.map_cons, List.map_nil]
            rw [show lastLeftOf rest - 1 + 1 = lastLeftOf rest from by omega]
          rw [groupsOf_concat_same hrest_ne hsame hLpos, bitsOfGroups_append]
          rw [hold, bitsOfGroups_append] at hbits_eq
          have hgne : groupFor rest (lastLeftOf rest) ≠ [] := groupFor_ne_nil rest _
          have hlen : (groupFor rest (lastLeftOf rest)).length - 1 + 1
              = (groupFor rest (lastLeftOf rest)).length := by
            cases hg : groupFor rest (lastLeftOf rest) with
            | nil => exact absurd hg hgne
            | cons a t => simp
          -- cancel the final `true` of the old encoding
          have hbits' : st.bits
              = bitsOfGroups ((List.range (lastLeftOf rest - 1)).map
                  (fun i => groupFor rest (i + 1)))
                ++ List.replicate ((groupFor rest (lastLeftOf rest)).length - 1) false := by
            have := hbits_eq
            simp only [bitsOfGroups, List.flatMap_cons, List.flatMap_nil, List.append_nil] at this
            rw [← List.append_assoc] at this
            exact List.append_cancel_right this
          rw [hbits']
          simp only [bitsOfGroups, List.flatMap_cons, List.flatMap_nil, List.append_nil]
          rw [List.length_append]
          simp only [List.length_singleton]
          rw [List.append_assoc, List.append_assoc]
          congr 1
          rw [← List.append_assoc]
          rw [show List.replicate ((groupFor rest (lastLeftOf rest)).length - 1) false ++ [false]
              = List.replicate ((groupFor rest (lastLeftOf rest)).length - 1 + 1) false by
            rw [List.replicate_succ']]
          rw [hlen]
          simp
      · -- strictly greater left: close the segment and materialise holes
        have hgt : lastLeftOf rest < q.1 := by
          unfold pairLt at hrel'
          simp only at hrel'
          omega
        refine ⟨⟨st.bits ++ List.replicate (q.1 - st.lastLeft) true,
                 st.nums ++ List.replicate (q.1 - st.lastLeft - 1) 0 ++ [q.2], q.1, q.2⟩,
                 ?_, ?_, ?_, ?_, ?_⟩
        · unfold adjPush
          rw [if_neg hguard, if_neg (by omega), if_neg (by omega), if_neg hllpos]
        · rw [lastLeftOf_concat]
        · rw [lastRightOf_concat]
        · rw [groupsOf_concat_new hchain_rest hgt, hnums, hll]
          rw [List.flatten_append, List.flatten_append, flatten_replicate_singleton]
          simp
        · refine Or.inr ⟨by simp, ?_⟩
          rw [groupsOf_concat_new hchain_rest hgt, bitsOfGroups_append, bitsOfGroups_append,
            bitsOfGroups_replicate_hole, hll, ← hbits_eq]
          have hsingle : bitsOfGroups [[q.2]] = [true] := by simp [bitsOfGroups]
          rw [hsingle,
            show q.1 - lastLeftOf rest = (q.1 - lastLeftOf rest - 1) + 1 from by omega,
            List.replicate_succ]
          simp

/-! ### rank/select over the canonical segment encoding -/

theorem select1_replicate_false (m : Nat) (l : List Bool) (k : Nat) :
    select1 (List.replicate m false ++ l) k = (select1 l k).map (· + m) := by
  induction m with
  | zero => simp
  | succ n ih =>
    rw [List.replicate_succ, List.cons_append, select1, ih]
    cases select1 l k with
    | none => rfl
    | some v => simp; omega

theorem flatten_take_length_pos {gs : List (List Nat)} (hne : ∀ g ∈ gs, g ≠ [])
    {k : Nat} (hk1 : 1 ≤ k) (hkl : k ≤ gs.length) :
    1 ≤ ((gs.take k).flatten).length := by
  cases gs with
  | nil => simp at hkl; omega
  | cons g rest =>
    have hg : g ≠ [] := hne g (List.mem_cons_self g rest)
    have hglen : 0 < g.length := List.length_pos.mpr hg
    rcases k with _ | k
    · omega
    · rw [List.take_succ_cons, List.flatten_cons, List.length_append]
      omega

theorem select1_bitsOfGroups (gs : List (List Nat)) (hne : ∀ g ∈ gs, g ≠ [])
    (k : Nat) (hk1 : 1 ≤ k) (hk2 : k ≤ gs.length) :
    select1 (bitsOfGroups gs) k = some (((gs.take k).flatten).length - 1) := by
  induction gs generalizing k with
  | nil => simp at hk2; omega
  | cons g rest ih =>
    have hg : g ≠ [] := hne g (List.mem_cons_self g rest)
    have hglen : 1 ≤ g.length := by
      cases g with
      | nil => exact absurd rfl hg
      | cons a t => simp
    rw [show bitsOfGroups (g :: rest)
        = List.replicate (g.length - 1) false ++ (true :: bitsOfGroups rest) by
      simp [bitsOfGroups]]
    rw [select1_replicate_false]
    have hk2r : k ≤ rest.length + 1 := by
      have := hk2
      simp only [List.length_cons] at this
      omega
    rcases Nat.eq_or_lt_of_le hk1 with h1 | h2
    · -- k = 1
      rw [← h1]
      rw [show select1 (true :: bitsOfGroups rest) 1 = some 0 from by simp [select1]]
      simp only [Option.map_some']
      rw [List.take_succ_cons, List.take_zero, List.flatten_cons, List.flatten_nil,
        List.append_nil]
      simp
    · -- k ≥ 2
      have hk2' : 2 ≤ k := h2
      have hsel : select1 (true :: bitsOfGroups rest) k
          = (select1 (bitsOfGroups rest) (k - 1)).map (· + 1) := by
        simp only [select1]
        rw [if_neg (by omega : ¬ k ≤ 1)]
      rw [hsel]
      rw [ih (fun g' hg' => hne g' (List.mem_cons_of_mem _ hg')) (k - 1) (by omega)
        (by omega)]
      have hpos : 1 ≤ ((rest.take (k - 1)).flatten).length :=
        flatten_take_length_pos (fun g' hg' => hne g' (List.mem_cons_of_mem _ hg'))
          (by omega) (by omega)
      simp only [Option.map_some']
      rw [show k = (k - 1) + 1 from by omega, List.take_succ_cons, List.flatten_cons,
        List.length_append]
      simp only [Nat.add_sub_cancel]
      congr 1
      omega

theorem count_bitsOfGroups (gs : List (List Nat)) :
    (bitsOfGroups gs).count true = gs.length := by
  induction gs with
  | nil => rfl
  | cons g rest ih =>
    rw [show bitsOfGroups (g :: rest)
        = List.replicate (g.length - 1) false ++ ([true] ++ bitsOfGroups rest) by
      simp [bitsOfGroups]]
    rw [List.count_append, List.count_append, ih]
    simp [List.count_replicate, Nat.add_comm]

theorem length_bitsOfGroups (gs : List (List Nat)) (hne : ∀ g ∈ gs, g ≠ []) :
    (bitsOfGroups gs).length = gs.flatten.length := by
  induction gs with
  | nil => rfl
  | cons g rest ih =>
    have hg : g ≠ [] := hne g (List.mem_cons_self g rest)
    have hglen : 1 ≤ g.length := by
      cases g with
      | nil => exact absurd rfl hg
      | cons a t => simp
    rw [show bitsOfGroups (g :: rest)
        = List.replicate (g.length - 1) false ++ ([true] ++ bitsOfGroups rest) by
      simp [bitsOfGroups]]
    rw [List.flatten_cons]
    simp only [List.length_append, List.length_replicate, List.length_singleton]
    rw [ih (fun g' hg' => hne g' (List.mem_cons_of_mem _ hg'))]
    omega

theorem leftCount_groups (gs : List (List Nat)) (hne : ∀ g ∈ gs, g ≠ []) :
    (AdjList.mk gs.flatten (bitsOfGroups gs)).leftCount = gs.length := by
  unfold AdjList.leftCount
  by_cases h : (bitsOfGroups gs).length = 0
  · rw [if_pos h]
    cases gs with
    | nil => rfl
    | cons g rest =>
      exfalso
      have hg : g ≠ [] := hne g (List.mem_cons_self g rest)
      have : (bitsOfGroups (g :: rest)).length ≠ 0 := by
        rw [show bitsOfGroups (g :: rest)
            = (List.replicate (g.length - 1) false ++ [true]) ++ bitsOfGroups rest from by
          simp [bitsOfGroups]]
        simp only [List.length_append, List.length_replicate, List.length_singleton]
        omega
      exact this h
  · rw [if_neg h]
    unfold rank1
    rw [show (bitsOfGroups gs).length - 1 + 1 = (bitsOfGroups gs).length from by omega,
      List.take_length, count_bitsOfGroups]

/-- `get m` on the canonical segment encoding returns exactly segment `m`. -/
theorem adjGet_groups (gs : List (List Nat)) (hne : ∀ g ∈ gs, g ≠ [])
    (m : Nat) (h1 : 1 ≤ m) (h2 : m ≤ gs.length) :
    (AdjList.mk gs.flatten (bitsOfGroups gs)).get m = some (gs.getD (m - 1) []) := by
  unfold AdjList.get
  rw [if_neg (by omega), if_neg (by rw [leftCount_groups gs hne]; omega)]
  have hsel_m : select1 (bitsOfGroups gs) m = some (((gs.take m).flatten).length - 1) :=
    select1_bitsOfGroups gs hne m h1 h2
  have hstart : (AdjList.mk gs.flatten (bitsOfGroups gs)).offsetFor m
      = some (((gs.take (m - 1)).flatten).length) := by
    unfold AdjList.offsetFor
    by_cases hm1 : m = 1
    · rw [if_pos hm1, hm1]
      simp
    · rw [if_neg hm1]
      rw [select1_bitsOfGroups gs hne (m - 1) (by omega) (by omega)]
      have hpos : 1 ≤ ((gs.take (m - 1)).flatten).length :=
        flatten_take_length_pos hne (by omega) (by omega)
      simp only [Option.map_some']
      congr 1
      omega
  rw [hstart, hsel_m]
  simp only [Option.bind_eq_bind, Option.some_bind, Option.pure_def]
  congr 1
  -- the slice [start, end] is exactly segment m
  have hsplit : gs = gs.take (m - 1) ++ (gs.getD (m - 1) [] :: gs.drop m) := by
    conv_lhs => rw [← List.take_append_drop (m - 1) gs]
    congr 1
    rw [show m = (m - 1) + 1 from by omega]
    rw [List.drop_eq_getElem_cons (by omega)]
    congr 1
    rw [List.getD_eq_getElem _ _ (by omega)]
  have hlen1 : (gs.take (m - 1)).length = m - 1 := by
    rw [List.length_take]
    omega
  have htakem : (gs.take m).flatten
      = (gs.take (m - 1)).flatten ++ gs.getD (m - 1) [] := by
    conv_lhs => rw [hsplit]
    rw [List.take_append_eq_append_take, hlen1]
    rw [List.take_of_length_le (by rw [hlen1]; omega)]
    rw [show m - (m - 1) = 1 from by omega]
    rw [show List.take 1 (gs.getD (m - 1) [] :: gs.drop m) = [gs.getD (m - 1) []] from rfl]
    simp [List.flatten_append]
  have hflat : gs.flatten = (gs.take (m - 1)).flatten
      ++ (gs.getD (m - 1) [] ++ (gs.drop m).flatten) := by
    conv_lhs => rw [hsplit]
    simp [List.flatten_append]
  rw [hflat, htakem]
  rw [List.drop_left]
  rw [List.length_append]
  have hBpos : 1 ≤ (gs.getD (m - 1) []).length := by
    have hmem : gs.getD (m - 1) [] ∈ gs := by
      rw [List.getD_eq_getElem _ _ (by omega)]
      exact List.getElem_mem _
    exact Nat.succ_le_of_lt (List.length_pos.mpr (hne _ hmem))
  rw [show ((gs.take (m - 1)).flatten).length + (gs.getD (m - 1) []).length - 1 + 1
      - ((gs.take (m - 1)).flatten).length = (gs.getD (m - 1) []).length from by omega]
  exact List.take_left ..

/-! ### Iterator correctness -/

/-- What iterating the canonical segment encoding should produce: for each
segment, its nonzero rights tagged with the left value. -/
def iterSpec : List (List Nat) → Nat → List (Nat × Nat)
  | [], _ => []
  | g :: rest, left =>
    (g.filter (· ≠ 0)).map (fun r => (left, r)) ++ iterSpec rest (left + 1)

theorem adjIterGo_cons (b : Bool) (bs : List Bool) (n : Nat) (ns : List Nat) (left : Nat) :
    adjIterGo (b :: bs) (n :: ns) left
      = if n = 0 then adjIterGo bs ns (if b then left + 1 else left)
        else (left, n) :: adjIterGo bs ns (if b then left + 1 else left) := rfl

theorem adjIterGo_segment (g : List Nat) (hg : g ≠ []) (bs : List Bool) (ns : List Nat)
    (left : Nat) :
    adjIterGo ((List.replicate (g.length - 1) false ++ [true]) ++ bs) (g ++ ns) left
      = (g.filter (· ≠ 0)).map (fun r => (left, r)) ++ adjIterGo bs ns (left + 1) := by
  induction g generalizing left with
  | nil => exact absurd rfl hg
  | cons r g' ih =>
    cases g' with
    | nil =>
      rw [show ((List.replicate (([r] : List Nat).length - 1) false ++ [true]) ++ bs)
          = true :: bs from by simp]
      rw [List.singleton_append, adjIterGo_cons]
      by_cases hr : r = 0
      · simp [hr]
      · simp [hr, List.filter_cons]
    | cons r2 g'' =>
      rw [show ((List.replicate ((r :: r2 :: g'').length - 1) false ++ [true]) ++ bs)
          = false :: ((List.replicate ((r2 :: g'').length - 1) false ++ [true]) ++ bs) from by
        simp [List.replicate_succ]]
      rw [show ((r :: r2 :: g'' : List Nat) ++ ns) = r :: ((r2 :: g'') ++ ns) from rfl]
      rw [adjIterGo_cons]
      rw [show (if (false : Bool) then left + 1 else left) = left from rfl]
      rw [ih (by simp) left]
      by_cases hr : r = 0
      · simp [hr, List.filter_cons]
      · simp [hr, List.filter_cons]

theorem adjIterGo_groups (gs : List (List Nat)) (hne : ∀ g ∈ gs, g ≠ []) (left : Nat) :
    adjIterGo (bitsOfGroups gs) gs.flatten left = iterSpec gs left := by
  induction gs generalizing left with
  | nil => rfl
  | cons g rest ih =>
    rw [show bitsOfGroups (g :: rest)
        = (List.replicate (g.length - 1) false ++ [true]) ++ bitsOfGroups rest from by
      simp [bitsOfGroups]]
    rw [List.flatten_cons]
    rw [adjIterGo_segment g (hne g (List.mem_cons_self g rest)) _ _ left]
    rw [ih (fun g' hg' => hne g' (List.mem_cons_of_mem _ hg')) (left + 1)]
    rfl

theorem iterSpec_append (a b : List (List Nat)) (left : Nat) :
    iterSpec (a ++ b) left = iterSpec a left ++ iterSpec b (left + a.length) := by
  induction a generalizing left with
  | nil => simp [iterSpec]
  | cons g rest ih =>
    rw [List.cons_append, iterSpec, iterSpec, ih (left + 1), List.append_assoc]
    congr 3
    simp
    omega

theorem iterSpec_replicate_hole (k left : Nat) :
    iterSpec (List.replicate k [0]) left = [] := by
  induction k generalizing left with
  | zero => rfl
  | succ n ih => simp [List.replicate_succ, iterSpec, ih]

theorem groupsOf_length (pairs : List (Nat × Nat)) :
    (groupsOf pairs).length = lastLeftOf pairs := by
  unfold groupsOf
  simp

/-- Iterating the canonical segments of a strictly ascending pair list with
positive lefts yields exactly the pairs whose right is nonzero. -/
theorem iterSpec_groupsOf (pairs : List (Nat × Nat))
    (hchain : List.Chain' pairLt ((0, 0) :: pairs))
    (hl : ∀ p ∈ pairs, 1 ≤ p.1) :
    iterSpec (groupsOf pairs) 1 = pairs.filter (fun p => p.2 ≠ 0) := by
  induction pairs using List.reverseRecOn with
  | nil => rfl
  | append_singleton rest q ih =>
    have hchain' : List.Chain' pairLt (((0, 0) :: rest) ++ [q]) := hchain
    rcases List.chain'_append.mp hchain' with ⟨hc1, _, hrel⟩
    have hrel' : pairLt (lastLeftOf rest, lastRightOf rest) q :=
      hrel _ (getLast?_cons_zero rest) q rfl
    have hrel2 : lastLeftOf rest < q.1 ∨ (lastLeftOf rest = q.1 ∧ lastRightOf rest < q.2) := by
      unfold pairLt at hrel'
      simpa using hrel'
    have hl' : ∀ p ∈ rest, 1 ≤ p.1 := fun p hp => hl p (List.mem_append.mpr (Or.inl hp))
    have hq1 : 1 ≤ q.1 := hl q (List.mem_append.mpr (Or.inr (List.mem_singleton.mpr rfl)))
    have hchain_rest : rest.Chain' pairLt := hc1.tail
    have hfq : (rest ++ [q]).filter (fun p => p.2 ≠ 0)
        = rest.filter (fun p => p.2 ≠ 0) ++ (if q.2 ≠ 0 then [q] else []) := by
      rw [List.filter_append]
      congr 1
      by_cases hq : q.2 = 0 <;> simp [List.filter_cons, hq]
    rcases em (rest = []) with hrest_nil | hrest_ne
    · -- only pair
      subst hrest_nil
      rw [groupsOf_concat_new List.chain'_nil (by rw [lastLeftOf_nil]; omega)]
      simp only [groupsOf_nil, lastLeftOf_nil, List.nil_append]
      rw [iterSpec_append, iterSpec_replicate_hole]
      simp only [List.nil_append, List.length_replicate, List.filter_nil]
      rw [show (1 + (q.1 - 0 - 1)) = q.1 from by omega]
      simp only [iterSpec, List.filter_nil, List.append_nil]
      by_cases hq : q.2 = 0
      · simp [hfq, hq, List.filter_cons]
      · simp [hfq, hq, List.filter_cons]
    · have hLpos : 1 ≤ lastLeftOf rest := lastLeftOf_pos hrest_ne hl'
      by_cases hsame : q.1 = lastLeftOf rest
      · -- extend the last segment
        rw [groupsOf_concat_same hrest_ne hsame hLpos]
        have hold : groupsOf rest
            = (List.range (lastLeftOf rest - 1)).map (fun i => groupFor rest (i + 1))
              ++ [groupFor rest (lastLeftOf rest)] := by
          unfold groupsOf
          conv_lhs => rw [show lastLeftOf rest = (lastLeftOf rest - 1) + 1 by omega]
          rw [List.range_succ, List.map_append]
          simp only [List.map_cons, List.map_nil]
          rw [show lastLeftOf rest - 1 + 1 = lastLeftOf rest from by omega]
        rw [iterSpec_append]
        rw [hold, iterSpec_append] at ih
        have hih := ih hc1 hl'
        rw [hfq]
        simp only [iterSpec, List.append_nil, List.length_map, List.length_range] at hih ⊢
        have hfilter : ((groupFor rest (lastLeftOf rest) ++ [q.2]).filter (· ≠ 0))
            = (groupFor rest (lastLeftOf rest)).filter (· ≠ 0)
              ++ (if q.2 ≠ 0 then [q.2] else []) := by
          rw [List.filter_append]
          congr 1
          by_cases hq : q.2 = 0 <;> simp [List.filter_cons, hq]
        rw [hfilter, List.map_append, ← List.append_assoc, hih]
        congr 1
        by_cases hq : q.2 = 0
        · simp [hq]
        · simp only [if_pos hq, List.map_singleton]
          congr 1
          have : 1 + (lastLeftOf rest - 1) = q.1 := by omega
          rw [this]
      · -- new left value
        have hgt : lastLeftOf rest < q.1 := by omega
        rw [groupsOf_concat_new hchain_rest hgt]
        rw [iterSpec_append, iterSpec_append, iterSpec_replicate_hole]
        rw [ih hc1 hl', hfq]
        simp only [List.append_nil, List.length_append, List.length_replicate, groupsOf_length]
        rw [show 1 + (lastLeftOf rest + (q.1 - lastLeftOf rest - 1)) = q.1 from by omega]
        simp only [iterSpec, List.append_nil]
        by_cases hq : q.2 = 0
        · simp [hq, List.filter_cons]
        · simp [hq, List.filter_cons]

theorem adjPush_succeeds {b : AdjBuilder} {left right : Nat}
    (h : ¬ (left < b.lastLeft ∨ (left = b.lastLeft ∧ right ≤ b.lastRight))) :
    ∃ st, adjPush b left right = some st ∧ st.lastLeft = left ∧ st.lastRight = right := by
  unfold adjPush
  rw [if_neg h]
  by_cases h1 : b.lastLeft = 0 ∧ left - b.lastLeft = 1
  · exact ⟨_, by rw [if_pos h1], rfl, rfl⟩
  · rw [if_neg h1]
    by_cases h2 : left - b.lastLeft = 0
    · exact ⟨_, by rw [if_pos h2], rfl, rfl⟩
    · exact ⟨_, by rw [if_neg h2], rfl, rfl⟩

theorem adjPush_eq_none_iff (b : AdjBuilder) (left right : Nat) :
    adjPush b left right = none
      ↔ (left < b.lastLeft ∨ (left = b.lastLeft ∧ right ≤ b.lastRight)) := by
  constructor
  · intro h
    by_contra hc
    obtain ⟨st, hst, -, -⟩ := adjPush_succeeds hc
    rw [h] at hst
    exact Option.noConfusion hst
  · intro h
    unfold adjPush
    rw [if_pos h]

/-- Pushing any strictly ascending pair sequence (as seen from the builder's
current last pair) never reaches the panic branch. -/
theorem adjPushAll_isSome (pairs : List (Nat × Nat)) :
    ∀ (b : AdjBuilder),
      List.Chain' pairLt ((b.lastLeft, b.lastRight) :: pairs) →
      ∃ st, adjPushAll b pairs = some st := by
  induction pairs with
  | nil => exact fun b _ => ⟨b, rfl⟩
  | cons q rest ih =>
    intro b hchain
    rcases List.chain'_cons.mp hchain with ⟨hq, hrest⟩
    have hguard : ¬ (q.1 < b.lastLeft ∨ (q.1 = b.lastLeft ∧ q.2 ≤ b.lastRight)) := by
      unfold pairLt at hq
      simp only at hq
      omega
    obtain ⟨st1, hst1, hfl, hfr⟩ := adjPush_succeeds hguard
    obtain ⟨st2, hst2⟩ := ih st1 (by rw [hfl, hfr]; exact hrest)
    refine ⟨st2, ?_⟩
    unfold adjPushAll at *
    rw [show (q :: rest).foldlM (fun st (p : Nat × Nat) => adjPush st p.1 p.2) b
        = (adjPush b q.1 q.2).bind
            (fun s => rest.foldlM (fun st (p : Nat × Nat) => adjPush st p.1 p.2) s) from rfl]
    rw [hst1, Option.some_bind, hst2]

/-- After `finalize`, the built adjacency list is exactly the canonical
segment encoding of the pushed pairs. -/
theorem adjFinalize_char (pairs : List (Nat × Nat))
    (hchain : List.Chain' pairLt ((0, 0) :: pairs))
    (hl : ∀ p ∈ pairs, 1 ≤ p.1) :
    ∃ st, adjPushAll AdjBuilder.init pairs = some st ∧
      adjFinalize st = ⟨(groupsOf pairs).flatten, bitsOfGroups (groupsOf pairs)⟩ := by
  obtain ⟨st, hrun, hll, hlr, hnums, hbits⟩ := adjPushAll_char pairs hchain hl
  refine ⟨st, hrun, ?_⟩
  rcases hbits with ⟨hnil, hbits0⟩ | ⟨hne, hbits1⟩
  · subst hnil
    unfold adjFinalize
    rw [hnums, hbits0]
    simp only [groupsOf_nil, List.flatten_nil, List.length_nil, if_pos rfl]
    rfl
  · have hLpos : 1 ≤ lastLeftOf pairs := lastLeftOf_pos hne hl
    have hgs_len : (groupsOf pairs).length = lastLeftOf pairs := groupsOf_length pairs
    have hne_groups : ∀ g ∈ groupsOf pairs, g ≠ [] := by
      intro g hg
      unfold groupsOf at hg
      rw [List.mem_map] at hg
      obtain ⟨i, -, rfl⟩ := hg
      exact groupFor_ne_nil pairs (i + 1)
    have hflatpos : 1 ≤ (groupsOf pairs).flatten.length := by
      have := flatten_take_length_pos hne_groups (k := (groupsOf pairs).length)
        (by omega) (le_refl _)
      rwa [List.take_length] at this
    unfold adjFinalize
    rw [hnums]
    rw [if_neg (by omega)]
    rw [hbits1]

theorem groupsOf_getD {pairs : List (Nat × Nat)} {m : Nat}
    (h1 : 1 ≤ m) (h2 : m ≤ lastLeftOf pairs) :
    (groupsOf pairs).getD (m - 1) [] = groupFor pairs m := by
  unfold groupsOf
  rw [List.getD_eq_getElem _ _ (by simp; omega)]
  rw [List.getElem_map, List.getElem_range]
  congr 1
  omega

/-- The three guarantees of claim C5 packaged over the canonical encoding:
every left value in range yields a non-empty slice, holes yield `[0]`, and
iteration returns the pushed pairs with zero rights skipped. -/
theorem adjBuilt_props (pairs : List (Nat × Nat))
    (hchain : List.Chain' pairLt ((0, 0) :: pairs))
    (hl : ∀ p ∈ pairs, 1 ≤ p.1) :
    ∃ st, adjPushAll AdjBuilder.init pairs = some st ∧
      (∀ m, 1 ≤ m → m ≤ lastLeftOf pairs →
        (adjFinalize st).get m = some (groupFor pairs m)) ∧
      (adjFinalize st).iter = pairs.filter (fun p => p.2 ≠ 0) := by
  obtain ⟨st, hrun, hfin⟩ := adjFinalize_char pairs hchain hl
  have hne_groups : ∀ g ∈ groupsOf pairs, g ≠ [] := by
    intro g hg
    unfold groupsOf at hg
    rw [List.mem_map] at hg
    obtain ⟨i, -, rfl⟩ := hg
    exact groupFor_ne_nil pairs (i + 1)
  refine ⟨st, hrun, ?_, ?_⟩
  · intro m hm1 hm2
    rw [hfin]
    rw [adjGet_groups _ hne_groups m hm1 (by rw [groupsOf_length]; exact hm2)]
    rw [groupsOf_getD hm1 hm2]
  · rw [hfin]
    unfold AdjList.iter
    rw [adjIterGo_groups _ hne_groups 1]
    exact iterSpec_groupsOf pairs hchain hl

/-- C5: for every adjacency list built by pushing pairs in strict
`(left, right)` ascending order (lefts and rights positive, i.e. valid ids)
and finalizing, every left `m` in `[1..L_max]` has a non-empty `get m`
slice, a left with no pushed pair yields exactly `[0]`, and the iterator
yields exactly the pushed pairs in push order (positions with right `0`
being skipped). -/
theorem claim_C5_adjacency_get_holes_iter (pairs : List (Nat × Nat))
    (hchain : List.Chain' pairLt ((0, 0) :: pairs))
    (hpos : ∀ p ∈ pairs, 1 ≤ p.1 ∧ 1 ≤ p.2) :
    ∃ st, adjPushAll AdjBuilder.init pairs = some st ∧
      (∀ m, 1 ≤ m → m ≤ lastLeftOf pairs →
        ∃ g, (adjFinalize st).get m = some g ∧ g ≠ [] ∧
          (rightsFor pairs m = [] → g = [0])) ∧
      (adjFinalize st).iter = pairs := by
  obtain ⟨st, hrun, hget, hiter⟩ :=
    adjBuilt_props pairs hchain (fun p hp => (hpos p hp).1)
  refine ⟨st, hrun, ?_, ?_⟩
  · intro m hm1 hm2
    refine ⟨groupFor pairs m, hget m hm1 hm2, groupFor_ne_nil pairs m, ?_⟩
    intro hhole
    unfold groupFor
    rw [if_pos hhole]
  · rw [hiter]
    rw [List.filter_eq_self]
    intro p hp
    have := (hpos p hp).2
    simp only [decide_eq_true_eq]
    omega

/-- C5 witness: the builder example from the source tests,
`[(1,1),(1,3),(2,5),(7,4)]`. -/
theorem claim_C5_witness :
    List.Chain' pairLt ((0, 0) :: [(1, 1), (1, 3), (2, 5), (7, 4)]) ∧
    (∀ p ∈ [((1 : Nat), (1 : Nat)), (1, 3), (2, 5), (7, 4)], 1 ≤ p.1 ∧ 1 ≤ p.2) ∧
    (∃ st, adjPushAll AdjBuilder.init [(1, 1), (1, 3), (2, 5), (7, 4)] = some st ∧
      (∀ m, 1 ≤ m → m ≤ lastLeftOf [(1, 1), (1, 3), (2, 5), (7, 4)] →
        ∃ g, (adjFinalize st).get m = some g ∧ g ≠ [] ∧
          (rightsFor [(1, 1), (1, 3), (2, 5), (7, 4)] m = [] → g = [0])) ∧
      (adjFinalize st).iter = [(1, 1), (1, 3), (2, 5), (7, 4)]) :=
  ⟨by norm_num [List.chain'_cons, pairLt], by decide,
    claim_C5_adjacency_get_holes_iter _ (by norm_num [List.chain'_cons, pairLt]) (by decide)⟩

/-- C9: `AdjacencyListBuilder::push` panics exactly when the new pair is
not strictly greater than the previous one, and a sequence of strictly
ascending pushes never reaches the panic branch. -/
theorem claim_C9_push_panic :
    (∀ (b : AdjBuilder) (left right : Nat),
      adjPush b left right = none
        ↔ (left < b.lastLeft ∨ (left = b.lastLeft ∧ right ≤ b.lastRight))) ∧
    (∀ (pairs : List (Nat × Nat)), List.Chain' pairLt ((0, 0) :: pairs) →
      ∃ st, adjPushAll AdjBuilder.init pairs = some st) :=
  ⟨adjPush_eq_none_iff, fun pairs hchain => adjPushAll_isSome pairs AdjBuilder.init hchain⟩

/-- C9 witness: a strictly ascending sequence pushes fine; an unordered
push is refused. -/
theorem claim_C9_witness :
    List.Chain' pairLt ((0, 0) :: [(1, 2), (3, 1)]) ∧
    (∃ st, adjPushAll AdjBuilder.init [(1, 2), (3, 1)] = some st) ∧
    adjPush ⟨[], [], 2, 2⟩ 1 5 = none :=
  ⟨by norm_num [List.chain'_cons, pairLt],
    claim_C9_push_panic.2 [(1, 2), (3, 1)] (by norm_num [List.chain'_cons, pairLt]),
    (claim_C9_push_panic.1 ⟨[], [], 2, 2⟩ 1 5).mpr (by decide)⟩

/-- C6: if the `sp_o` stream has an entry whose `sp` advanced past the last
observed `sp` while the `s_p` stream is exhausted, polling the base triple
stream fails with `UnexpectedEof`; otherwise (sp not advanced, or `s_p`
non-empty) it yields a triple without error. -/
theorem claim_C6_join_unexpected_eof (spo sp : List (Nat × Nat)) (st : BTSState) :
    (∀ spv o spoRest, spo = (spv, o) :: spoRest → st.lastSp < spv → sp = [] →
      btsPoll spo sp st = .error .unexpectedEof) ∧
    (∀ spv o spoRest, spo = (spv, o) :: spoRest →
      (¬ st.lastSp < spv ∨ sp ≠ []) →
      ∃ t rest, btsPoll spo sp st = .ok (some (t, rest))) := by
  constructor
  · rintro spv o spoRest rfl hadv rfl
    simp [btsPoll, hadv]
  · rintro spv o spoRest rfl hcase
    by_cases hadv : st.lastSp < spv
    · rcases hcase with hno | hne
      · exact absurd hadv hno
      · cases sp with
        | nil => exact absurd rfl hne
        | cons q spRest =>
          obtain ⟨s, p⟩ := q
          refine ⟨(s, p, o), (spoRest, spRest, ⟨s, p, spv⟩), ?_⟩
          simp [btsPoll, hadv]
    · refine ⟨(st.lastS, st.lastP, o), (spoRest, sp, st), ?_⟩
      simp [btsPoll, hadv]

/-- C6 witness: one advancing entry with an exhausted companion errors;
with a companion entry, a triple is yielded. -/
theorem claim_C6_witness :
    btsPoll [(2, 9)] [] ⟨0, 0, 0⟩ = .error .unexpectedEof ∧
    (∃ t rest, btsPoll [(2, 9)] [(1, 1)] ⟨0, 0, 0⟩ = .ok (some (t, rest))) :=
  ⟨(claim_C6_join_unexpected_eof [(2, 9)] [] ⟨0, 0, 0⟩).1 2 9 [] rfl (by decide) rfl,
    (claim_C6_join_unexpected_eof [(2, 9)] [(1, 1)] ⟨0, 0, 0⟩).2 2 9 [] rfl
      (Or.inr (by decide))⟩

/-! ### C3: the full forward round trip -/

theorem spList_mem {ts : List IdTrip} :
    ∀ {ls lp : Nat} {q : Nat × Nat}, q ∈ spList (ls, lp) ts → ∃ t ∈ ts, q = (t.1, t.2.1) := by
  induction ts with
  | nil => intro ls lp q h; simp [spList] at h
  | cons t rest ih =>
    intro ls lp q h
    obtain ⟨s, p, o⟩ := t
    unfold spList at h
    by_cases hsame : s = ls ∧ p = lp
    · rw [if_pos hsame] at h
      obtain ⟨t', ht', rfl⟩ := ih h
      exact ⟨t', List.mem_cons_of_mem _ ht', rfl⟩
    · rw [if_neg hsame] at h
      rcases List.mem_cons.mp h with rfl | h'
      · exact ⟨(s, p, o), List.mem_cons_self _ _, rfl⟩
      · obtain ⟨t', ht', rfl⟩ := ih h'
        exact ⟨t', List.mem_cons_of_mem _ ht', rfl⟩

theorem spoList_mem {ts : List IdTrip} :
    ∀ {i ls lp : Nat} {q : Nat × Nat}, q ∈ spoList i (ls, lp) ts → ∃ t ∈ ts, q.2 = t.2.2 := by
  induction ts with
  | nil => intro i ls lp q h; simp [spoList] at h
  | cons t rest ih =>
    intro i ls lp q h
    obtain ⟨s, p, o⟩ := t
    unfold spoList at h
    by_cases hsame : s = ls ∧ p = lp
    · rw [if_pos hsame] at h
      rcases List.mem_cons.mp h with rfl | h'
      · exact ⟨(s, p, o), List.mem_cons_self _ _, rfl⟩
      · obtain ⟨t', ht', he⟩ := ih h'
        exact ⟨t', List.mem_cons_of_mem _ ht', he⟩
    · rw [if_neg hsame] at h
      rcases List.mem_cons.mp h with rfl | h'
      · exact ⟨(s, p, o), List.mem_cons_self _ _, rfl⟩
      · obtain ⟨t', ht', he⟩ := ih h'
        exact ⟨t', List.mem_cons_of_mem _ ht', he⟩

theorem spoList_left_pos {ts : List IdTrip} :
    ∀ {i ls lp : Nat},
      (1 ≤ i ∨ (∀ t ∈ ts, ¬ (t.1 = ls ∧ t.2.1 = lp))) →
      ∀ q ∈ spoList i (ls, lp) ts, 1 ≤ q.1 := by
  induction ts with
  | nil => intro i ls lp _ q h; simp [spoList] at h
  | cons t rest ih =>
    intro i ls lp hcase q h
    obtain ⟨s, p, o⟩ := t
    unfold spoList at h
    by_cases hsame : s = ls ∧ p = lp
    · have hi : 1 ≤ i := by
        rcases hcase with hi | hno
        · exact hi
        · exact absurd hsame (by simpa using hno (s, p, o) (List.mem_cons_self _ _))
      rw [if_pos hsame] at h
      rcases List.mem_cons.mp h with rfl | h'
      · exact hi
      · exact ih (Or.inl hi) q h'
    · rw [if_neg hsame] at h
      rcases List.mem_cons.mp h with rfl | h'
      · omega
      · exact ih (Or.inl (by omega)) q h'

theorem spList_chain {ts : List IdTrip} :
    ∀ {ls lp o0 : Nat}, List.Chain' tripleLt ((ls, lp, o0) :: ts) →
      List.Chain' pairLt ((ls, lp) :: spList (ls, lp) ts) := by
  induction ts with
  | nil => intro ls lp o0 _; simp [spList]
  | cons t rest ih =>
    intro ls lp o0 hchain
    obtain ⟨s, p, o⟩ := t
    rcases List.chain'_cons.mp hchain with ⟨hrel, hrest⟩
    unfold spList
    by_cases hsame : s = ls ∧ p = lp
    · rw [if_pos hsame]
      obtain ⟨rfl, rfl⟩ := hsame
      exact ih hrest
    · rw [if_neg hsame]
      refine List.chain'_cons.mpr ⟨?_, ih hrest⟩
      unfold tripleLt at hrel
      unfold pairLt
      simp only at hrel ⊢
      rcases hrel with h | ⟨heq, h⟩
      · omega
      · rcases h with h | ⟨heq2, _⟩
        · omega
        · exact absurd ⟨heq.symm, heq2.symm⟩ hsame

theorem spoList_chain {ts : List IdTrip} :
    ∀ {i ls lp o0 : Nat}, List.Chain' tripleLt ((ls, lp, o0) :: ts) →
      List.Chain' pairLt ((i, o0) :: spoList i (ls, lp) ts) := by
  induction ts with
  | nil => intro i ls lp o0 _; simp [spoList]
  | cons t rest ih =>
    intro i ls lp o0 hchain
    obtain ⟨s, p, o⟩ := t
    rcases List.chain'_cons.mp hchain with ⟨hrel, hrest⟩
    unfold spoList
    by_cases hsame : s = ls ∧ p = lp
    · rw [if_pos hsame]
      obtain ⟨rfl, rfl⟩ := hsame
      refine List.chain'_cons.mpr ⟨?_, ih hrest⟩
      unfold tripleLt at hrel
      have h1 : o0 < o := by
        simp at hrel
        omega
      exact Or.inr ⟨rfl, h1⟩
    · rw [if_neg hsame]
      refine List.chain'_cons.mpr ⟨?_, ih hrest⟩
      exact Or.inl (Nat.lt_succ_self i)

/-- C3: triples added in strictly ascending `(s,p,o)` order (with valid,
positive ids) to the phase-2 builder, written into the `s→p` and `sp→o`
adjacency files and streamed back through the base triple stream, come out
exactly as the input sequence. -/
theorem claim_C3_forward_roundtrip (ts : List IdTrip)
    (hchain : List.Chain' tripleLt ts)
    (hpos : ∀ t ∈ ts, 1 ≤ t.1 ∧ 1 ≤ t.2.1 ∧ 1 ≤ t.2.2) :
    ∃ b1 b2, adjPushAll AdjBuilder.init (spList (0, 0) ts) = some b1 ∧
      adjPushAll AdjBuilder.init (spoList 0 (0, 0) ts) = some b2 ∧
      btsRun (adjStreamPairs (adjFinalize b2).bits (adjFinalize b2).nums)
             (adjStreamPairs (adjFinalize b1).bits (adjFinalize b1).nums)
             ⟨0, 0, 0⟩ = .ok ts := by
  have hchain0 : List.Chain' tripleLt ((0, 0, 0) :: ts) := by
    cases ts with
    | nil => simp
    | cons t rest =>
      refine List.chain'_cons.mpr ⟨?_, hchain⟩
      have := (hpos t (List.mem_cons_self t rest)).1
      unfold tripleLt
      simp only
      omega
  have hsp_chain : List.Chain' pairLt ((0, 0) :: spList (0, 0) ts) :=
    spList_chain hchain0
  have hspo_chain : List.Chain' pairLt ((0, 0) :: spoList 0 (0, 0) ts) :=
    spoList_chain hchain0
  have hsp_pos : ∀ p ∈ spList (0, 0) ts, 1 ≤ p.1 ∧ 1 ≤ p.2 := by
    intro q hq
    obtain ⟨t, ht, rfl⟩ := spList_mem hq
    exact ⟨(hpos t ht).1, (hpos t ht).2.1⟩
  have hspo_posl : ∀ q ∈ spoList 0 (0, 0) ts, 1 ≤ q.1 := by
    refine spoList_left_pos (Or.inr ?_)
    intro t ht hc
    have := (hpos t ht).1
    omega
  have hspo_posr : ∀ q ∈ spoList 0 (0, 0) ts, 1 ≤ q.2 := by
    intro q hq
    obtain ⟨t, ht, he⟩ := spoList_mem hq
    rw [he]
    exact (hpos t ht).2.2
  obtain ⟨b1, hb1, -, hiter1⟩ :=
    adjBuilt_props (spList (0, 0) ts) hsp_chain (fun p hp => (hsp_pos p hp).1)
  obtain ⟨b2, hb2, -, hiter2⟩ :=
    adjBuilt_props (spoList 0 (0, 0) ts) hspo_chain hspo_posl
  refine ⟨b1, b2, hb1, hb2, ?_⟩
  have hs1 : adjStreamPairs (adjFinalize b1).bits (adjFinalize b1).nums
      = spList (0, 0) ts := by
    have : (adjFinalize b1).iter
        = adjStreamPairs (adjFinalize b1).bits (adjFinalize b1).nums := rfl
    rw [← this, hiter1, List.filter_eq_self]
    intro p hp
    have := (hsp_pos p hp).2
    simp only [decide_eq_true_eq]
    omega
  have hs2 : adjStreamPairs (adjFinalize b2).bits (adjFinalize b2).nums
      = spoList 0 (0, 0) ts := by
    have : (adjFinalize b2).iter
        = adjStreamPairs (adjFinalize b2).bits (adjFinalize b2).nums := rfl
    rw [← this, hiter2, List.filter_eq_self]
    intro p hp
    have := hspo_posr p hp
    simp only [decide_eq_true_eq]
    omega
  rw [hs1, hs2]
  exact btsRun_spoList_spList ts 0 0 0

/-- C3 witness: the seven example triples from the source tests round-trip. -/
theorem claim_C3_witness :
    List.Chain' tripleLt
      [((1 : Nat), (1 : Nat), (1 : Nat)), (2, 1, 1), (2, 1, 3), (2, 3, 6),
        (3, 2, 5), (3, 3, 6), (4, 3, 6)] ∧
    (∃ b1 b2,
      adjPushAll AdjBuilder.init
        (spList (0, 0)
          [(1, 1, 1), (2, 1, 1), (2, 1, 3), (2, 3, 6), (3, 2, 5), (3, 3, 6), (4, 3, 6)])
        = some b1 ∧
      adjPushAll AdjBuilder.init
        (spoList 0 (0, 0)
          [(1, 1, 1), (2, 1, 1), (2, 1, 3), (2, 3, 6), (3, 2, 5), (3, 3, 6), (4, 3, 6)])
        = some b2 ∧
      btsRun (adjStreamPairs (adjFinalize b2).bits (adjFinalize b2).nums)
             (adjStreamPairs (adjFinalize b1).bits (adjFinalize b1).nums)
             ⟨0, 0, 0⟩
        = .ok [(1, 1, 1), (2, 1, 1), (2, 1, 3), (2, 3, 6), (3, 2, 5), (3, 3, 6), (4, 3, 6)]) :=
  ⟨by norm_num [List.chain'_cons, tripleLt],
    claim_C3_forward_roundtrip _ (by norm_num [List.chain'_cons, tripleLt]) (by decide)⟩

/-! ## The simple layer builder (`src/layer/simple_builder.rs`)

`SimpleLayerBuilder` collects string and id triples and resolves the
strings on commit.  The string-resolution primitives
(`string_triple_to_partially_resolved`, `resolve_with`) live in
`layer/layer.rs`, which is not in the sources; they are modelled from the
spec (§4.8 steps 1 and 6).  A parent layer is abstracted by its four
string-lookup functions and its three counts. -/

/-- The object of a string triple: a node or a value literal. -/
inductive ObjType : Type
  | node (s : String)
  | value (s : String)
  deriving DecidableEq, Repr

/-- `StringTriple`. -/
structure StringTriple : Type where
  subject : String
  predicate : String
  object : ObjType
  deriving DecidableEq, Repr

/-- A possibly resolved subject. -/
inductive PRSubject : Type
  | resolved (id : Nat)
  | unresolved (s : String)
  deriving DecidableEq, Repr

/-- A possibly resolved predicate. -/
inductive PRPredicate : Type
  | resolved (id : Nat)
  | unresolved (s : String)
  deriving DecidableEq, Repr

/-- A possibly resolved object (unresolved ones keep their node/value tag). -/
inductive PRObject : Type
  | resolved (id : Nat)
  | node (s : String)
  | value (s : String)
  deriving DecidableEq, Repr

/-- `PartiallyResolvedTriple`. -/
structure PRTriple : Type where
  subject : PRSubject
  predicate : PRPredicate
  object : PRObject
  deriving DecidableEq, Repr

/-- The view of a parent layer stack that commit needs: string lookups
and counts (`Modelled from the spec:` the `Layer` trait of
`layer/layer.rs` is not in the sources). -/
structure ParentModel : Type where
  subjectId : String → Option Nat
  predicateId : String → Option Nat
  objectNodeId : String → Option Nat
  objectValueId : String → Option Nat
  nodeCount : Nat
  valueCount : Nat
  predicateCount : Nat

/-- `Modelled from the spec:` `Layer::string_triple_to_partially_resolved`
(layer/layer.rs, not in the sources; spec §4.8 step 1): each component
becomes a resolved id when the parent stack knows the string, and stays an
unresolved string otherwise. -/
def stringTripleToPartiallyResolved (pm : ParentModel) (t : StringTriple) : PRTriple :=
  { subject :=
      match pm.subjectId t.subject with
      | some i => .resolved i
      | none => .unresolved t.subject,
    predicate :=
      match pm.predicateId t.predicate with
      | some i => .resolved i
      | none => .unresolved t.predicate,
    object :=
      match t.object with
      | .node s =>
        match pm.objectNodeId s with
        | some i => .resolved i
        | none => .node s
      | .value s =>
        match pm.objectValueId s with
        | some i => .resolved i
        | none => .value s }

/-- `StringTriple::to_unresolved` (used on the base path, where there is
no parent to resolve against). -/
def StringTriple.toUnresolved (t : StringTriple) : PRTriple :=
  { subject := .unresolved t.subject,
    predicate := .unresolved t.predicate,
    object :=
      match t.object with
      | .node s => .node s
      | .value s => .value s }

/-- `IdTriple::to_resolved`. -/
def toResolved (t : IdTrip) : PRTriple :=
  { subject := .resolved t.1, predicate := .resolved t.2.1, object := .resolved t.2.2 }

/-- `PartiallyResolvedTriple::as_resolved`: `Some` only when every
component is resolved. -/
def PRTriple.asResolved (t : PRTriple) : Option IdTrip :=
  match t.subject, t.predicate, t.object with
  | .resolved s, .resolved p, .resolved o => some (s, p, o)
  | _, _, _ => none

/-- `Modelled from the spec:` `PartiallyResolvedTriple::resolve_with`
(layer/layer.rs, not in the sources; spec §4.8 step 6): resolve the
still-unresolved components through the freshly built maps. -/
def resolveSubject (nodeMap : List (String × Nat)) : PRSubject → Option Nat
  | .resolved i => some i
  | .unresolved str => nodeMap.lookup str

/-- Predicate component of `resolve_with`. -/
def resolvePredicate (predMap : List (String × Nat)) : PRPredicate → Option Nat
  | .resolved i => some i
  | .unresolved str => predMap.lookup str

/-- Object component of `resolve_with`: node strings go through the node
map, value strings through the value map. -/
def resolveObject (nodeMap valMap : List (String × Nat)) : PRObject → Option Nat
  | .resolved i => some i
  | .node str => nodeMap.lookup str
  | .value str => valMap.lookup str

/-- `resolve_with` assembled from the three component resolvers. -/
def resolveWith (nodeMap predMap valMap : List (String × Nat)) (t : PRTriple) :
    Option IdTrip := do
  let s ← resolveSubject nodeMap t.subject
  let p ← resolvePredicate predMap t.predicate
  let o ← resolveObject nodeMap valMap t.object
  pure (s, p, o)

/-- Collect into a `HashSet`, then sort: the result is the sorted list of
the distinct collected strings. -/
def sortDedupStrings (l : List String) : List String :=
  List.insertionSort (· ≤ ·) l.dedup

/-- The unresolved node strings of the additions: unresolved subjects and
unresolved node-tagged objects (src/layer/simple_builder.rs:154-185). -/
def unresolvedNodesOf (adds : List PRTriple) : List String :=
  sortDedupStrings
    (adds.flatMap (fun t =>
      (match t.subject with
        | .unresolved s => [s]
        | _ => []) ++
      (match t.object with
        | .node s => [s]
        | _ => [])))

/-- The unresolved predicate strings of the additions
(src/layer/simple_builder.rs:187-203). -/
def unresolvedPredicatesOf (adds : List PRTriple) : List String :=
  sortDedupStrings
    (adds.flatMap (fun t =>
      match t.predicate with
      | .unresolved s => [s]
      | _ => []))

/-- The unresolved value strings of the additions
(src/layer/simple_builder.rs:204-219). -/
def unresolvedValuesOf (adds : List PRTriple) : List String :=
  sortDedupStrings
    (adds.flatMap (fun t =>
      match t.object with
      | .value s => [s]
      | _ => []))

/-- `Modelled from the spec:` the ids handed back by the dictionary-set
builder's `add_nodes`/`add_predicates`/`add_values` for `n` new strings:
the 1-based local ids `1..n` (spec §4.8 step 4; the PFC builder `add` in
src/structure/pfc.rs:353 returns `count + 1`). -/
def localIds (n : Nat) : List Nat :=
  (List.range n).map (· + 1)

/-- The `HashMap` built by zipping new strings with their ids plus an
offset (src/layer/simple_builder.rs:250-264, 300-313), as an association
list. -/
def buildMap (keys : List String) (ids : List Nat) (off : Nat) : List (String × Nat) :=
  (keys.zip ids).map (fun p => (p.1, p.2 + off))

/-- The builder's accumulated state (src/layer/simple_builder.rs:49-57);
the parent is abstracted by `ParentModel`. -/
structure SLBuilder : Type where
  additions : List StringTriple
  idAdditions : List IdTrip
  removals : List StringTriple
  idRemovals : List IdTrip
  parent : Option ParentModel

/-- `SimpleLayerBuilder::add_string_triple` (src/layer/simple_builder.rs:92-94). -/
def SLBuilder.addStringTriple (b : SLBuilder) (t : StringTriple) : SLBuilder :=
  { b with additions := b.additions ++ [t] }

/-- `SimpleLayerBuilder::add_id_triple` (src/layer/simple_builder.rs:96-98). -/
def SLBuilder.addIdTriple (b : SLBuilder) (t : IdTrip) : SLBuilder :=
  { b with idAdditions := b.idAdditions ++ [t] }

/-- `SimpleLayerBuilder::remove_string_triple`
(src/layer/simple_builder.rs:100-104): only recorded when a parent exists. -/
def SLBuilder.removeStringTriple (b : SLBuilder) (t : StringTriple) : SLBuilder :=
  if b.parent.isSome then { b with removals := b.removals ++ [t] } else b

/-- `SimpleLayerBuilder::remove_id_triple`
(src/layer/simple_builder.rs:106-110): only recorded when a parent exists. -/
def SLBuilder.removeIdTriple (b : SLBuilder) (t : IdTrip) : SLBuilder :=
  if b.parent.isSome then { b with idRemovals := b.idRemovals ++ [t] } else b

/-- The partially resolved additions against a parent: resolved string
triples followed by the id additions (src/layer/simple_builder.rs:113-131). -/
def childAdditionsPR (pm : ParentModel) (b : SLBuilder) : List PRTriple :=
  b.additions.map (stringTripleToPartiallyResolved pm) ++ b.idAdditions.map toResolved

/-- The additions of a base builder: unresolved string triples followed by
the id additions (src/layer/simple_builder.rs:114-131). -/
def baseAdditionsPR (b : SLBuilder) : List PRTriple :=
  b.additions.map StringTriple.toUnresolved ++ b.idAdditions.map toResolved

/-- The id removals written by a child commit: string removals that fully
resolve against the parent, extended with the id removals, sorted and
de-duplicated (src/layer/simple_builder.rs:133-149). -/
def childRemovals (pm : ParentModel) (b : SLBuilder) : List IdTrip :=
  sortDedupTriples
    ((b.removals.filterMap (fun t => (stringTripleToPartiallyResolved pm t).asResolved))
      ++ b.idRemovals)

/-- The node map of a child commit: new nodes get local ids offset by
`parent.node_count + parent.value_count` (src/layer/simple_builder.rs:245-253). -/
def childNodeMap (pm : ParentModel) (adds : List PRTriple) : List (String × Nat) :=
  buildMap (unresolvedNodesOf adds) (localIds (unresolvedNodesOf adds).length)
    (pm.nodeCount + pm.valueCount)

/-- The predicate map of a child commit: offset by
`parent.predicate_count` (src/layer/simple_builder.rs:254-259). -/
def childPredMap (pm : ParentModel) (adds : List PRTriple) : List (String × Nat) :=
  buildMap (unresolvedPredicatesOf adds) (localIds (unresolvedPredicatesOf adds).length)
    pm.predicateCount

/-- The value map of a child commit: offset by the node offset plus the
number of new nodes (src/layer/simple_builder.rs:260-264). -/
def childValueMap (pm : ParentModel) (adds : List PRTriple) : List (String × Nat) :=
  buildMap (unresolvedValuesOf adds) (localIds (unresolvedValuesOf adds).length)
    (pm.nodeCount + pm.valueCount + (childNodeMap pm adds).length)

/-- The node map of a base commit: local ids with no offset
(src/layer/simple_builder.rs:300-303). -/
def baseNodeMap (adds : List PRTriple) : List (String × Nat) :=
  buildMap (unresolvedNodesOf adds) (localIds (unresolvedNodesOf adds).length) 0

/-- The predicate map of a base commit (src/layer/simple_builder.rs:304-309). -/
def basePredMap (adds : List PRTriple) : List (String × Nat) :=
  buildMap (unresolvedPredicatesOf adds) (localIds (unresolvedPredicatesOf adds).length) 0

/-- The value map of a base commit: values follow the new nodes
(src/layer/simple_builder.rs:310-313). -/
def baseValueMap (adds : List PRTriple) : List (String × Nat) :=
  buildMap (unresolvedValuesOf adds) (localIds (unresolvedValuesOf adds).length)
    (baseNodeMap adds).length

/-- `SimpleLayerBuilder::commit` (src/layer/simple_builder.rs:112-330),
reduced to the id-triple lists it hands to the phase-2 file writer: the
additions after resolution, sorting and dedup, and the removals after
resolution against the parent, sorting and dedup.  `none` models the
`expect("triple should have been resolvable")` panic.  The phase-2 writer
itself — the commit-time drop of removals the parent stack does not
contain and the ids-within-declared-counts check — is `childPhase2` /
`SLBuilder.commitLayer` below. -/
def SLBuilder.commit (b : SLBuilder) : Option (List IdTrip × List IdTrip) :=
  match b.parent with
  | some pm =>
    ((childAdditionsPR pm b).mapM
        (resolveWith (childNodeMap pm (childAdditionsPR pm b))
          (childPredMap pm (childAdditionsPR pm b))
          (childValueMap pm (childAdditionsPR pm b)))).map
      (fun resolved => (sortDedupTriples resolved, childRemovals pm b))
  | none =>
    ((baseAdditionsPR b).mapM
        (resolveWith (baseNodeMap (baseAdditionsPR b))
          (basePredMap (baseAdditionsPR b))
          (baseValueMap (baseAdditionsPR b)))).map
      (fun resolved => (sortDedupTriples resolved, []))

/-- `Modelled from the spec:` the per-push invariant of §4.6 that every id
of a triple handed to the forward or negative writer lies within the
declared counts (subjects and objects within the node+value count,
predicates within the predicate count, all ids positive). -/
def idsWithinCounts (nvCount pCount : Nat) (t : IdTrip) : Bool :=
  decide (1 ≤ t.1) && decide (t.1 ≤ nvCount) && decide (1 ≤ t.2.1)
    && decide (t.2.1 ≤ pCount) && decide (1 ≤ t.2.2) && decide (t.2.2 ≤ nvCount)

/-- `Modelled from the spec:` the phase-2 layer writer (layer/child.rs and
the base wiring, not in the sources; spec §3.4, §7 and §9a): a removal of
a triple the parent stack does not presently contain is silently dropped
at commit time; and (spec §4.6) every pushed triple must have its ids
within the declared counts — a violation refuses the push (`none`). -/
def childPhase2 (hasTriple : IdTrip → Bool) (nvCount pCount : Nat)
    (adds rems : List IdTrip) : Option (List IdTrip × List IdTrip) :=
  if adds.all (idsWithinCounts nvCount pCount)
      && (rems.filter hasTriple).all (idsWithinCounts nvCount pCount)
  then some (adds, rems.filter hasTriple)
  else none

/-- The full commit-to-layer pipeline: the resolution stage (`commit`)
followed by the phase-2 writer.  `hasTriple` is the parent stack's
`triple_exists` query (spec §4.9), which the §3.4 drop consults; the
declared counts are the parent's counts plus this commit's new strings
(base layers: just the new strings). -/
def SLBuilder.commitLayer (b : SLBuilder) (hasTriple : IdTrip → Bool) :
    Option (List IdTrip × List IdTrip) :=
  (SLBuilder.commit b).bind (fun r =>
    match b.parent with
    | some pm =>
      childPhase2 hasTriple
        (pm.nodeCount + pm.valueCount
          + (childNodeMap pm (childAdditionsPR pm b)).length
          + (childValueMap pm (childAdditionsPR pm b)).length)
        (pm.predicateCount + (childPredMap pm (childAdditionsPR pm b)).length)
        r.1 r.2
    | none =>
      childPhase2 hasTriple
        ((baseNodeMap (baseAdditionsPR b)).length
          + (baseValueMap (baseAdditionsPR b)).length)
        ((basePredMap (baseAdditionsPR b)).length)
        r.1 r.2)

theorem mem_sortDedupStrings {l : List String} {s : String} :
    s ∈ sortDedupStrings l ↔ s ∈ l := by
  unfold sortDedupStrings
  rw [(List.perm_insertionSort _ _).mem_iff, List.mem_dedup]

theorem sortDedupStrings_nodup (l : List String) : (sortDedupStrings l).Nodup := by
  unfold sortDedupStrings
  exact ((List.perm_insertionSort _ _).nodup_iff).mpr l.nodup_dedup

theorem lookup_buildMap_of_mem {keys : List String} {ids : List Nat} {off : Nat}
    (hlen : keys.length ≤ ids.length) {s : String} (hmem : s ∈ keys) :
    ∃ v, (buildMap keys ids off).lookup s = some v := by
  induction keys generalizing ids with
  | nil => simp at hmem
  | cons a rest ih =>
    cases ids with
    | nil => simp at hlen
    | cons i irest =>
      unfold buildMap
      rw [List.zip_cons_cons, List.map_cons]
      dsimp only
      by_cases h : s = a
      · exact ⟨i + off, by simp [List.lookup, h]⟩
      · rcases List.mem_cons.mp hmem with rfl | hmem'
        · exact absurd rfl h
        · obtain ⟨v, hv⟩ := @ih irest (by simp at hlen; omega) hmem'
          refine ⟨v, ?_⟩
          have hbeq : (s == a) = false := by simp [h]
          rw [List.lookup_cons, hbeq]
          exact hv

theorem lookup_buildMap_nodup {keys : List String} {ids : List Nat} {off : Nat}
    (hnd : keys.Nodup) (hlen : ids.length = keys.length) {k : Nat} (hk : k < keys.length) :
    (buildMap keys ids off).lookup (keys.get ⟨k, hk⟩)
      = some (ids.get ⟨k, by omega⟩ + off) := by
  induction keys generalizing ids k with
  | nil => simp at hk
  | cons a rest ih =>
    cases ids with
    | nil => simp at hlen
    | cons i irest =>
      unfold buildMap
      rw [List.zip_cons_cons, List.map_cons]
      dsimp only
      cases k with
      | zero =>
        simp [List.lookup]
      | succ k =>
        have hk' : k < rest.length := by simpa using hk
        have hget : (a :: rest).get ⟨k + 1, hk⟩ = rest.get ⟨k, hk'⟩ := rfl
        rw [hget]
        have hne : rest.get ⟨k, hk'⟩ ≠ a := by
          intro hcon
          have hmem : a ∈ rest := hcon ▸ List.get_mem rest k hk'
          exact (List.nodup_cons.mp hnd).1 hmem
        have hbeq : (rest.get ⟨k, hk'⟩ == a) = false := beq_eq_false_iff_ne.mpr hne
        rw [List.lookup_cons, hbeq]
        have hlen' : irest.length = rest.length := by simpa using hlen
        exact ih (List.nodup_cons.mp hnd).2 hlen' hk'

theorem localIds_get (n k : Nat) (hk : k < n) :
    (localIds n).get ⟨k, by simp [localIds]; omega⟩ = k + 1 := by
  simp [localIds]

theorem localIds_length (n : Nat) : (localIds n).length = n := by
  simp [localIds]

theorem mem_unresolvedNodesOf_subject {adds : List PRTriple} {t : PRTriple} {s : String}
    (ht : t ∈ adds) (hs : t.subject = .unresolved s) : s ∈ unresolvedNodesOf adds := by
  unfold unresolvedNodesOf
  rw [mem_sortDedupStrings, List.mem_flatMap]
  exact ⟨t, ht, by rw [hs]; simp⟩

theorem mem_unresolvedNodesOf_object {adds : List PRTriple} {t : PRTriple} {s : String}
    (ht : t ∈ adds) (hs : t.object = .node s) : s ∈ unresolvedNodesOf adds := by
  unfold unresolvedNodesOf
  rw [mem_sortDedupStrings, List.mem_flatMap]
  refine ⟨t, ht, ?_⟩
  rw [hs, List.mem_append]
  right
  simp

theorem mem_unresolvedPredicatesOf {adds : List PRTriple} {t : PRTriple} {s : String}
    (ht : t ∈ adds) (hs : t.predicate = .unresolved s) : s ∈ unresolvedPredicatesOf adds := by
  unfold unresolvedPredicatesOf
  rw [mem_sortDedupStrings, List.mem_flatMap]
  exact ⟨t, ht, by rw [hs]; simp⟩

theorem mem_unresolvedValuesOf {adds : List PRTriple} {t : PRTriple} {s : String}
    (ht : t ∈ adds) (hs : t.object = .value s) : s ∈ unresolvedValuesOf adds := by
  unfold unresolvedValuesOf
  rw [mem_sortDedupStrings, List.mem_flatMap]
  exact ⟨t, ht, by rw [hs]; simp⟩

theorem resolveWith_isSome {nodeMap predMap valMap : List (String × Nat)} {t : PRTriple}
    (hs : ∀ s, t.subject = .unresolved s → ∃ v, nodeMap.lookup s = some v)
    (hp : ∀ s, t.predicate = .unresolved s → ∃ v, predMap.lookup s = some v)
    (hon : ∀ s, t.object = .node s → ∃ v, nodeMap.lookup s = some v)
    (hov : ∀ s, t.object = .value s → ∃ v, valMap.lookup s = some v) :
    ∃ r, resolveWith nodeMap predMap valMap t = some r := by
  obtain ⟨sv, hsv⟩ : ∃ sv, resolveSubject nodeMap t.subject = some sv := by
    cases ht : t.subject with
    | resolved i => exact ⟨i, rfl⟩
    | unresolved str => exact hs str ht
  obtain ⟨pv, hpv⟩ : ∃ pv, resolvePredicate predMap t.predicate = some pv := by
    cases ht : t.predicate with
    | resolved i => exact ⟨i, rfl⟩
    | unresolved str => exact hp str ht
  obtain ⟨ov, hov2⟩ : ∃ ov, resolveObject nodeMap valMap t.object = some ov := by
    cases ht : t.object with
    | resolved i => exact ⟨i, rfl⟩
    | node str => exact hon str ht
    | value str => exact hov str ht
  refine ⟨(sv, pv, ov), ?_⟩
  unfold resolveWith
  rw [hsv, hpv, hov2]
  rfl

theorem mapM_isSome {α β : Type} {f : α → Option β} {l : List α}
    (h : ∀ t ∈ l, ∃ r, f t = some r) : ∃ rs, l.mapM f = some rs := by
  induction l with
  | nil => exact ⟨[], rfl⟩
  | cons a rest ih =>
    obtain ⟨r, hr⟩ := h a (List.mem_cons_self a rest)
    obtain ⟨rs, hrs⟩ := ih (fun t ht => h t (List.mem_cons_of_mem a ht))
    refine ⟨r :: rs, ?_⟩
    rw [List.mapM_cons, hr, hrs]
    rfl

/-- Every partially resolved addition resolves through the freshly built
maps (the maps cover exactly the unresolved strings), so `commit`'s
`expect` never fires: commit always succeeds. -/
theorem commit_isSome (b : SLBuilder) :
    ∃ adds rems, SLBuilder.commit b = some (adds, rems) := by
  cases hb : b.parent with
  | some pm =>
    have hres : ∀ t ∈ childAdditionsPR pm b,
        ∃ r, resolveWith (childNodeMap pm (childAdditionsPR pm b))
          (childPredMap pm (childAdditionsPR pm b))
          (childValueMap pm (childAdditionsPR pm b)) t = some r := by
      intro t ht
      refine resolveWith_isSome ?_ ?_ ?_ ?_
      · intro s hsub
        exact lookup_buildMap_of_mem (by rw [localIds_length])
          (mem_unresolvedNodesOf_subject ht hsub)
      · intro s hpred
        exact lookup_buildMap_of_mem (by rw [localIds_length])
          (mem_unresolvedPredicatesOf ht hpred)
      · intro s hobj
        exact lookup_buildMap_of_mem (by rw [localIds_length])
          (mem_unresolvedNodesOf_object ht hobj)
      · intro s hobj
        exact lookup_buildMap_of_mem (by rw [localIds_length])
          (mem_unresolvedValuesOf ht hobj)
    obtain ⟨rs, hrs⟩ := mapM_isSome hres
    exact ⟨sortDedupTriples rs, childRemovals pm b, by
      simp only [SLBuilder.commit, hb, hrs, Option.map_some']⟩
  | none =>
    have hres : ∀ t ∈ baseAdditionsPR b,
        ∃ r, resolveWith (baseNodeMap (baseAdditionsPR b))
          (basePredMap (baseAdditionsPR b))
          (baseValueMap (baseAdditionsPR b)) t = some r := by
      intro t ht
      refine resolveWith_isSome ?_ ?_ ?_ ?_
      · intro s hsub
        exact lookup_buildMap_of_mem (by rw [localIds_length])
          (mem_unresolvedNodesOf_subject ht hsub)
      · intro s hpred
        exact lookup_buildMap_of_mem (by rw [localIds_length])
          (mem_unresolvedPredicatesOf ht hpred)
      · intro s hobj
        exact lookup_buildMap_of_mem (by rw [localIds_length])
          (mem_unresolvedNodesOf_object ht hobj)
      · intro s hobj
        exact lookup_buildMap_of_mem (by rw [localIds_length])
          (mem_unresolvedValuesOf ht hobj)
    obtain ⟨rs, hrs⟩ := mapM_isSome hres
    exact ⟨sortDedupTriples rs, [], by
      simp only [SLBuilder.commit, hb, hrs, Option.map_some']⟩

theorem unresolvedNodesOf_nodup (adds : List PRTriple) :
    (unresolvedNodesOf adds).Nodup :=
  sortDedupStrings_nodup _

theorem unresolvedPredicatesOf_nodup (adds : List PRTriple) :
    (unresolvedPredicatesOf adds).Nodup :=
  sortDedupStrings_nodup _

theorem unresolvedValuesOf_nodup (adds : List PRTriple) :
    (unresolvedValuesOf adds).Nodup :=
  sortDedupStrings_nodup _

theorem childNodeMap_length (pm : ParentModel) (adds : List PRTriple) :
    (childNodeMap pm adds).length = (unresolvedNodesOf adds).length := by
  simp [childNodeMap, buildMap, localIds_length]

theorem asResolved_eq_none_of_unresolved_subject {pt : PRTriple} {s : String}
    (h : pt.subject = .unresolved s) : pt.asResolved = none := by
  cases pt with
  | mk sub p o =>
    simp only at h
    subst h
    rfl

theorem asResolved_eq_none_of_unresolved_predicate {pt : PRTriple} {s : String}
    (h : pt.predicate = .unresolved s) : pt.asResolved = none := by
  cases pt with
  | mk sub p o =>
    simp only at h
    subst h
    cases sub <;> rfl

theorem asResolved_eq_none_of_node_object {pt : PRTriple} {s : String}
    (h : pt.object = .node s) : pt.asResolved = none := by
  cases pt with
  | mk sub p o =>
    simp only at h
    subst h
    cases sub <;> cases p <;> rfl

theorem asResolved_eq_none_of_value_object {pt : PRTriple} {s : String}
    (h : pt.object = .value s) : pt.asResolved = none := by
  cases pt with
  | mk sub p o =>
    simp only at h
    subst h
    cases sub <;> cases p <;> rfl

theorem stp_subject_unresolved {pm : ParentModel} {t : StringTriple}
    (h : pm.subjectId t.subject = none) :
    (stringTripleToPartiallyResolved pm t).subject
      = PRSubject.unresolved t.subject := by
  simp [stringTripleToPartiallyResolved, h]

theorem stp_predicate_unresolved {pm : ParentModel} {t : StringTriple}
    (h : pm.predicateId t.predicate = none) :
    (stringTripleToPartiallyResolved pm t).predicate
      = PRPredicate.unresolved t.predicate := by
  simp [stringTripleToPartiallyResolved, h]

theorem stp_object_node_unresolved {pm : ParentModel} {t : StringTriple} {s : String}
    (ht : t.object = ObjType.node s) (h : pm.objectNodeId s = none) :
    (stringTripleToPartiallyResolved pm t).object = PRObject.node s := by
  simp [stringTripleToPartiallyResolved, ht, h]

theorem stp_object_value_unresolved {pm : ParentModel} {t : StringTriple} {s : String}
    (ht : t.object = ObjType.value s) (h : pm.objectValueId s = none) :
    (stringTripleToPartiallyResolved pm t).object = PRObject.value s := by
  simp [stringTripleToPartiallyResolved, ht, h]

theorem stp_asResolved_none {pm : ParentModel} {t : StringTriple}
    (h : pm.subjectId t.subject = none ∨ pm.predicateId t.predicate = none ∨
      (∃ s, t.object = ObjType.node s ∧ pm.objectNodeId s = none) ∨
      (∃ s, t.object = ObjType.value s ∧ pm.objectValueId s = none)) :
    (stringTripleToPartiallyResolved pm t).asResolved = none := by
  rcases h with h | h | ⟨s, ht, h⟩ | ⟨s, ht, h⟩
  · exact asResolved_eq_none_of_unresolved_subject (stp_subject_unresolved h)
  · exact asResolved_eq_none_of_unresolved_predicate (stp_predicate_unresolved h)
  · exact asResolved_eq_none_of_node_object (stp_object_node_unresolved ht h)
  · exact asResolved_eq_none_of_value_object (stp_object_value_unresolved ht h)

/-- A parent stack model that knows no strings and has zero counts. -/
def pmEmpty : ParentModel :=
  ⟨fun _ => none, fun _ => none, fun _ => none, fun _ => none, 0, 0, 0⟩

/-- A parent stack model with three nodes, four values and five
predicates, none of which is reachable by string lookup. -/
def pmCounts : ParentModel :=
  ⟨fun _ => none, fun _ => none, fun _ => none, fun _ => none, 3, 4, 5⟩

/-- One partially resolved addition whose subject, predicate and value are
all new strings. -/
def prNew : PRTriple :=
  ⟨.unresolved "n", .unresolved "p", .value "v"⟩

/-- A child builder that both adds and removes the id triple (1,1,1). -/
def bAddRem : SLBuilder :=
  ⟨[], [(1, 1, 1)], [], [(1, 1, 1)], some pmEmpty⟩

/-- A base builder with a single id-triple addition. -/
def bBaseOne : SLBuilder :=
  ⟨[], [(1, 1, 1)], [], [], none⟩

/-- A string triple none of whose components any parent model above knows. -/
def stNew : StringTriple :=
  ⟨"s", "p", ObjType.node "o"⟩

/-- The two lists `commit` hands to the phase-2 writer are each sorted and
de-duplicated, hence duplicate-free. -/
theorem commit_parts_nodup (b : SLBuilder) (a r : List IdTrip)
    (h : SLBuilder.commit b = some (a, r)) : a.Nodup ∧ r.Nodup := by
  cases hb : b.parent with
  | some pm =>
    simp only [SLBuilder.commit, hb] at h
    rw [Option.map_eq_some'] at h
    obtain ⟨rs, _, heq⟩ := h
    injection heq with h1 h2
    refine ⟨h1 ▸ sortDedupTriples_nodup rs, h2 ▸ ?_⟩
    show (childRemovals pm b).Nodup
    exact sortDedupTriples_nodup _
  | none =>
    simp only [SLBuilder.commit, hb] at h
    rw [Option.map_eq_some'] at h
    obtain ⟨rs, _, heq⟩ := h
    injection heq with h1 h2
    exact ⟨h1 ▸ sortDedupTriples_nodup rs, h2 ▸ List.nodup_nil⟩

/-- A successful phase-2 write passes the additions through unchanged and
keeps exactly the removals the parent stack contains. -/
theorem childPhase2_eq_some {hasTriple : IdTrip → Bool} {nv p : Nat}
    {a r adds rems : List IdTrip}
    (h : childPhase2 hasTriple nv p a r = some (adds, rems)) :
    adds = a ∧ rems = r.filter hasTriple := by
  unfold childPhase2 at h
  split at h
  · simp only [Option.some.injEq, Prod.mk.injEq] at h
    exact ⟨h.1.symm, h.2.symm⟩
  · simp at h

/-- A parent stack model with one node and one predicate; its stack is
taken to contain the id triple (1,1,1). -/
def pmHasOne : ParentModel :=
  ⟨fun _ => none, fun _ => none, fun _ => none, fun _ => none, 1, 0, 1⟩

/-- A child builder over that parent which both adds and removes the id
triple (1,1,1) — every id within the declared counts. -/
def bAddRemOne : SLBuilder :=
  ⟨[], [(1, 1, 1)], [], [(1, 1, 1)], some pmHasOne⟩

/-- A base builder adding the single string triple ("s", "p", value "v"). -/
def bStrBase : SLBuilder :=
  ⟨[⟨"s", "p", ObjType.value "v"⟩], [], [], [], none⟩

/-- C4 (corrected): the additions and removals a successful commit writes
to the layer are each duplicate-free, and every written removal is a
triple the parent stack contains (the rest were silently dropped by the
phase-2 writer); but no step compares the additions against the removals,
so one triple may sit in both lists (see the counterexample). -/
theorem claim_C4_commit_nodup (b : SLBuilder) (hasTriple : IdTrip → Bool)
    (adds rems : List IdTrip)
    (h : SLBuilder.commitLayer b hasTriple = some (adds, rems)) :
    adds.Nodup ∧ rems.Nodup ∧ ∀ t ∈ rems, hasTriple t = true := by
  unfold SLBuilder.commitLayer at h
  cases hc : SLBuilder.commit b with
  | none =>
    rw [hc] at h
    simp at h
  | some r0 =>
    rw [hc, Option.some_bind] at h
    obtain ⟨a0, r1⟩ := r0
    have hnd := commit_parts_nodup b a0 r1 hc
    cases hp : b.parent with
    | some pm =>
      rw [hp] at h
      obtain ⟨h1, h2⟩ := childPhase2_eq_some h
      subst h1
      subst h2
      exact ⟨hnd.1, hnd.2.filter _, fun t ht => (List.mem_filter.mp ht).2⟩
    | none =>
      rw [hp] at h
      obtain ⟨h1, h2⟩ := childPhase2_eq_some h
      subst h1
      subst h2
      exact ⟨hnd.1, hnd.2.filter _, fun t ht => (List.mem_filter.mp ht).2⟩

/-- C4 witness: the base builder adding ("s", "p", value "v") commits to
the layer lists [(1,1,2)] and [] under an empty parent stack; both lists
are duplicate-free and the (empty) removal list is stack-contained. -/
theorem claim_C4_witness :
    ([((1 : Nat), (1 : Nat), (2 : Nat))] : List IdTrip).Nodup ∧
    ([] : List IdTrip).Nodup ∧
    (∀ t ∈ ([] : List IdTrip), (fun _ : IdTrip => false) t = true) :=
  claim_C4_commit_nodup bStrBase (fun _ => false) [(1, 1, 2)] [] (by decide)

/-- C4 counterexample: over a parent whose stack contains (1,1,1) and
whose counts cover every id, the child builder that adds and removes
(1,1,1) commits to the layer successfully — the removal survives the
phase-2 containment drop and every id is within the declared counts —
yet (1,1,1) sits in both the written additions and the written removals,
refuting the claim that no triple occurs in both lists of one layer. -/
theorem claim_C4_counterexample :
    SLBuilder.commitLayer bAddRemOne (fun t => t == (1, 1, 1))
        = some ([(1, 1, 1)], [(1, 1, 1)]) ∧
    ((((1, 1, 1) : IdTrip) == (1, 1, 1)) = true) ∧
    ((1, 1, 1) ∈ ([((1 : Nat), (1 : Nat), (1 : Nat))] : List IdTrip)) :=
  ⟨by decide, by decide, by decide⟩

/-- C7: on a child commit the freshly built maps hand every new string its
local id plus the parent-derived offset: new nodes get
parent_node_count + parent_value_count, new predicates get
parent_predicate_count, and new values additionally skip past the new
nodes. -/
theorem claim_C7_child_id_offsets (pm : ParentModel) (adds : List PRTriple)
    (kn kp kv : Nat)
    (hn : kn < (unresolvedNodesOf adds).length)
    (hp : kp < (unresolvedPredicatesOf adds).length)
    (hv : kv < (unresolvedValuesOf adds).length) :
    (childNodeMap pm adds).lookup ((unresolvedNodesOf adds).get ⟨kn, hn⟩)
        = some (kn + 1 + (pm.nodeCount + pm.valueCount)) ∧
    (childPredMap pm adds).lookup ((unresolvedPredicatesOf adds).get ⟨kp, hp⟩)
        = some (kp + 1 + pm.predicateCount) ∧
    (childValueMap pm adds).lookup ((unresolvedValuesOf adds).get ⟨kv, hv⟩)
        = some (kv + 1 + (pm.nodeCount + pm.valueCount + (unresolvedNodesOf adds).length)) := by
  refine ⟨?_, ?_, ?_⟩
  · have h := @lookup_buildMap_nodup (unresolvedNodesOf adds) _
      (pm.nodeCount + pm.valueCount)
      (unresolvedNodesOf_nodup adds) (localIds_length _) kn hn
    rw [localIds_get] at h
    exact h
    exact hn
  · have h := @lookup_buildMap_nodup (unresolvedPredicatesOf adds) _
      pm.predicateCount
      (unresolvedPredicatesOf_nodup adds) (localIds_length _) kp hp
    rw [localIds_get] at h
    exact h
    exact hp
  · unfold childValueMap
    rw [childNodeMap_length]
    have h := @lookup_buildMap_nodup (unresolvedValuesOf adds) _
      (pm.nodeCount + pm.valueCount + (unresolvedNodesOf adds).length)
      (unresolvedValuesOf_nodup adds) (localIds_length _) kv hv
    rw [localIds_get] at h
    exact h
    exact hv

/-- C7 witness: against a parent with 3 nodes, 4 values and 5 predicates,
the one new node "n" gets id 1+(3+4) = 8, the new predicate "p" gets
1+5 = 6, and the new value "v" gets 1+(3+4+1) = 9. -/
theorem claim_C7_witness :
    (childNodeMap pmCounts [prNew]).lookup
        ((unresolvedNodesOf [prNew]).get ⟨0, by decide⟩) = some 8 ∧
    (childPredMap pmCounts [prNew]).lookup
        ((unresolvedPredicatesOf [prNew]).get ⟨0, by decide⟩) = some 6 ∧
    (childValueMap pmCounts [prNew]).lookup
        ((unresolvedValuesOf [prNew]).get ⟨0, by decide⟩) = some 9 :=
  claim_C7_child_id_offsets pmCounts [prNew] 0 0 0 (by decide) (by decide) (by decide)

/-- C8: removals that cannot apply are dropped.  On a parentless builder
remove_string_triple and remove_id_triple leave the builder unchanged; a
string removal any of whose components — subject, predicate, or object
(node or value) — does not resolve against the parent stack partially
resolves to a triple that as_resolved rejects, so appending it to any
child builder's removals leaves the committed removals unchanged; and
commit succeeds regardless. -/
theorem claim_C8_removals_dropped (b bc b2 : SLBuilder) (pm : ParentModel)
    (t : StringTriple) (it : IdTrip)
    (hb : b.parent = none)
    (hunres : pm.subjectId t.subject = none ∨ pm.predicateId t.predicate = none ∨
      (∃ s, t.object = ObjType.node s ∧ pm.objectNodeId s = none) ∨
      (∃ s, t.object = ObjType.value s ∧ pm.objectValueId s = none)) :
    SLBuilder.removeStringTriple b t = b ∧
    SLBuilder.removeIdTriple b it = b ∧
    (stringTripleToPartiallyResolved pm t).asResolved = none ∧
    childRemovals pm { bc with removals := bc.removals ++ [t] } = childRemovals pm bc ∧
    ∃ adds rems, SLBuilder.commit b2 = some (adds, rems) := by
  have h3 : (stringTripleToPartiallyResolved pm t).asResolved = none :=
    stp_asResolved_none hunres
  refine ⟨?_, ?_, h3, ?_, commit_isSome b2⟩
  · simp [SLBuilder.removeStringTriple, hb]
  · simp [SLBuilder.removeIdTriple, hb]
  · simp [childRemovals, List.filterMap_append, h3]

/-- C8 witness: on the parentless base builder the removals are discarded
outright; the string triple ("s","p",node "o") does not resolve against
the empty parent (here exhibited through its subject; the predicate and
object clauses are symmetric disjuncts of the same hypothesis), appending
it to the child builder's removals changes nothing, and that child
builder's commit still succeeds. -/
theorem claim_C8_witness :
    SLBuilder.removeStringTriple bBaseOne stNew = bBaseOne ∧
    SLBuilder.removeIdTriple bBaseOne (2, 2, 2) = bBaseOne ∧
    (stringTripleToPartiallyResolved pmEmpty stNew).asResolved = none ∧
    childRemovals pmEmpty { bAddRem with removals := bAddRem.removals ++ [stNew] }
        = childRemovals pmEmpty bAddRem ∧
    (∃ adds rems, SLBuilder.commit bAddRem = some (adds, rems)) :=
  claim_C8_removals_dropped bBaseOne bAddRem bAddRem pmEmpty stNew (2, 2, 2) rfl
    (Or.inl rfl)

/-! ## The PFC dictionary (`src/structure/pfc.rs`)

Strings are byte sequences (`List Nat`); Rust's `&[u8]` comparison is the
byte-lexicographic `bytesCmp` below.  The vbyte codec (`vbyte.rs`, not in
the sources) is modelled with the termination bit on the LAST byte: the
repository's own tests force this choice, since
`retrieve_all_strings_from_file` streams a dictionary containing adjacent
strings with common prefix 0 through `PfcDecoder`, which treats a leading
0 byte as end of stream — so `encode 0` cannot be the byte 0. -/

/-- Dictionary strings as raw byte sequences. -/
abbrev ByteStr := List Nat

/-- Byte-slice comparison, as Rust's `Ord` on `&[u8]`/`str`. -/
def bytesCmp : ByteStr → ByteStr → Ordering
  | [], [] => .eq
  | [], _ :: _ => .lt
  | _ :: _, [] => .gt
  | a :: as, b :: bs => if a < b then .lt else if b < a then .gt else bytesCmp as bs

/-- Strict byte-lexicographic order. -/
def bytesLt (a b : ByteStr) : Prop := bytesCmp a b = Ordering.lt

instance (a b : ByteStr) : Decidable (bytesLt a b) :=
  decidable_of_iff (bytesCmp a b = Ordering.lt) Iff.rfl

theorem bytesCmp_eq_iff {a b : ByteStr} : bytesCmp a b = Ordering.eq ↔ a = b := by
  induction a generalizing b with
  | nil => cases b <;> simp [bytesCmp]
  | cons x as ih =>
    cases b with
    | nil => simp [bytesCmp]
    | cons y bs =>
      by_cases h1 : x < y
      · simp [bytesCmp, h1]
        omega
      · by_cases h2 : y < x
        · simp [bytesCmp, h1, h2]
          omega
        · have hxy : x = y := by omega
          subst hxy
          simp [bytesCmp, h1, h2, ih]

theorem bytesCmp_refl (a : ByteStr) : bytesCmp a a = Ordering.eq :=
  bytesCmp_eq_iff.mpr rfl

theorem bytesCmp_gt_iff {a b : ByteStr} :
    bytesCmp a b = Ordering.gt ↔ bytesCmp b a = Ordering.lt := by
  induction a generalizing b with
  | nil => cases b <;> simp [bytesCmp]
  | cons x as ih =>
    cases b with
    | nil => simp [bytesCmp]
    | cons y bs =>
      by_cases h1 : x < y
      · have h2 : ¬ y < x := by omega
        simp [bytesCmp, h1, h2]
      · by_cases h2 : y < x
        · simp [bytesCmp, h1, h2]
        · simp [bytesCmp, h1, h2, ih]

theorem bytesLt_trans {a b c : ByteStr} (h1 : bytesLt a b) (h2 : bytesLt b c) :
    bytesLt a c := by
  unfold bytesLt at *
  induction a generalizing b c with
  | nil =>
    cases c with
    | nil =>
      cases b with
      | nil => simp [bytesCmp] at h1
      | cons y bs => simp [bytesCmp] at h2
    | cons z cs => simp [bytesCmp]
  | cons x as ih =>
    cases b with
    | nil => simp [bytesCmp] at h1
    | cons y bs =>
      cases c with
      | nil => simp [bytesCmp] at h2
      | cons z cs =>
        simp only [bytesCmp] at h1 h2 ⊢
        by_cases hxy : x < y
        · by_cases hyz : y < z
          · have hxz : x < z := by omega
            simp [hxz]
          · by_cases hzy : z < y
            · simp [hyz, hzy] at h2
            · have hyz2 : y = z := by omega
              subst hyz2
              simp [hxy]
        · by_cases hyx : y < x
          · simp [hxy, hyx] at h1
          · have hxy2 : x = y := by omega
            subst hxy2
            by_cases hyz : x < z
            · simp [hyz]
            · by_cases hzy : z < x
              · simp [hyz, hzy] at h2
              · have hyz2 : x = z := by omega
                subst hyz2
                simp [hyz] at h1 h2 ⊢
                exact ih h1 h2

theorem bytesLt_irrefl (a : ByteStr) : ¬ bytesLt a a := by
  unfold bytesLt
  rw [bytesCmp_refl]
  simp

theorem bytesLt_asymm {a b : ByteStr} (h : bytesLt a b) : ¬ bytesLt b a := by
  intro h2
  exact bytesLt_irrefl a (bytesLt_trans h h2)

theorem bytesLt_ne {a b : ByteStr} (h : bytesLt a b) : a ≠ b := by
  intro hcon
  subst hcon
  exact bytesLt_irrefl a h

theorem bytesCmp_total (a b : ByteStr) :
    bytesCmp a b = Ordering.lt ∨ bytesCmp a b = Ordering.eq ∨
      bytesCmp a b = Ordering.gt := by
  cases h : bytesCmp a b
  · exact Or.inl rfl
  · exact Or.inr (Or.inl rfl)
  · exact Or.inr (Or.inr rfl)

instance : IsTrans ByteStr bytesLt := ⟨fun _ _ _ h1 h2 => bytesLt_trans h1 h2⟩

/-- `find_common_prefix` (util.rs, not in the sources; `Modelled from the
spec:` §4.4, the length of the longest common prefix of two byte
sequences). -/
def commonPrefixLen : ByteStr → ByteStr → Nat
  | a :: as, b :: bs => if a = b then commonPrefixLen as bs + 1 else 0
  | _, _ => 0

theorem commonPrefixLen_le_left (a b : ByteStr) : commonPrefixLen a b ≤ a.length := by
  induction a generalizing b with
  | nil => simp [commonPrefixLen]
  | cons x as ih =>
    cases b with
    | nil => simp [commonPrefixLen]
    | cons y bs =>
      by_cases h : x = y
      · simpa [commonPrefixLen, h] using ih bs
      · simp [commonPrefixLen, h]

theorem commonPrefixLen_le_right (a b : ByteStr) : commonPrefixLen a b ≤ b.length := by
  induction a generalizing b with
  | nil => simp [commonPrefixLen]
  | cons x as ih =>
    cases b with
    | nil => simp [commonPrefixLen]
    | cons y bs =>
      by_cases h : x = y
      · simpa [commonPrefixLen, h] using ih bs
      · simp [commonPrefixLen, h]

theorem take_commonPrefixLen_eq (a b : ByteStr) :
    a.take (commonPrefixLen a b) = b.take (commonPrefixLen a b) := by
  induction a generalizing b with
  | nil => simp [commonPrefixLen]
  | cons x as ih =>
    cases b with
    | nil => simp [commonPrefixLen]
    | cons y bs =>
      by_cases h : x = y
      · subst h
        simp [commonPrefixLen, ih bs]
      · simp [commonPrefixLen, h]

theorem take_append_drop_commonPrefixLen (a b : ByteStr) :
    a.take (commonPrefixLen a b) ++ b.drop (commonPrefixLen a b) = b := by
  rw [take_commonPrefixLen_eq]
  exact List.take_append_drop _ b

/-- Fuel-driven core of the vbyte encoder (`vbyte.rs`, not in the
sources; `Modelled from the spec:` §4.3, 7-bit little-endian groups —
with the stop bit on the LAST byte rather than the spec's

"all bytes except the last", as the repository's own streaming-decoder
test demands, see the section comment). -/
def vbEncAux : Nat → Nat → List Nat
  | 0, _ => []
  | fuel + 1, n => if n < 128 then [n + 128] else n % 128 :: vbEncAux fuel (n / 128)

/-- `vbyte::encode`. -/
def vbyteEncode (n : Nat) : List Nat := vbEncAux (n + 1) n

/-- `vbyte::decode`: returns (value, bytes consumed), `none` for a buffer
that ends mid-codeword. -/
def vbyteDecode : List Nat → Option (Nat × Nat)
  | [] => none
  | b :: rest =>
    if 128 ≤ b then some (b - 128, 1)
    else
      match vbyteDecode rest with
      | some (v, len) => some (b + 128 * v, len + 1)
      | none => none

theorem vbEncAux_congr (n f1 f2 : Nat) (h1 : n < f1) (h2 : n < f2) :
    vbEncAux f1 n = vbEncAux f2 n := by
  induction n using Nat.strong_induction_on generalizing f1 f2 with
  | _ n ih =>
    cases f1 with
    | zero => omega
    | succ g1 =>
      cases f2 with
      | zero => omega
      | succ g2 =>
        by_cases hn : n < 128
        · simp [vbEncAux, hn]
        · have hdiv : n / 128 < n := Nat.div_lt_self (by omega) (by omega)
          simp only [vbEncAux, if_neg hn]
          rw [ih (n / 128) hdiv g1 g2 (by omega) (by omega)]

theorem vbyteEncode_eq_of_lt {n : Nat} (h : n < 128) : vbyteEncode n = [n + 128] := by
  simp [vbyteEncode, vbEncAux, h]

theorem vbyteEncode_eq_of_ge {n : Nat} (h : 128 ≤ n) :
    vbyteEncode n = n % 128 :: vbyteEncode (n / 128) := by
  have hdiv : n / 128 < n := Nat.div_lt_self (by omega) (by omega)
  unfold vbyteEncode
  rw [show vbEncAux (n + 1) n
      = if n < 128 then [n + 128] else n % 128 :: vbEncAux n (n / 128) from rfl]
  rw [if_neg (by omega : ¬ n < 128)]
  rw [vbEncAux_congr (n / 128) n (n / 128 + 1) hdiv (by omega)]

theorem vbyteDecode_encode (n : Nat) (rest : List Nat) :
    vbyteDecode (vbyteEncode n ++ rest) = some (n, (vbyteEncode n).length) := by
  induction n using Nat.strong_induction_on with
  | _ n ih =>
    by_cases h : n < 128
    · rw [vbyteEncode_eq_of_lt h]
      simp [vbyteDecode]
    · have hdiv : n / 128 < n := Nat.div_lt_self (by omega) (by omega)
      rw [vbyteEncode_eq_of_ge (by omega)]
      have hmod : ¬ 128 ≤ n % 128 := by
        have := Nat.mod_lt n (show 0 < 128 by omega)
        omega
      rw [List.cons_append]
      simp only [vbyteDecode]
      rw [if_neg hmod, ih (n / 128) hdiv]
      have : n % 128 + 128 * (n / 128) = n := by
        have := Nat.mod_add_div n 128
        omega
      simp [this]

theorem vbyteEncode_length_pos (n : Nat) : 0 < (vbyteEncode n).length := by
  by_cases h : n < 128
  · rw [vbyteEncode_eq_of_lt h]; simp
  · rw [vbyteEncode_eq_of_ge (by omega)]; simp

/-- Position of the first NUL byte (`iter().position(|&b| b == 0)`). -/
def findNul : List Nat → Option Nat
  | [] => none
  | b :: rest => if b = 0 then some 0 else (findNul rest).map (· + 1)

theorem findNul_append_nulfree {s : List Nat} (h : 0 ∉ s) (t : List Nat) :
    findNul (s ++ 0 :: t) = some s.length := by
  induction s with
  | nil => simp [findNul]
  | cons b rest ih =>
    have hb : b ≠ 0 := by
      intro hcon
      exact h (hcon ▸ List.mem_cons_self b rest)
    have hrest : 0 ∉ rest := fun hm => h (List.mem_cons_of_mem b hm)
    simp [findNul, hb, ih hrest]

theorem findNul_lt_length {l : List Nat} {i : Nat} (h : findNul l = some i) :
    i < l.length := by
  induction l generalizing i with
  | nil => simp [findNul] at h
  | cons b rest ih =>
    by_cases hb : b = 0
    · simp [findNul, hb] at h
      simp only [List.length_cons]
      omega
    · simp [findNul, hb] at h
      obtain ⟨j, hj, hji⟩ := h
      have := ih hj
      simp only [List.length_cons]
      omega

/-- `BigEndian::write_u64` (util.rs, not in the sources; `Modelled from
the spec:` an 8-byte big-endian integer). -/
def u64be (n : Nat) : List Nat :=
  [n / 2 ^ 56 % 256, n / 2 ^ 48 % 256, n / 2 ^ 40 % 256, n / 2 ^ 32 % 256,
   n / 2 ^ 24 % 256, n / 2 ^ 16 % 256, n / 2 ^ 8 % 256, n % 256]

/-- `BigEndian::read_u64`. -/
def readU64BE (l : List Nat) : Nat :=
  l.foldl (fun acc b => acc * 256 + b) 0

theorem readU64BE_u64be {n : Nat} (h : n < 2 ^ 64) : readU64BE (u64be n) = n := by
  unfold readU64BE u64be
  simp only [List.foldl_cons, List.foldl_nil]
  norm_num
  omega

theorem u64be_length (n : Nat) : (u64be n).length = 8 := by
  simp [u64be]

/-- The bytes one `add` writes to the blocks file
(src/structure/pfc.rs:333-393): at a block boundary the string itself,
NUL-terminated; inside a block the vbyte common-prefix length with the
previous string, the remaining suffix and a NUL. -/
def pfcEntry (c : Nat) (last s : ByteStr) : List Nat :=
  if c % 8 = 0 then s ++ [0]
  else vbyteEncode (commonPrefixLen last s) ++ s.drop (commonPrefixLen last s) ++ [0]

/-- `PfcDictFileBuilder`, with the written blocks-file bytes carried in
place of the file handle (src/structure/pfc.rs:309-320). -/
structure PfcBuilder : Type where
  count : Nat
  size : Nat
  last : Option ByteStr
  index : List Nat
  blocks : List Nat

/-- `PfcDictFileBuilder::new` (src/structure/pfc.rs:323-332). -/
def pfcInit : PfcBuilder :=
  ⟨0, 0, none, [], []⟩

/-- `PfcDictFileBuilder::add` (src/structure/pfc.rs:333-393): returns
`count + 1` and the updated builder; at a block boundary other than the
first, the current size is pushed onto the offsets index. -/
def pfcAdd (b : PfcBuilder) (s : ByteStr) : Nat × PfcBuilder :=
  (b.count + 1,
   { count := b.count + 1,
     size := b.size + (pfcEntry b.count (b.last.getD []) s).length,
     last := some s,
     index := if b.count % 8 = 0 ∧ b.count ≠ 0 then b.index ++ [b.size] else b.index,
     blocks := b.blocks ++ pfcEntry b.count (b.last.getD []) s })

/-- `PfcDictFileBuilder::add_all` (src/structure/pfc.rs:395-409). -/
def pfcAddAll (b : PfcBuilder) : List ByteStr → List Nat × PfcBuilder
  | [] => ([], b)
  | s :: rest =>
    let r := pfcAdd b s
    let r2 := pfcAddAll r.2 rest
    (r.1 :: r2.1, r2.2)

/-- `PfcDictFileBuilder::finalize` (src/structure/pfc.rs:412-430): pad the
blocks file to an 8-byte boundary (`write_padding`, util.rs, not in the
sources, `Modelled from the spec:` §4.4) and append the big-endian string
count.  The offsets LogArray file is modelled by the `index` list itself
(`Modelled from the spec:` §4.2, the LogArray builder stores back exactly
the pushed entries). -/
def pfcFinalize (b : PfcBuilder) : List Nat :=
  b.blocks ++ List.replicate ((8 - b.size % 8) % 8) 0 ++ u64be b.count

/-- The blocks-file bytes produced by adding `l` when `c` strings were
already added and `last` was the previous string. -/
def encFrom (c : Nat) (last : ByteStr) : List ByteStr → List Nat
  | [] => []
  | s :: rest => pfcEntry c last s ++ encFrom (c + 1) s rest

/-- The offsets pushed while adding `l` from count `c` and size `sz`. -/
def idxFrom (c sz : Nat) (last : ByteStr) : List ByteStr → List Nat
  | [] => []
  | s :: rest =>
    (if c % 8 = 0 ∧ c ≠ 0 then [sz] else [])
      ++ idxFrom (c + 1) (sz + (pfcEntry c last s).length) s rest

theorem getLast?_cons_or (s : ByteStr) (rest : List ByteStr) (o : Option ByteStr) :
    (s :: rest).getLast?.or o = rest.getLast?.or (some s) := by
  induction rest generalizing s o with
  | nil => simp [Option.or]
  | cons t ts ih =>
    rw [List.getLast?_cons_cons]
    rw [ih t o, ih t (some s)]

theorem pfcAddAll_char (l : List ByteStr) (b : PfcBuilder) :
    pfcAddAll b l =
      ((List.range l.length).map (fun i => b.count + i + 1),
       { count := b.count + l.length,
         size := b.size + (encFrom b.count (b.last.getD []) l).length,
         last := l.getLast?.or b.last,
         index := b.index ++ idxFrom b.count b.size (b.last.getD []) l,
         blocks := b.blocks ++ encFrom b.count (b.last.getD []) l }) := by
  induction l generalizing b with
  | nil =>
    simp only [pfcAddAll, encFrom, idxFrom, List.length_nil, List.range_zero,
      List.map_nil, List.getLast?_nil, Option.none_or, List.append_nil, List.length_nil]
    rfl
  | cons s rest ih =>
    show ((pfcAdd b s).1 :: (pfcAddAll (pfcAdd b s).2 rest).1,
          (pfcAddAll (pfcAdd b s).2 rest).2) = _
    rw [ih]
    simp only [pfcAdd, encFrom, idxFrom, Option.getD_some]
    refine congrArg₂ Prod.mk ?_ ?_
    · rw [List.length_cons, List.range_succ_eq_map, List.map_cons, List.map_map]
      refine congrArg₂ List.cons (by omega) ?_
      refine List.map_congr_left (fun i _ => ?_)
      simp only [Function.comp_apply]
      omega
    · simp only [PfcBuilder.mk.injEq]
      refine ⟨by simp only [List.length_cons]; omega, ?_, ?_, ?_, ?_⟩
      · simp only [List.length_append, List.length_cons]
        omega
      · exact (getLast?_cons_or s rest b.last).symm
      · by_cases hP : b.count % 8 = 0 ∧ b.count ≠ 0
        · simp [hP, List.append_assoc]
        · simp [hP]
      · rw [List.append_assoc]

theorem getLastD_cons (s : ByteStr) (xs : List ByteStr) (d : ByteStr) :
    (s :: xs).getLast?.getD d = xs.getLast?.getD s := by
  have h := getLast?_cons_or s xs none
  rw [Option.or_none] at h
  rw [h]
  cases xs.getLast? with
  | none => rfl
  | some x => rfl

theorem encFrom_split (t : Nat) (l : List ByteStr) (c : Nat) (last : ByteStr) :
    encFrom c last l = encFrom c last (l.take t)
      ++ encFrom (c + t) ((l.take t).getLast?.getD last) (l.drop t) := by
  induction t generalizing l c last with
  | zero => simp [encFrom]
  | succ t ih =>
    cases l with
    | nil => simp [encFrom]
    | cons s rest =>
      simp only [List.take_succ_cons, List.drop_succ_cons, encFrom]
      rw [ih rest (c + 1) s, getLastD_cons]
      rw [show c + 1 + t = c + (t + 1) from by omega]
      rw [List.append_assoc]

/-- How many strings remain in the current block before the next index
push: 0 at a pushing boundary, else the distance to the next multiple of
8. -/
def dBound (c : Nat) : Nat := if c % 8 = 0 ∧ c ≠ 0 then 0 else 8 - c % 8

theorem idxFrom_getElem? (l : List ByteStr) (c sz : Nat) (last : ByteStr) (i : Nat) :
    (idxFrom c sz last l)[i]? =
      if dBound c + 8 * i < l.length
      then some (sz + (encFrom c last (l.take (dBound c + 8 * i))).length)
      else none := by
  induction l generalizing c sz last i with
  | nil => simp [idxFrom]
  | cons s rest ih =>
    by_cases hc : c % 8 = 0 ∧ c ≠ 0
    · have hd : dBound c = 0 := by simp [dBound, hc]
      simp only [idxFrom, if_pos hc, List.singleton_append]
      cases i with
      | zero =>
        simp only [List.getElem?_cons_zero, hd]
        rw [if_pos (by simp only [List.length_cons]; omega)]
        simp [encFrom]
      | succ i =>
        rw [List.getElem?_cons_succ, ih]
        have hd1 : dBound (c + 1) = 7 := by
          simp only [dBound]
          split
          · omega
          · omega
        rw [hd, hd1]
        by_cases hlt : 7 + 8 * i < rest.length
        · rw [if_pos hlt, if_pos (by simp only [List.length_cons]; omega)]
          rw [show 0 + 8 * (i + 1) = (7 + 8 * i) + 1 from by omega]
          rw [List.take_succ_cons]
          simp only [encFrom, List.length_append, Option.some.injEq]
          omega
        · rw [if_neg hlt, if_neg (by simp only [List.length_cons]; omega)]
    · have hd : dBound c = dBound (c + 1) + 1 := by
        simp only [dBound]
        split
        · split
          · omega
          · omega
        · split
          · omega
          · omega
      simp only [idxFrom, if_neg hc, List.nil_append]
      rw [ih]
      by_cases hlt : dBound (c + 1) + 8 * i < rest.length
      · rw [if_pos hlt, if_pos (by simp only [List.length_cons]; omega)]
        rw [show dBound c + 8 * i = (dBound (c + 1) + 8 * i) + 1 from by omega]
        rw [List.take_succ_cons]
        simp only [encFrom, List.length_append, Option.some.injEq]
        omega
      · rw [if_neg hlt, if_neg (by simp only [List.length_cons]; omega)]

theorem length_eq_of_getElem? {α : Type} {l : List α} {N : Nat}
    (h1 : l[N]? = none) (h2 : ∀ i, i < N → (l[i]?).isSome) : l.length = N := by
  have hle : l.length ≤ N := by
    by_contra hcon
    push_neg at hcon
    rw [List.getElem?_eq_getElem hcon] at h1
    simp at h1
  have hge : N ≤ l.length := by
    by_contra hcon
    push_neg at hcon
    have := h2 l.length hcon
    rw [List.getElem?_eq_none (le_refl _)] at this
    simp at this
  omega

theorem idxFrom_zero_length (l : List ByteStr) (hl : l ≠ []) :
    (idxFrom 0 0 [] l).length = (l.length - 1) / 8 := by
  have hlen : 0 < l.length := List.length_pos.mpr hl
  refine length_eq_of_getElem? ?_ ?_
  · rw [idxFrom_getElem?]
    rw [if_neg ?_]
    simp only [dBound]
    split
    · omega
    · omega
  · intro i hi
    rw [idxFrom_getElem?]
    rw [if_pos ?_]
    · rfl
    simp only [dBound]
    split
    · omega
    · omega

/-- One `PfcBlockIterator::next` call (src/structure/pfc.rs:66-99) on
state (count, pos, string); `none` models the `expect`/`unwrap` panics,
`some (item, state)` the Rust return with its mutated state. -/
def blockIterNext (data : List Nat) (nStrings : Nat) :
    Nat × Nat × ByteStr → Option (Option ByteStr × (Nat × Nat × ByteStr)) :=
  fun st =>
    if st.2.1 = 0 then
      match findNul data with
      | none => none
      | some e => some (some (data.take e), (1, e + 1, data.take e))
    else if st.1 < nStrings then
      match vbyteDecode (data.drop st.2.1) with
      | none => none
      | some (common, clen) =>
        match findNul (data.drop (st.2.1 + clen)) with
        | none => none
        | some e =>
          let str := st.2.2.take common ++ (data.drop (st.2.1 + clen)).take e
          some (some str, (st.1 + 1, st.2.1 + clen + e + 1, str))
    else some (none, st)

/-- `Iterator::nth` on a block iterator: the item of the (k+1)-th `next`
call from the given state. -/
def blockNthAux (data : List Nat) (nStrings : Nat) :
    Nat × Nat × ByteStr → Nat → Option (Option ByteStr)
  | st, 0 => (blockIterNext data nStrings st).map Prod.fst
  | st, k + 1 =>
    match blockIterNext data nStrings st with
    | none => none
    | some (_, st2) => blockNthAux data nStrings st2 k

/-- `PfcBlock::get` (src/structure/pfc.rs:138-144): `nth` from a fresh
iterator when the index is inside the block. -/
def pfcBlockGet (data : List Nat) (nStrings k : Nat) : Option (Option ByteStr) :=
  if k < nStrings then blockNthAux data nStrings (0, 0, []) k
  else some none

/-- The scan loop of `PfcDict::id` (src/structure/pfc.rs:289-295): walk
the block iterator comparing each string, counting; the fuel counts the
remaining `next` calls (`nStrings + 2` always suffices). -/
def blockScanAux (data : List Nat) (nStrings : Nat) (s : ByteStr) :
    Nat → Nat × Nat × ByteStr → Nat → Option (Option Nat)
  | 0, _, _ => none
  | fuel + 1, st, cnt =>
    match blockIterNext data nStrings st with
    | none => none
    | some (none, _) => some none
    | some (some str, st2) =>
      if str = s then some (some cnt)
      else blockScanAux data nStrings s fuel st2 (cnt + 1)

/-- `PfcDict` (src/structure/pfc.rs:152-157); the offsets LogArray is the
plain list of its entries (`Modelled from the spec:` §4.2). -/
structure PfcDict : Type where
  n_strings : Nat
  block_offsets : List Nat
  blocks : List Nat

/-- `PfcDict::parse` (src/structure/pfc.rs:203-213): the string count is
the big-endian integer in the last 8 bytes; `none` models the panic on a
blocks file shorter than 8 bytes. -/
def pfcParse (blocks offsets : List Nat) : Option PfcDict :=
  if blocks.length < 8 then none
  else some ⟨readU64BE (blocks.drop (blocks.length - 8)), offsets, blocks⟩

/-- The byte offset of block `bi`: 0 for the first block, else offsets
entry `bi - 1`; `none` models an out-of-range LogArray access. -/
def offsetFor? (offs : List Nat) (bi : Nat) : Option Nat :=
  if bi = 0 then some 0 else offs[bi - 1]?

/-- `PfcDict::get` (src/structure/pfc.rs:219-236). -/
def pfcDictGet (d : PfcDict) (ix : Nat) : Option (Option ByteStr) :=
  if ix < d.n_strings then do
    let off ← offsetFor? d.block_offsets (ix / 8)
    pfcBlockGet (d.blocks.drop off) 8 (ix % 8)
  else some none

/-- The outcome of the binary-search loop in `PfcDict::id`. -/
inductive IdSearch : Type
  | panic
  | notFound
  | foundHead (id : Nat)
  | scanBlock (found : Nat)
  deriving DecidableEq, Repr

/-- The binary-search loop of `PfcDict::id` (src/structure/pfc.rs:244-270)
on bounds [mn, mx]; the fuel counts loop iterations (`mx + 2` from the
initial call always suffices, as each step shrinks the interval). -/
def idLoopAux (blocks offs : List Nat) (s : ByteStr) :
    Nat → Nat → Nat → IdSearch
  | 0, _, mx => .scanBlock mx
  | fuel + 1, mn, mx =>
    if mn ≤ mx then
      let mid := (mn + mx) / 2
      match offsetFor? offs mid with
      | none => .panic
      | some off =>
        match findNul (blocks.drop off) with
        | none => .panic
        | some e =>
          match bytesCmp s ((blocks.drop off).take e) with
          | .lt => if mid = 0 then .notFound else idLoopAux blocks offs s fuel mn (mid - 1)
          | .gt => idLoopAux blocks offs s fuel (mid + 1) mx
          | .eq => .foundHead (mid * 8)
    else .scanBlock mx

/-- `PfcDict::id` (src/structure/pfc.rs:238-298): the outer `none` models
a panic, the inner option is the Rust return value. -/
def pfcDictId (d : PfcDict) (s : ByteStr) : Option (Option Nat) :=
  match idLoopAux d.blocks d.block_offsets s (d.block_offsets.length + 2)
      0 d.block_offsets.length with
  | .panic => none
  | .notFound => some none
  | .foundHead i => some (some i)
  | .scanBlock found =>
    match offsetFor? d.block_offsets found with
    | none => none
    | some off =>
      let remainder := d.n_strings - found * 8
      let ns := if 8 ≤ remainder then 8 else remainder
      match blockScanAux (d.blocks.drop off) ns s (ns + 2) (0, 0, []) 0 with
      | none => none
      | some r => some (r.map (fun cnt => found * 8 + cnt))

/-- The built dictionary of a string list: finalize the builder, parse the
blocks bytes against the builder's offsets index. -/
def pfcDictOf (l : List ByteStr) : Option PfcDict :=
  pfcParse (pfcFinalize (pfcAddAll pfcInit l).2) (pfcAddAll pfcInit l).2.index

theorem pfcEntry_head {c : Nat} (hc : c % 8 = 0) (last s : ByteStr) :
    pfcEntry c last s = s ++ [0] := by
  simp [pfcEntry, hc]

theorem pfcEntry_inner {c : Nat} (hc : c % 8 ≠ 0) (last s : ByteStr) :
    pfcEntry c last s
      = vbyteEncode (commonPrefixLen last s) ++ (s.drop (commonPrefixLen last s) ++ [0]) := by
  simp [pfcEntry, hc]

theorem pfcEntry_length_pos (c : Nat) (last s : ByteStr) :
    0 < (pfcEntry c last s).length := by
  unfold pfcEntry
  split
  · simp
  · simp

theorem getLast?_take_eq {ss : List ByteStr} {j : Nat} (h1 : 1 ≤ j) (hj : j ≤ ss.length) :
    (ss.take j).getLast? = ss[j - 1]? := by
  rw [List.getLast?_eq_getElem?]
  rw [List.length_take]
  rw [show min j ss.length = j from by omega]
  rw [List.getElem?_take]
  rw [if_pos (by omega)]

theorem encFrom_take_succ (ss : List ByteStr) (c j : Nat) (last : ByteStr)
    (hj : j < ss.length) :
    encFrom c last (ss.take (j + 1))
      = encFrom c last (ss.take j)
        ++ pfcEntry (c + j) ((ss.take j).getLast?.getD last) (ss.getD j []) := by
  rw [encFrom_split j (ss.take (j + 1)) c last]
  rw [List.take_take, show min j (j + 1) = j from by omega]
  rw [List.drop_take]
  rw [show j + 1 - j = 1 from by omega]
  have hgd : ss.getD j [] = ss[j] := by
    rw [List.getD_eq_getElem?_getD, List.getElem?_eq_getElem hj]
    rfl
  have hdrop : (ss.drop j).take 1 = [ss.getD j []] := by
    rw [List.drop_eq_getElem_cons hj, hgd]
    rfl
  rw [hdrop]
  simp [encFrom]

theorem drop_getD_cons {ss : List ByteStr} {j : Nat} (hj : j < ss.length) :
    ss.drop j = ss.getD j [] :: ss.drop (j + 1) := by
  rw [show ss.getD j [] = ss[j] from by
    rw [List.getD_eq_getElem?_getD, List.getElem?_eq_getElem hj]
    rfl]
  exact List.drop_eq_getElem_cons hj

theorem blockIterNext_head (ss : List ByteStr) (c : Nat) (last : ByteStr)
    (tail : List Nat) (ns : Nat) (hc : c % 8 = 0) (hss : ss ≠ [])
    (hnul : 0 ∉ ss.getD 0 []) :
    blockIterNext (encFrom c last ss ++ tail) ns (0, 0, [])
      = some (some (ss.getD 0 []),
          (1, (encFrom c last (ss.take 1)).length, ss.getD 0 [])) := by
  obtain ⟨s0, rest, rfl⟩ : ∃ s0 rest, ss = s0 :: rest := by
    cases ss with
    | nil => exact absurd rfl hss
    | cons a b => exact ⟨a, b, rfl⟩
  have hnul0 : 0 ∉ s0 := by simpa using hnul
  have hdata : encFrom c last (s0 :: rest) ++ tail
      = s0 ++ 0 :: (encFrom (c + 1) s0 rest ++ tail) := by
    show (pfcEntry c last s0 ++ encFrom (c + 1) s0 rest) ++ tail = _
    rw [pfcEntry_head hc]
    simp [List.append_assoc]
  rw [hdata]
  unfold blockIterNext
  rw [if_pos rfl]
  simp only [findNul_append_nulfree hnul0]
  rw [List.take_left]
  have hlen1 : (encFrom c last ((s0 :: rest).take 1)).length = s0.length + 1 := by
    show (pfcEntry c last s0 ++ encFrom (c + 1) s0 []).length = s0.length + 1
    rw [pfcEntry_head hc]
    simp [encFrom]
  rw [hlen1]
  rfl

theorem blockIterNext_inner (ss : List ByteStr) (c : Nat) (last : ByteStr)
    (tail : List Nat) (ns j : Nat) (hc : c % 8 = 0) (hj1 : 1 ≤ j) (hj8 : j < 8)
    (hjns : j < ns) (hjss : j < ss.length) (hnul : 0 ∉ ss.getD j []) :
    blockIterNext (encFrom c last ss ++ tail) ns
        (j, (encFrom c last (ss.take j)).length, ss.getD (j - 1) [])
      = some (some (ss.getD j []),
          (j + 1, (encFrom c last (ss.take (j + 1))).length, ss.getD j [])) := by
  have hprev : (ss.take j).getLast?.getD last = ss.getD (j - 1) [] := by
    rw [getLast?_take_eq hj1 (le_of_lt hjss)]
    rw [List.getElem?_eq_getElem (by omega)]
    rw [List.getD_eq_getElem?_getD, List.getElem?_eq_getElem (by omega)]
    rfl
  have hpos : (encFrom c last (ss.take j)).length ≠ 0 := by
    obtain ⟨s0, rest, hss0⟩ : ∃ s0 rest, ss = s0 :: rest := by
      cases ss with
      | nil => simp at hjss
      | cons a b => exact ⟨a, b, rfl⟩
    subst hss0
    rw [show j = (j - 1) + 1 from by omega]
    rw [List.take_succ_cons]
    show (pfcEntry c last s0 ++ encFrom (c + 1) s0 (rest.take (j - 1))).length ≠ 0
    have := pfcEntry_length_pos c last s0
    simp only [List.length_append]
    omega
  have hmod : (c + j) % 8 ≠ 0 := by omega
  have hdrop1 : (encFrom c last ss ++ tail).drop (encFrom c last (ss.take j)).length
      = vbyteEncode (commonPrefixLen (ss.getD (j - 1) []) (ss.getD j []))
        ++ (((ss.getD j []).drop (commonPrefixLen (ss.getD (j - 1) []) (ss.getD j [])) ++ [0])
          ++ (encFrom (c + j + 1) (ss.getD j []) (ss.drop (j + 1)) ++ tail)) := by
    conv_lhs => rw [encFrom_split j ss c last]
    rw [List.append_assoc, List.drop_left]
    rw [drop_getD_cons hjss]
    show (pfcEntry (c + j) ((ss.take j).getLast?.getD last) (ss.getD j [])
        ++ encFrom (c + j + 1) (ss.getD j []) (ss.drop (j + 1))) ++ tail = _
    rw [hprev, pfcEntry_inner hmod]
    simp [List.append_assoc]
  have hnulsfx : 0 ∉ (ss.getD j []).drop
      (commonPrefixLen (ss.getD (j - 1) []) (ss.getD j [])) :=
    fun hm => hnul (List.mem_of_mem_drop hm)
  unfold blockIterNext
  rw [if_neg hpos, if_pos hjns]
  rw [hdrop1]
  simp only [vbyteDecode_encode]
  have hdrop2 : (encFrom c last ss ++ tail).drop
      ((encFrom c last (ss.take j)).length
        + (vbyteEncode (commonPrefixLen (ss.getD (j - 1) []) (ss.getD j []))).length)
      = ((ss.getD j []).drop (commonPrefixLen (ss.getD (j - 1) []) (ss.getD j [])))
        ++ 0 :: (encFrom (c + j + 1) (ss.getD j []) (ss.drop (j + 1)) ++ tail) := by
    rw [← List.drop_drop]
    rw [hdrop1]
    rw [List.drop_left]
    simp [List.append_assoc]
  simp only [hdrop2]
  simp only [findNul_append_nulfree hnulsfx]
  rw [List.take_left]
  rw [take_append_drop_commonPrefixLen (ss.getD (j - 1) []) (ss.getD j [])]
  have hlen : (encFrom c last (ss.take j)).length
      + (vbyteEncode (commonPrefixLen (ss.getD (j - 1) []) (ss.getD j []))).length
      + ((ss.getD j []).drop
          (commonPrefixLen (ss.getD (j - 1) []) (ss.getD j []))).length + 1
      = (encFrom c last (ss.take (j + 1))).length := by
    rw [encFrom_take_succ ss c j last hjss]
    rw [List.length_append]
    rw [hprev, pfcEntry_inner hmod]
    simp only [List.length_append, List.length_cons, List.length_nil]
    omega
  rw [hlen]

theorem getD_mem {ss : List ByteStr} {j : Nat} (hj : j < ss.length) :
    ss.getD j [] ∈ ss := by
  rw [show ss.getD j [] = ss[j] from by
    rw [List.getD_eq_getElem?_getD, List.getElem?_eq_getElem hj]
    rfl]
  exact List.getElem_mem hj

theorem blockNthAux_state (ss : List ByteStr) (c : Nat) (last : ByteStr)
    (tail : List Nat) (ns : Nat) (hc : c % 8 = 0) (hnul : ∀ s ∈ ss, 0 ∉ s) :
    ∀ k j, 1 ≤ j → j + k < 8 → j + k < ns → j + k < ss.length →
    blockNthAux (encFrom c last ss ++ tail) ns
        (j, (encFrom c last (ss.take j)).length, ss.getD (j - 1) []) k
      = some (some (ss.getD (j + k) [])) := by
  intro k
  induction k with
  | zero =>
    intro j hj1 hj8 hjns hjss
    rw [blockNthAux]
    rw [blockIterNext_inner ss c last tail ns j hc hj1 (by omega) (by omega)
      (by omega) (hnul _ (getD_mem (by omega)))]
    simp only [Option.map_some']
    rw [show j + 0 = j from by omega]
  | succ k ih =>
    intro j hj1 hj8 hjns hjss
    rw [blockNthAux]
    rw [blockIterNext_inner ss c last tail ns j hc hj1 (by omega) (by omega)
      (by omega) (hnul _ (getD_mem (by omega)))]
    have := ih (j + 1) (by omega) (by omega) (by omega) (by omega)
    rw [show j + 1 - 1 = j from by omega] at this
    rw [show j + 1 + k = j + (k + 1) from by omega] at this
    exact this

theorem blockNth_built (ss : List ByteStr) (c : Nat) (last : ByteStr)
    (tail : List Nat) (ns k : Nat) (hc : c % 8 = 0) (hnul : ∀ s ∈ ss, 0 ∉ s)
    (hk8 : k < 8) (hkns : k < ns) (hkss : k < ss.length) :
    blockNthAux (encFrom c last ss ++ tail) ns (0, 0, []) k
      = some (some (ss.getD k [])) := by
  have hss : ss ≠ [] := by
    intro hcon
    rw [hcon] at hkss
    simp at hkss
  cases k with
  | zero =>
    rw [blockNthAux]
    rw [blockIterNext_head ss c last tail ns hc hss (hnul _ (getD_mem (by omega)))]
    rfl
  | succ k =>
    rw [blockNthAux]
    rw [blockIterNext_head ss c last tail ns hc hss (hnul _ (getD_mem (by omega)))]
    have := blockNthAux_state ss c last tail ns hc hnul k 1 (by omega) (by omega)
      (by omega) (by omega)
    rw [show (1 : Nat) - 1 = 0 from rfl] at this
    rw [show 1 + k = k + 1 from by omega] at this
    exact this

theorem blockIterNext_done (data : List Nat) (ns p : Nat) (x : ByteStr)
    (hp : p ≠ 0) :
    blockIterNext data ns (ns, p, x) = some (none, (ns, p, x)) := by
  unfold blockIterNext
  rw [if_neg hp, if_neg (by omega)]

theorem blockScanAux_succ_some (data : List Nat) (ns : Nat) (s str : ByteStr)
    (fuel cnt : Nat) (st st2 : Nat × Nat × ByteStr)
    (h : blockIterNext data ns st = some (some str, st2)) :
    blockScanAux data ns s (fuel + 1) st cnt
      = if str = s then some (some cnt) else blockScanAux data ns s fuel st2 (cnt + 1) := by
  rw [blockScanAux, h]

theorem blockScanAux_succ_none (data : List Nat) (ns : Nat) (s : ByteStr)
    (fuel cnt : Nat) (st st2 : Nat × Nat × ByteStr)
    (h : blockIterNext data ns st = some (none, st2)) :
    blockScanAux data ns s (fuel + 1) st cnt = some none := by
  rw [blockScanAux, h]

theorem encFrom_take_length_pos (ss : List ByteStr) (c : Nat) (last : ByteStr)
    {j : Nat} (hj1 : 1 ≤ j) (hjss : j ≤ ss.length) :
    (encFrom c last (ss.take j)).length ≠ 0 := by
  obtain ⟨s0, rest, hss0⟩ : ∃ s0 rest, ss = s0 :: rest := by
    cases ss with
    | nil => simp at hjss; omega
    | cons a b => exact ⟨a, b, rfl⟩
  subst hss0
  rw [show j = (j - 1) + 1 from by omega]
  rw [List.take_succ_cons]
  show (pfcEntry c last s0 ++ encFrom (c + 1) s0 (rest.take (j - 1))).length ≠ 0
  have := pfcEntry_length_pos c last s0
  simp only [List.length_append]
  omega

theorem blockScanAux_state_found (ss : List ByteStr) (c : Nat) (last : ByteStr)
    (tail : List Nat) (ns : Nat) (s : ByteStr) (hc : c % 8 = 0)
    (hnul : ∀ x ∈ ss, 0 ∉ x) (hns8 : ns ≤ 8) (hnsss : ns ≤ ss.length) :
    ∀ fuel j t, 1 ≤ j → j ≤ t → t < ns → ss.getD t [] = s →
    (∀ i, j ≤ i → i < t → ss.getD i [] ≠ s) → ns - j + 2 ≤ fuel →
    blockScanAux (encFrom c last ss ++ tail) ns s fuel
        (j, (encFrom c last (ss.take j)).length, ss.getD (j - 1) []) j
      = some (some t) := by
  intro fuel
  induction fuel with
  | zero =>
    intro j t _ _ _ _ _ hfuel
    omega
  | succ fuel ih =>
    intro j t hj1 hjt htns hts hother hfuel
    have hstep := blockIterNext_inner ss c last tail ns j hc hj1 (by omega)
      (by omega) (by omega) (hnul _ (getD_mem (by omega)))
    rw [blockScanAux_succ_some _ _ _ _ _ _ _ _ hstep]
    by_cases hj : j = t
    · subst hj
      rw [if_pos hts]
    · rw [if_neg (hother j (by omega) (by omega))]
      have := ih (j + 1) t (by omega) (by omega) htns hts
        (fun i hi1 hi2 => hother i (by omega) hi2) (by omega)
      rw [show j + 1 - 1 = j from by omega] at this
      exact this

theorem blockScanAux_state_notfound (ss : List ByteStr) (c : Nat) (last : ByteStr)
    (tail : List Nat) (ns : Nat) (s : ByteStr) (hc : c % 8 = 0)
    (hnul : ∀ x ∈ ss, 0 ∉ x) (hns8 : ns ≤ 8) (hnsss : ns ≤ ss.length) :
    ∀ fuel j, 1 ≤ j → j ≤ ns → (∀ i, j ≤ i → i < ns → ss.getD i [] ≠ s) →
    ns - j + 2 ≤ fuel →
    blockScanAux (encFrom c last ss ++ tail) ns s fuel
        (j, (encFrom c last (ss.take j)).length, ss.getD (j - 1) []) j
      = some none := by
  intro fuel
  induction fuel with
  | zero =>
    intro j _ _ _ hfuel
    omega
  | succ fuel ih =>
    intro j hj1 hjns hno hfuel
    by_cases hj : j = ns
    · subst hj
      have hstep := blockIterNext_done (encFrom c last ss ++ tail) j
        (encFrom c last (ss.take j)).length (ss.getD (j - 1) [])
        (encFrom_take_length_pos ss c last hj1 (by omega))
      rw [blockScanAux_succ_none _ _ _ _ _ _ _ hstep]
    · have hstep := blockIterNext_inner ss c last tail ns j hc hj1 (by omega)
        (by omega) (by omega) (hnul _ (getD_mem (by omega)))
      rw [blockScanAux_succ_some _ _ _ _ _ _ _ _ hstep]
      rw [if_neg (hno j (by omega) (by omega))]
      have := ih (j + 1) (by omega) (by omega)
        (fun i hi1 hi2 => hno i (by omega) hi2) (by omega)
      rw [show j + 1 - 1 = j from by omega] at this
      exact this

theorem blockScan_found (ss : List ByteStr) (c : Nat) (last : ByteStr)
    (tail : List Nat) (ns : Nat) (s : ByteStr) (t : Nat) (hc : c % 8 = 0)
    (hnul : ∀ x ∈ ss, 0 ∉ x) (hns1 : 1 ≤ ns) (hns8 : ns ≤ 8)
    (hnsss : ns ≤ ss.length) (ht : t < ns) (hts : ss.getD t [] = s)
    (hother : ∀ i, i < t → ss.getD i [] ≠ s) :
    blockScanAux (encFrom c last ss ++ tail) ns s (ns + 2) (0, 0, []) 0
      = some (some t) := by
  have hss : ss ≠ [] := by
    intro hcon
    rw [hcon] at hnsss
    simp at hnsss
    omega
  have hstep := blockIterNext_head ss c last tail ns hc hss
    (hnul _ (getD_mem (by omega)))
  rw [show ns + 2 = (ns + 1) + 1 from by omega]
  rw [blockScanAux_succ_some _ _ _ _ _ _ _ _ hstep]
  cases t with
  | zero => rw [if_pos hts]
  | succ t =>
    rw [if_neg (hother 0 (by omega))]
    have := blockScanAux_state_found ss c last tail ns s hc hnul hns8 hnsss
      (ns + 1) 1 (t + 1) (by omega) (by omega) ht hts
      (fun i hi1 hi2 => hother i hi2) (by omega)
    rw [show (1 : Nat) - 1 = 0 from rfl] at this
    exact this

theorem blockScan_notfound (ss : List ByteStr) (c : Nat) (last : ByteStr)
    (tail : List Nat) (ns : Nat) (s : ByteStr) (hc : c % 8 = 0)
    (hnul : ∀ x ∈ ss, 0 ∉ x) (hns1 : 1 ≤ ns) (hns8 : ns ≤ 8)
    (hnsss : ns ≤ ss.length) (hno : ∀ i, i < ns → ss.getD i [] ≠ s) :
    blockScanAux (encFrom c last ss ++ tail) ns s (ns + 2) (0, 0, []) 0
      = some none := by
  have hss : ss ≠ [] := by
    intro hcon
    rw [hcon] at hnsss
    simp at hnsss
    omega
  have hstep := blockIterNext_head ss c last tail ns hc hss
    (hnul _ (getD_mem (by omega)))
  rw [show ns + 2 = (ns + 1) + 1 from by omega]
  rw [blockScanAux_succ_some _ _ _ _ _ _ _ _ hstep]
  rw [if_neg (hno 0 (by omega))]
  have := blockScanAux_state_notfound ss c last tail ns s hc hnul hns8 hnsss
    (ns + 1) 1 (by omega) (by omega) (fun i hi1 hi2 => hno i hi2) (by omega)
  rw [show (1 : Nat) - 1 = 0 from rfl] at this
  exact this

/-- The padding and footer after the encoded blocks. -/
def builtTail (l : List ByteStr) : List Nat :=
  List.replicate ((8 - (encFrom 0 [] l).length % 8) % 8) 0 ++ u64be l.length

/-- The finalized blocks-file bytes of a built dictionary. -/
def builtBytes (l : List ByteStr) : List Nat := encFrom 0 [] l ++ builtTail l

theorem pfcDictOf_built (l : List ByteStr) (hlen : l.length < 2 ^ 64) :
    pfcDictOf l = some ⟨l.length, idxFrom 0 0 [] l, builtBytes l⟩ := by
  unfold pfcDictOf
  rw [pfcAddAll_char]
  unfold pfcFinalize pfcParse builtBytes builtTail
  simp only [pfcInit, Option.getD_none, List.nil_append, Nat.zero_add]
  rw [← List.append_assoc]
  have h8 : (u64be l.length).length = 8 := u64be_length _
  have hlen8 : ¬ ((encFrom 0 [] l
      ++ List.replicate ((8 - (encFrom 0 [] l).length % 8) % 8) 0)
      ++ u64be l.length).length < 8 := by
    simp only [List.length_append, h8]
    omega
  rw [if_neg hlen8]
  have hdrop : ∀ (P U : List Nat), U.length = 8
      → (P ++ U).drop ((P ++ U).length - 8) = U := by
    intro P U hU
    rw [List.length_append, hU]
    rw [show P.length + 8 - 8 = P.length from by omega]
    exact List.drop_left _ _
  rw [hdrop _ _ h8, readU64BE_u64be hlen]

theorem offsetFor_built (l : List ByteStr) (m : Nat) (hm : 8 * m < l.length) :
    offsetFor? (idxFrom 0 0 [] l) m
      = some (encFrom 0 [] (l.take (8 * m))).length := by
  cases m with
  | zero =>
    simp [offsetFor?, encFrom]
  | succ m =>
    unfold offsetFor?
    rw [if_neg (by omega)]
    rw [show m + 1 - 1 = m from by omega]
    rw [idxFrom_getElem?]
    have hd : dBound 0 = 8 := by simp [dBound]
    rw [hd]
    rw [if_pos (by omega)]
    rw [show 8 + 8 * m = 8 * (m + 1) from by omega]
    rw [Nat.zero_add]

theorem built_drop_offset (l : List ByteStr) (m : Nat) (hm : 8 * m < l.length) :
    (builtBytes l).drop (encFrom 0 [] (l.take (8 * m))).length
      = encFrom (8 * m) ((l.take (8 * m)).getLast?.getD []) (l.drop (8 * m))
        ++ builtTail l := by
  unfold builtBytes
  conv_lhs => rw [encFrom_split (8 * m) l 0 []]
  rw [show 0 + 8 * m = 8 * m from by omega]
  rw [List.append_assoc, List.drop_left]

theorem getD_drop (l : List ByteStr) (a b : Nat) (h : a + b < l.length) :
    (l.drop a).getD b [] = l.getD (a + b) [] := by
  rw [List.getD_eq_getElem?_getD, List.getD_eq_getElem?_getD]
  rw [List.getElem?_drop]

theorem pfcDictGet_built (l : List ByteStr) (j : Nat)
    (hnul : ∀ x ∈ l, 0 ∉ x) (hj : j < l.length) :
    pfcDictGet ⟨l.length, idxFrom 0 0 [] l, builtBytes l⟩ j
      = some (some (l.getD j [])) := by
  have hdiv : 8 * (j / 8) ≤ j := by omega
  have hmod : j % 8 < 8 := by omega
  have hjn : 8 * (j / 8) < l.length := by omega
  unfold pfcDictGet
  rw [if_pos hj]
  show (offsetFor? (idxFrom 0 0 [] l) (j / 8)).bind _ = _
  rw [offsetFor_built l (j / 8) hjn]
  rw [Option.some_bind]
  rw [built_drop_offset l (j / 8) hjn]
  unfold pfcBlockGet
  rw [if_pos hmod]
  rw [blockNth_built (l.drop (8 * (j / 8))) (8 * (j / 8))
    ((l.take (8 * (j / 8))).getLast?.getD []) (builtTail l) 8 (j % 8)
    (by omega) (fun x hx => hnul x (List.mem_of_mem_drop hx)) hmod hmod
    (by rw [List.length_drop]; omega)]
  rw [getD_drop l _ _ (by omega)]
  rw [show 8 * (j / 8) + j % 8 = j from by omega]

theorem idLoopAux_step (blocks offs : List Nat) (s : ByteStr) (fuel mn mx off e : Nat)
    (hmn : mn ≤ mx)
    (h1 : offsetFor? offs ((mn + mx) / 2) = some off)
    (h2 : findNul (blocks.drop off) = some e) :
    idLoopAux blocks offs s (fuel + 1) mn mx
      = match bytesCmp s ((blocks.drop off).take e) with
        | Ordering.lt => if (mn + mx) / 2 = 0 then IdSearch.notFound
            else idLoopAux blocks offs s fuel mn ((mn + mx) / 2 - 1)
        | Ordering.gt => idLoopAux blocks offs s fuel ((mn + mx) / 2 + 1) mx
        | Ordering.eq => IdSearch.foundHead (((mn + mx) / 2) * 8) := by
  rw [idLoopAux]
  rw [if_pos hmn]
  show (match offsetFor? offs ((mn + mx) / 2) with
    | none => IdSearch.panic
    | some off =>
      match findNul (blocks.drop off) with
      | none => IdSearch.panic
      | some e =>
        match bytesCmp s ((blocks.drop off).take e) with
        | Ordering.lt => if (mn + mx) / 2 = 0 then IdSearch.notFound
            else idLoopAux blocks offs s fuel mn ((mn + mx) / 2 - 1)
        | Ordering.gt => idLoopAux blocks offs s fuel ((mn + mx) / 2 + 1) mx
        | Ordering.eq => IdSearch.foundHead (((mn + mx) / 2) * 8)) = _
  rw [h1]
  show (match findNul (blocks.drop off) with
    | none => IdSearch.panic
    | some e =>
      match bytesCmp s ((blocks.drop off).take e) with
      | Ordering.lt => if (mn + mx) / 2 = 0 then IdSearch.notFound
          else idLoopAux blocks offs s fuel mn ((mn + mx) / 2 - 1)
      | Ordering.gt => idLoopAux blocks offs s fuel ((mn + mx) / 2 + 1) mx
      | Ordering.eq => IdSearch.foundHead (((mn + mx) / 2) * 8)) = _
  rw [h2]

theorem getD_eq_getElem {l : List ByteStr} {j : Nat} (hj : j < l.length) :
    l.getD j [] = l[j] := by
  rw [List.getD_eq_getElem?_getD, List.getElem?_eq_getElem hj]
  rfl

theorem heads_lt {l : List ByteStr} (hasc : l.Pairwise bytesLt) {m m' : Nat}
    (h : m < m') (h' : 8 * m' < l.length) :
    bytesLt (l.getD (8 * m) []) (l.getD (8 * m') []) := by
  rw [getD_eq_getElem (by omega), getD_eq_getElem h']
  exact List.pairwise_iff_getElem.mp hasc (8 * m) (8 * m') (by omega) h' (by omega)

theorem head_built (l : List ByteStr) (hnul : ∀ x ∈ l, 0 ∉ x) (m : Nat)
    (hm : 8 * m < l.length) :
    (builtBytes l).drop (encFrom 0 [] (l.take (8 * m))).length
      = l.getD (8 * m) []
        ++ 0 :: (encFrom (8 * m + 1) (l.getD (8 * m) []) (l.drop (8 * m + 1))
          ++ builtTail l) := by
  rw [built_drop_offset l m hm]
  rw [drop_getD_cons hm]
  show (pfcEntry (8 * m) ((l.take (8 * m)).getLast?.getD []) (l.getD (8 * m) [])
      ++ encFrom (8 * m + 1) (l.getD (8 * m) []) (l.drop (8 * m + 1))) ++ builtTail l = _
  rw [pfcEntry_head (by omega)]
  simp [List.append_assoc]

theorem idLoopAux_spec (l : List ByteStr) (s : ByteStr) (L : Nat)
    (hasc : l.Pairwise bytesLt) (hnul : ∀ x ∈ l, 0 ∉ x)
    (hoffs : ∀ m, m ≤ L → offsetFor? (idxFrom 0 0 [] l) m
      = some (encFrom 0 [] (l.take (8 * m))).length)
    (hL8 : 8 * L < l.length) :
    ∀ fuel mn mx, mx ≤ L → mx + 1 - mn < fuel →
    (∀ m, m < mn → bytesLt (l.getD (8 * m) []) s) →
    (∀ m, mx < m → m ≤ L → bytesLt s (l.getD (8 * m) [])) →
    (idLoopAux (builtBytes l) (idxFrom 0 0 [] l) s fuel mn mx ≠ .panic) ∧
    (idLoopAux (builtBytes l) (idxFrom 0 0 [] l) s fuel mn mx = .notFound
      → bytesLt s (l.getD 0 [])) ∧
    (∀ i, idLoopAux (builtBytes l) (idxFrom 0 0 [] l) s fuel mn mx = .foundHead i
      → ∃ m, m ≤ L ∧ i = 8 * m ∧ l.getD (8 * m) [] = s) ∧
    (∀ f, idLoopAux (builtBytes l) (idxFrom 0 0 [] l) s fuel mn mx = .scanBlock f
      → f ≤ L ∧ (∀ m, m ≤ f → bytesLt (l.getD (8 * m) []) s)
        ∧ (∀ m, f < m → m ≤ L → bytesLt s (l.getD (8 * m) []))) := by
  intro fuel
  induction fuel with
  | zero =>
    intro mn mx hmxL hfuel hA hB
    omega
  | succ fuel ih =>
    intro mn mx hmxL hfuel hA hB
    by_cases hmn : mn ≤ mx
    · have hmid_le : (mn + mx) / 2 ≤ mx := by omega
      have hmid_ge : mn ≤ (mn + mx) / 2 := by omega
      have hmidL : (mn + mx) / 2 ≤ L := le_trans hmid_le hmxL
      have h8mid : 8 * ((mn + mx) / 2) < l.length := by omega
      have hoff := hoffs _ hmidL
      have hdata := head_built l hnul ((mn + mx) / 2) h8mid
      have hfind : findNul ((builtBytes l).drop
          (encFrom 0 [] (l.take (8 * ((mn + mx) / 2)))).length)
          = some (l.getD (8 * ((mn + mx) / 2)) []).length := by
        rw [hdata]
        exact findNul_append_nulfree (hnul _ (getD_mem (by omega))) _
      have htake : ((builtBytes l).drop
          (encFrom 0 [] (l.take (8 * ((mn + mx) / 2)))).length).take
          (l.getD (8 * ((mn + mx) / 2)) []).length
          = l.getD (8 * ((mn + mx) / 2)) [] := by
        rw [hdata]
        exact List.take_left _ _
      rw [idLoopAux_step (builtBytes l) (idxFrom 0 0 [] l) s fuel mn mx
        (encFrom 0 [] (l.take (8 * ((mn + mx) / 2)))).length
        (l.getD (8 * ((mn + mx) / 2)) []).length hmn hoff hfind]
      rw [htake]
      cases hcmp : bytesCmp s (l.getD (8 * ((mn + mx) / 2)) []) with
      | eq =>
        refine ⟨by simp, fun h => by simp at h, fun i hi => ?_, fun f hf => by simp at hf⟩
        have hi2 : IdSearch.foundHead (((mn + mx) / 2) * 8) = IdSearch.foundHead i := hi
        injection hi2 with hieq
        exact ⟨(mn + mx) / 2, hmidL, by omega, (bytesCmp_eq_iff.mp hcmp).symm⟩
      | lt =>
        by_cases hmid0 : (mn + mx) / 2 = 0
        · rw [if_pos hmid0]
          refine ⟨by simp, fun _ => ?_, fun i hi => by simp at hi, fun f hf => by simp at hf⟩
          have : bytesLt s (l.getD (8 * ((mn + mx) / 2)) []) := hcmp
          rw [show 8 * ((mn + mx) / 2) = 0 from by omega] at this
          exact this
        · rw [if_neg hmid0]
          have hB2 : ∀ m, (mn + mx) / 2 - 1 < m → m ≤ L
              → bytesLt s (l.getD (8 * m) []) := by
            intro m hm hmL
            rcases eq_or_lt_of_le (show (mn + mx) / 2 ≤ m from by omega) with heq | hlt2
            · rw [← heq]
              exact hcmp
            · exact bytesLt_trans hcmp (heads_lt hasc hlt2 (by omega))
          exact ih mn ((mn + mx) / 2 - 1) (by omega) (by omega) hA hB2
      | gt =>
        have hgt : bytesLt (l.getD (8 * ((mn + mx) / 2)) []) s := bytesCmp_gt_iff.mp hcmp
        have hA2 : ∀ m, m < (mn + mx) / 2 + 1 → bytesLt (l.getD (8 * m) []) s := by
          intro m hm
          rcases Nat.lt_or_ge m mn with hc | hc
          · exact hA m hc
          · rcases eq_or_lt_of_le (show m ≤ (mn + mx) / 2 from by omega) with heq | hlt2
            · rw [heq]
              exact hgt
            · exact bytesLt_trans (heads_lt hasc hlt2 h8mid) hgt
        exact ih ((mn + mx) / 2 + 1) mx hmxL (by omega) hA2 hB
    · rw [idLoopAux]
      rw [if_neg hmn]
      refine ⟨by simp, fun h => by simp at h, fun i hi => by simp at hi, fun f hf => ?_⟩
      have hf2 : IdSearch.scanBlock mx = IdSearch.scanBlock f := hf
      injection hf2 with hfe
      subst hfe
      exact ⟨hmxL, fun m hm => hA m (by omega), fun m hm hmL => hB m hm hmL⟩

theorem getD_lt_of_index_lt {l : List ByteStr} (hasc : l.Pairwise bytesLt) {a b : Nat}
    (h : a < b) (hb : b < l.length) :
    bytesLt (l.getD a []) (l.getD b []) := by
  rw [getD_eq_getElem (by omega), getD_eq_getElem hb]
  exact List.pairwise_iff_getElem.mp hasc a b (by omega) hb h

theorem nodup_of_pairwise_bytesLt {l : List ByteStr} (hasc : l.Pairwise bytesLt) :
    l.Nodup :=
  hasc.imp (fun h => bytesLt_ne h)

theorem getD_inj {l : List ByteStr} (hnd : l.Nodup) {a b : Nat}
    (ha : a < l.length) (hb : b < l.length) (h : l.getD a [] = l.getD b []) :
    a = b := by
  rw [getD_eq_getElem ha, getD_eq_getElem hb] at h
  exact (List.Nodup.getElem_inj_iff hnd).mp h

theorem pfcDictId_built_eq (l : List ByteStr) (s : ByteStr) :
    pfcDictId ⟨l.length, idxFrom 0 0 [] l, builtBytes l⟩ s
      = match idLoopAux (builtBytes l) (idxFrom 0 0 [] l) s
          ((idxFrom 0 0 [] l).length + 2) 0 (idxFrom 0 0 [] l).length with
        | .panic => none
        | .notFound => some none
        | .foundHead i => some (some i)
        | .scanBlock found =>
          match offsetFor? (idxFrom 0 0 [] l) found with
          | none => none
          | some off =>
            match blockScanAux ((builtBytes l).drop off)
                (if 8 ≤ l.length - found * 8 then 8 else l.length - found * 8) s
                ((if 8 ≤ l.length - found * 8 then 8 else l.length - found * 8) + 2)
                (0, 0, []) 0 with
            | none => none
            | some r => some (r.map (fun cnt => found * 8 + cnt)) := rfl

theorem pfcDictId_found (l : List ByteStr) (j : Nat)
    (hasc : l.Pairwise bytesLt) (hnul : ∀ x ∈ l, 0 ∉ x) (hj : j < l.length) :
    pfcDictId ⟨l.length, idxFrom 0 0 [] l, builtBytes l⟩ (l.getD j [])
      = some (some j) := by
  have hl : l ≠ [] := by
    intro hcon
    rw [hcon] at hj
    simp at hj
  have hL : (idxFrom 0 0 [] l).length = (l.length - 1) / 8 := idxFrom_zero_length l hl
  have hn1 : 1 ≤ l.length := List.length_pos.mpr hl
  have hL8 : 8 * (idxFrom 0 0 [] l).length < l.length := by omega
  have hoffs : ∀ m, m ≤ (idxFrom 0 0 [] l).length
      → offsetFor? (idxFrom 0 0 [] l) m
        = some (encFrom 0 [] (l.take (8 * m))).length := by
    intro m hm
    exact offsetFor_built l m (by omega)
  have hnd := nodup_of_pairwise_bytesLt hasc
  obtain ⟨hnp, hnf, hfh, hsb⟩ := idLoopAux_spec l (l.getD j []) (idxFrom 0 0 [] l).length
    hasc hnul hoffs hL8 ((idxFrom 0 0 [] l).length + 2) 0 (idxFrom 0 0 [] l).length
    (le_refl _) (by omega) (fun m hm => by omega)
    (fun m hm hmL => by omega)
  rw [pfcDictId_built_eq]
  cases hres : idLoopAux (builtBytes l) (idxFrom 0 0 [] l) (l.getD j [])
      ((idxFrom 0 0 [] l).length + 2) 0 (idxFrom 0 0 [] l).length with
  | panic => exact absurd hres hnp
  | notFound =>
    exfalso
    have hlt := hnf hres
    cases Nat.eq_zero_or_pos j with
    | inl h0 =>
      rw [h0] at hlt
      exact bytesLt_irrefl _ hlt
    | inr hpos =>
      have := getD_lt_of_index_lt hasc hpos hj
      exact bytesLt_irrefl _ (bytesLt_trans hlt this)
  | foundHead i =>
    obtain ⟨m, hmL, hieq, hms⟩ := hfh i hres
    have h8m : 8 * m < l.length := by omega
    have : 8 * m = j := getD_inj hnd h8m hj hms
    subst this
    rw [hieq]
  | scanBlock f =>
    obtain ⟨hfL, hAf, hBf⟩ := hsb f hres
    have h8f : 8 * f < l.length := by omega
    have hjlow : 8 * f < j := by
      by_contra hcon
      push_neg at hcon
      rcases eq_or_lt_of_le hcon with heq | hlt2
      · exact bytesLt_irrefl _ (by
          have := hAf f (le_refl _)
          rw [heq] at this
          exact this)
      · exact bytesLt_irrefl _ (bytesLt_trans (hAf f (le_refl _))
          (getD_lt_of_index_lt hasc hlt2 h8f))
    have hjhigh : j < 8 * f + 8 := by
      by_contra hcon
      push_neg at hcon
      have hf1L : f + 1 ≤ (idxFrom 0 0 [] l).length := by omega
      have hb := hBf (f + 1) (by omega) hf1L
      have h88 : 8 * (f + 1) = 8 * f + 8 := by omega
      rcases eq_or_lt_of_le hcon with heq | hlt2
      · rw [h88, heq] at hb
        exact bytesLt_irrefl _ hb
      · exact bytesLt_irrefl _ (bytesLt_trans hb
          (@getD_lt_of_index_lt l hasc (8 * (f + 1)) j (by omega) hj))
    show (match offsetFor? (idxFrom 0 0 [] l) f with
      | none => none
      | some off =>
        match blockScanAux ((builtBytes l).drop off)
            (if 8 ≤ l.length - f * 8 then 8 else l.length - f * 8) (l.getD j [])
            ((if 8 ≤ l.length - f * 8 then 8 else l.length - f * 8) + 2)
            (0, 0, []) 0 with
        | none => none
        | some r => some (r.map (fun cnt => f * 8 + cnt))) = some (some j)
    rw [hoffs f hfL]
    show (match blockScanAux ((builtBytes l).drop
        (encFrom 0 [] (l.take (8 * f))).length)
        (if 8 ≤ l.length - f * 8 then 8 else l.length - f * 8) (l.getD j [])
        ((if 8 ≤ l.length - f * 8 then 8 else l.length - f * 8) + 2)
        (0, 0, []) 0 with
      | none => none
      | some r => some (r.map (fun cnt => f * 8 + cnt))) = some (some j)
    rw [built_drop_offset l f h8f]
    have hns1 : 1 ≤ (if 8 ≤ l.length - f * 8 then 8 else l.length - f * 8) := by
      split
      · omega
      · omega
    have hns8 : (if 8 ≤ l.length - f * 8 then 8 else l.length - f * 8) ≤ 8 := by
      split
      · omega
      · omega
    have hnsss : (if 8 ≤ l.length - f * 8 then 8 else l.length - f * 8)
        ≤ (l.drop (8 * f)).length := by
      rw [List.length_drop]
      split
      · omega
      · omega
    have htns : j - 8 * f < (if 8 ≤ l.length - f * 8 then 8 else l.length - f * 8) := by
      split
      · omega
      · omega
    have hts : (l.drop (8 * f)).getD (j - 8 * f) [] = l.getD j [] := by
      rw [getD_drop l (8 * f) (j - 8 * f) (by omega)]
      rw [show 8 * f + (j - 8 * f) = j from by omega]
    have hother : ∀ i, i < j - 8 * f → (l.drop (8 * f)).getD i [] ≠ l.getD j [] := by
      intro i hi hcon
      rw [getD_drop l (8 * f) i (by omega)] at hcon
      have := getD_inj hnd (by omega) hj hcon
      omega
    rw [blockScan_found (l.drop (8 * f)) (8 * f) ((l.take (8 * f)).getLast?.getD [])
      (builtTail l) _ (l.getD j []) (j - 8 * f) (by omega)
      (fun x hx => hnul x (List.mem_of_mem_drop hx)) hns1 hns8 hnsss htns hts hother]
    show some (some (f * 8 + (j - 8 * f))) = some (some j)
    rw [show f * 8 + (j - 8 * f) = j from by omega]

theorem pfcDictId_notfound (l : List ByteStr) (s : ByteStr)
    (hasc : l.Pairwise bytesLt) (hnul : ∀ x ∈ l, 0 ∉ x)
    (hl : l ≠ []) (hs : s ∉ l) :
    pfcDictId ⟨l.length, idxFrom 0 0 [] l, builtBytes l⟩ s = some none := by
  have hL : (idxFrom 0 0 [] l).length = (l.length - 1) / 8 := idxFrom_zero_length l hl
  have hn1 : 1 ≤ l.length := List.length_pos.mpr hl
  have hL8 : 8 * (idxFrom 0 0 [] l).length < l.length := by omega
  have hoffs : ∀ m, m ≤ (idxFrom 0 0 [] l).length
      → offsetFor? (idxFrom 0 0 [] l) m
        = some (encFrom 0 [] (l.take (8 * m))).length := by
    intro m hm
    exact offsetFor_built l m (by omega)
  obtain ⟨hnp, hnf, hfh, hsb⟩ := idLoopAux_spec l s (idxFrom 0 0 [] l).length
    hasc hnul hoffs hL8 ((idxFrom 0 0 [] l).length + 2) 0 (idxFrom 0 0 [] l).length
    (le_refl _) (by omega) (fun m hm => by omega)
    (fun m hm hmL => by omega)
  rw [pfcDictId_built_eq]
  cases hres : idLoopAux (builtBytes l) (idxFrom 0 0 [] l) s
      ((idxFrom 0 0 [] l).length + 2) 0 (idxFrom 0 0 [] l).length with
  | panic => exact absurd hres hnp
  | notFound => rfl
  | foundHead i =>
    exfalso
    obtain ⟨m, hmL, hieq, hms⟩ := hfh i hres
    exact hs (hms ▸ getD_mem (by omega))
  | scanBlock f =>
    obtain ⟨hfL, hAf, hBf⟩ := hsb f hres
    have h8f : 8 * f < l.length := by omega
    show (match offsetFor? (idxFrom 0 0 [] l) f with
      | none => none
      | some off =>
        match blockScanAux ((builtBytes l).drop off)
            (if 8 ≤ l.length - f * 8 then 8 else l.length - f * 8) s
            ((if 8 ≤ l.length - f * 8 then 8 else l.length - f * 8) + 2)
            (0, 0, []) 0 with
        | none => none
        | some r => some (r.map (fun cnt => f * 8 + cnt))) = some none
    rw [hoffs f hfL]
    show (match blockScanAux ((builtBytes l).drop
        (encFrom 0 [] (l.take (8 * f))).length)
        (if 8 ≤ l.length - f * 8 then 8 else l.length - f * 8) s
        ((if 8 ≤ l.length - f * 8 then 8 else l.length - f * 8) + 2)
        (0, 0, []) 0 with
      | none => none
      | some r => some (r.map (fun cnt => f * 8 + cnt))) = some none
    rw [built_drop_offset l f h8f]
    have hns1 : 1 ≤ (if 8 ≤ l.length - f * 8 then 8 else l.length - f * 8) := by
      split
      · omega
      · omega
    have hns8 : (if 8 ≤ l.length - f * 8 then 8 else l.length - f * 8) ≤ 8 := by
      split
      · omega
      · omega
    have hnsss : (if 8 ≤ l.length - f * 8 then 8 else l.length - f * 8)
        ≤ (l.drop (8 * f)).length := by
      rw [List.length_drop]
      split
      · omega
      · omega
    have hno : ∀ i, i < (if 8 ≤ l.length - f * 8 then 8 else l.length - f * 8)
        → (l.drop (8 * f)).getD i [] ≠ s := by
      intro i hi hcon
      have hin : 8 * f + i < l.length := by
        rcases Nat.decLe 8 (l.length - f * 8) with hd | hd
        · rw [if_neg hd] at hi
          omega
        · rw [if_pos hd] at hi
          omega
      rw [getD_drop l (8 * f) i hin] at hcon
      exact hs (hcon ▸ getD_mem hin)
    rw [blockScan_notfound (l.drop (8 * f)) (8 * f) ((l.take (8 * f)).getLast?.getD [])
      (builtTail l) _ s (by omega)
      (fun x hx => hnul x (List.mem_of_mem_drop hx)) hns1 hns8 hnsss hno]
    rfl

/-- `PfcDecoder::decode` (src/structure/pfc.rs:449-499) run to exhaustion
over an in-memory buffer, as `dict_reader_to_stream` does through
`FramedRead`: each step finds the first NUL; a NUL in first position (or
no NUL at the end of input) ends the stream; otherwise a block head or a
vbyte-prefixed entry is peeled off.  `none` models the `expect` panics
(malformed vbyte, NUL inside a vbyte, prefix longer than the previous
string); the fuel counts steps (each consumes at least one byte). -/
def decoderRunAux : Nat → List Nat → ByteStr → Nat → Option (List ByteStr)
  | 0, _, _, _ => none
  | fuel + 1, bytes, last, index =>
    match findNul bytes with
    | none => some []
    | some pos =>
      if pos = 0 then some []
      else if index % 8 = 0 then
        (decoderRunAux fuel (bytes.drop (pos + 1)) (bytes.take pos) (index + 1)).map
          (bytes.take pos :: ·)
      else
        match vbyteDecode bytes with
        | none => none
        | some pv =>
          if pos < pv.2 then none
          else if last.length < pv.1 then none
          else
            (decoderRunAux fuel (bytes.drop (pos + 1))
              (last.take pv.1 ++ (bytes.drop pv.2).take (pos - pv.2)) (index + 1)).map
              ((last.take pv.1 ++ (bytes.drop pv.2).take (pos - pv.2)) :: ·)

/-- `dict_reader_to_stream` (src/structure/pfc.rs:508-512) collected into
the list of yielded strings. -/
def dictReaderToStream (bytes : List Nat) : Option (List ByteStr) :=
  decoderRunAux (bytes.length + 1) bytes [] 0

theorem decoderRunAux_enc (ss : List ByteStr) :
    ∀ fuel c last tail,
    (∀ x ∈ ss, 0 ∉ x) → (∀ x ∈ ss, x ≠ []) →
    (∀ j, j < ss.length → (c + j) % 8 ≠ 0 →
      commonPrefixLen ((last :: ss).getD j []) (ss.getD j []) < 128) →
    tail.getD 0 0 = 0 →
    (encFrom c last ss ++ tail).length < fuel →
    decoderRunAux fuel (encFrom c last ss ++ tail) last c = some ss := by
  induction ss with
  | nil =>
    intro fuel c last tail hnul hne hpre htail hfuel
    simp only [encFrom, List.nil_append] at hfuel ⊢
    cases fuel with
    | zero => omega
    | succ fuel =>
      cases tail with
      | nil => rfl
      | cons t0 ts =>
        have ht0 : t0 = 0 := by simpa using htail
        subst ht0
        rfl
  | cons s rest ih =>
    intro fuel c last tail hnul hne hpre htail hfuel
    cases fuel with
    | zero =>
      exfalso
      omega
    | succ fuel =>
      have hnuls : 0 ∉ s := hnul s (List.mem_cons_self s rest)
      have hnes : s ≠ [] := hne s (List.mem_cons_self s rest)
      have hsufpos : 0 < s.length := List.length_pos.mpr hnes
      have hprerest : ∀ j, j < rest.length → (c + 1 + j) % 8 ≠ 0 →
          commonPrefixLen ((s :: rest).getD j []) (rest.getD j []) < 128 := by
        intro j hj hm
        have := hpre (j + 1) (by simp only [List.length_cons]; omega) (by omega)
        simpa using this
      have hihargs : ∀ hlen2 : (encFrom (c + 1) s rest ++ tail).length < fuel,
          decoderRunAux fuel (encFrom (c + 1) s rest ++ tail) s (c + 1) = some rest :=
        fun hlen2 => ih fuel (c + 1) s tail
          (fun x hx => hnul x (List.mem_cons_of_mem _ hx))
          (fun x hx => hne x (List.mem_cons_of_mem _ hx))
          hprerest htail hlen2
      by_cases hc : c % 8 = 0
      · have hdata : encFrom c last (s :: rest) ++ tail
            = s ++ 0 :: (encFrom (c + 1) s rest ++ tail) := by
          show (pfcEntry c last s ++ encFrom (c + 1) s rest) ++ tail = _
          rw [pfcEntry_head hc]
          simp [List.append_assoc]
        rw [hdata]
        rw [decoderRunAux]
        rw [findNul_append_nulfree hnuls]
        simp only []
        rw [if_neg (by omega), if_pos hc]
        rw [List.take_left]
        rw [show (s ++ 0 :: (encFrom (c + 1) s rest ++ tail)).drop (s.length + 1)
          = encFrom (c + 1) s rest ++ tail from by
          rw [show s ++ 0 :: (encFrom (c + 1) s rest ++ tail)
              = (s ++ [0]) ++ (encFrom (c + 1) s rest ++ tail) from by
            simp [List.append_assoc]]
          rw [show s.length + 1 = (s ++ [0]).length from by simp]
          exact List.drop_left _ _]
        rw [hihargs (by
          rw [hdata] at hfuel
          simp only [List.length_append, List.length_cons] at hfuel ⊢
          omega)]
        rfl
      · have hcm : commonPrefixLen last s < 128 := by
          have := hpre 0 (by simp only [List.length_cons]; omega) (by omega)
          simpa using this
        have hcmle : commonPrefixLen last s ≤ last.length := commonPrefixLen_le_left _ _
        have hsfxnul : 0 ∉ s.drop (commonPrefixLen last s) :=
          fun hm => hnuls (List.mem_of_mem_drop hm)
        have hdata : encFrom c last (s :: rest) ++ tail
            = (commonPrefixLen last s + 128)
              :: (s.drop (commonPrefixLen last s)
                ++ 0 :: (encFrom (c + 1) s rest ++ tail)) := by
          show (pfcEntry c last s ++ encFrom (c + 1) s rest) ++ tail = _
          rw [pfcEntry_inner hc]
          rw [vbyteEncode_eq_of_lt hcm]
          simp [List.append_assoc]
        rw [hdata]
        rw [decoderRunAux]
        have hfind : findNul ((commonPrefixLen last s + 128)
            :: (s.drop (commonPrefixLen last s) ++ 0 :: (encFrom (c + 1) s rest ++ tail)))
            = some ((s.drop (commonPrefixLen last s)).length + 1) := by
          show (if commonPrefixLen last s + 128 = 0 then some 0
            else (findNul (s.drop (commonPrefixLen last s)
              ++ 0 :: (encFrom (c + 1) s rest ++ tail))).map (· + 1)) = _
          rw [if_neg (by omega), findNul_append_nulfree hsfxnul]
          rfl
        rw [hfind]
        simp only []
        rw [if_neg (by omega), if_neg hc]
        have hdec : vbyteDecode ((commonPrefixLen last s + 128)
            :: (s.drop (commonPrefixLen last s)
              ++ 0 :: (encFrom (c + 1) s rest ++ tail)))
            = some (commonPrefixLen last s, 1) := by
          show (if 128 ≤ commonPrefixLen last s + 128
            then some (commonPrefixLen last s + 128 - 128, 1) else _) = _
          rw [if_pos (by omega)]
          rw [show commonPrefixLen last s + 128 - 128 = commonPrefixLen last s from by
            omega]
        rw [hdec]
        simp only []
        rw [if_neg (by omega)]
        rw [if_neg (by omega)]
        have hdrop1 : ((commonPrefixLen last s + 128)
            :: (s.drop (commonPrefixLen last s)
              ++ 0 :: (encFrom (c + 1) s rest ++ tail))).drop 1
            = s.drop (commonPrefixLen last s)
              ++ 0 :: (encFrom (c + 1) s rest ++ tail) := rfl
        rw [hdrop1]
        rw [show (s.drop (commonPrefixLen last s)).length + 1 - 1
          = (s.drop (commonPrefixLen last s)).length from by omega]
        rw [List.take_left]
        rw [take_append_drop_commonPrefixLen last s]
        have hdrop2 : ((commonPrefixLen last s + 128)
            :: (s.drop (commonPrefixLen last s)
              ++ 0 :: (encFrom (c + 1) s rest ++ tail))).drop
            ((s.drop (commonPrefixLen last s)).length + 1 + 1)
            = encFrom (c + 1) s rest ++ tail := by
          show (s.drop (commonPrefixLen last s)
            ++ 0 :: (encFrom (c + 1) s rest ++ tail)).drop
            ((s.drop (commonPrefixLen last s)).length + 1)
            = encFrom (c + 1) s rest ++ tail
          rw [show s.drop (commonPrefixLen last s)
              ++ 0 :: (encFrom (c + 1) s rest ++ tail)
            = (s.drop (commonPrefixLen last s) ++ [0])
              ++ (encFrom (c + 1) s rest ++ tail) from by
            simp [List.append_assoc]]
          rw [show (s.drop (commonPrefixLen last s)).length + 1
              = (s.drop (commonPrefixLen last s) ++ [0]).length from by simp]
          exact List.drop_left _ _
        rw [hdrop2]
        rw [hihargs (by
          rw [hdata] at hfuel
          simp only [List.length_append, List.length_cons] at hfuel ⊢
          omega)]
        rfl

theorem pfcFinalize_built (l : List ByteStr) :
    pfcFinalize (pfcAddAll pfcInit l).2 = builtBytes l := by
  rw [pfcAddAll_char]
  unfold pfcFinalize builtBytes builtTail
  simp only [pfcInit, Option.getD_none, List.nil_append, Nat.zero_add]
  rw [List.append_assoc]

theorem pfcAddAll_ids (l : List ByteStr) :
    (pfcAddAll pfcInit l).1 = (List.range l.length).map (· + 1) := by
  rw [pfcAddAll_char]
  show (List.range l.length).map (fun i => 0 + i + 1) = _
  refine List.map_congr_left (fun i _ => ?_)
  omega

theorem pfcDictId_empty (u : ByteStr) (hu : u ≠ []) :
    pfcDictId ⟨0, idxFrom 0 0 [] ([] : List ByteStr), builtBytes []⟩ u = some none := by
  obtain ⟨b, us, rfl⟩ : ∃ b us, u = b :: us := by
    cases u with
    | nil => exact absurd rfl hu
    | cons b us => exact ⟨b, us, rfl⟩
  rfl

/-- C1 (amended): for every sequence of NUL-free strings added in strictly
ascending byte order and built into a dictionary, get(id(s)) = Some s for
every added string s (indeed id gives the exact position and get reads it
back), id is strictly order-preserving, and id(u) = None for every string
u that was not added — PROVIDED the dictionary is nonempty or u is
nonempty: the empty dictionary answers id("") = Some 0, because the
binary search reads the zero footer as an empty block head (see the
counterexample). -/
theorem claim_C1_pfc_roundtrip (l : List ByteStr) (u : ByteStr) (d : PfcDict)
    (hasc : l.Chain' bytesLt)
    (hnul : ∀ x ∈ l, 0 ∉ x)
    (hlen : l.length < 2 ^ 64)
    (hd : pfcDictOf l = some d)
    (hu : u ∉ l)
    (hne : l ≠ [] ∨ u ≠ []) :
    (∀ j, j < l.length →
      pfcDictId d (l.getD j []) = some (some j)
        ∧ pfcDictGet d j = some (some (l.getD j []))) ∧
    (∀ i k, i < l.length → k < l.length →
      (bytesLt (l.getD i []) (l.getD k []) ↔ i < k)) ∧
    pfcDictId d u = some none := by
  haveI : IsTrans ByteStr bytesLt := ⟨fun _ _ _ h1 h2 => bytesLt_trans h1 h2⟩
  have hasc' : l.Pairwise bytesLt := List.chain'_iff_pairwise.mp hasc
  rw [pfcDictOf_built l hlen] at hd
  injection hd with hd2
  subst hd2
  refine ⟨?_, ?_, ?_⟩
  · intro j hj
    exact ⟨pfcDictId_found l j hasc' hnul hj, pfcDictGet_built l j hnul hj⟩
  · intro i k hi hk
    constructor
    · intro hlt
      by_contra hcon
      push_neg at hcon
      rcases eq_or_lt_of_le hcon with heq | hlt2
      · rw [heq] at hlt
        exact bytesLt_irrefl _ hlt
      · exact bytesLt_irrefl _ (bytesLt_trans hlt (getD_lt_of_index_lt hasc' hlt2 hi))
    · intro hlt
      exact getD_lt_of_index_lt hasc' hlt hk
  · cases hl : l with
    | nil =>
      subst hl
      have hu2 : u ≠ [] := by
        rcases hne with h | h
        · exact absurd rfl h
        · exact h
      exact pfcDictId_empty u hu2
    | cons a rest =>
      rw [← hl]
      exact pfcDictId_notfound l u hasc' hnul (by rw [hl]; simp) hu

/-- C1 counterexample: the EMPTY dictionary (no string ever added) still
answers id("") = Some 0 — the all-zero footer is read as an empty block
head and the binary search matches it — refuting "id(u) = None for every
string u that was not added". -/
theorem claim_C1_counterexample :
    (pfcDictOf []).map (fun d => pfcDictId d []) = some (some (some 0)) ∧
    (([] : ByteStr) ∉ ([] : List ByteStr)) :=
  ⟨rfl, by decide⟩

/-- C1 witness: the two-string dictionary ["a", "b"] (bytes [97], [98])
satisfies the amended round-trip, order and not-found properties at the
concrete inputs. -/
theorem claim_C1_witness :
    ((∀ j, j < ([[97], [98]] : List ByteStr).length →
      pfcDictId ⟨2, [], [97, 0, 128, 98, 0, 0, 0, 0, 0, 0, 0, 0, 0, 0, 0, 2]⟩
          (([[97], [98]] : List ByteStr).getD j []) = some (some j)
        ∧ pfcDictGet ⟨2, [], [97, 0, 128, 98, 0, 0, 0, 0, 0, 0, 0, 0, 0, 0, 0, 2]⟩ j
          = some (some (([[97], [98]] : List ByteStr).getD j []))) ∧
    (∀ i k, i < ([[97], [98]] : List ByteStr).length
      → k < ([[97], [98]] : List ByteStr).length →
      (bytesLt (([[97], [98]] : List ByteStr).getD i [])
          (([[97], [98]] : List ByteStr).getD k []) ↔ i < k)) ∧
    pfcDictId ⟨2, [], [97, 0, 128, 98, 0, 0, 0, 0, 0, 0, 0, 0, 0, 0, 0, 2]⟩ [99]
      = some none) :=
  claim_C1_pfc_roundtrip [[97], [98]] [99] _
    (by norm_num [List.chain'_cons]; decide)
    (by decide) (by decide) rfl (by decide) (Or.inl (by decide))

/-- C2 (corrected): the id the BUILDER's add returns for the k-th added
string is k+1, but PfcDict::id returns the 0-based position k, not k+1:
the two halves of the claim disagree, and the stored-dictionary half is
the one the claim gets wrong (see the counterexample). -/
theorem claim_C2_ids_zero_based (l : List ByteStr) (d : PfcDict)
    (hasc : l.Chain' bytesLt)
    (hnul : ∀ x ∈ l, 0 ∉ x)
    (hlen : l.length < 2 ^ 64)
    (hd : pfcDictOf l = some d) :
    (pfcAddAll pfcInit l).1 = (List.range l.length).map (· + 1) ∧
    (∀ j, j < l.length → pfcDictId d (l.getD j []) = some (some j)) := by
  haveI : IsTrans ByteStr bytesLt := ⟨fun _ _ _ h1 h2 => bytesLt_trans h1 h2⟩
  have hasc' : l.Pairwise bytesLt := List.chain'_iff_pairwise.mp hasc
  rw [pfcDictOf_built l hlen] at hd
  injection hd with hd2
  subst hd2
  exact ⟨pfcAddAll_ids l,
    fun j hj => pfcDictId_found l j hasc' hnul hj⟩

/-- C2 counterexample: in the one-string dictionary ["a"], the builder's
add returned 1, but PfcDict::id("a") answers Some 0 — not Some 1 = 1 +
position as the claim states for the stored string. -/
theorem claim_C2_counterexample :
    (pfcAddAll pfcInit [[97]]).1 = [1] ∧
    (pfcDictOf [[97]]).map (fun d => pfcDictId d [97]) = some (some (some 0)) ∧
    some (some (some 0)) ≠ some (some (some 1)) :=
  ⟨rfl, rfl, by decide⟩

/-- C2 witness: for ["a", "b"] the builder hands back ids [1, 2] while
the parsed dictionary's id answers the 0-based positions. -/
theorem claim_C2_witness :
    (pfcAddAll pfcInit [[97], [98]]).1
        = (List.range ([[97], [98]] : List ByteStr).length).map (· + 1) ∧
    (∀ j, j < ([[97], [98]] : List ByteStr).length →
      pfcDictId ⟨2, [], [97, 0, 128, 98, 0, 0, 0, 0, 0, 0, 0, 0, 0, 0, 0, 2]⟩
        (([[97], [98]] : List ByteStr).getD j []) = some (some j)) :=
  claim_C2_ids_zero_based [[97], [98]] _
    (by norm_num [List.chain'_cons]; decide)
    (by decide) (by decide) rfl

/-- C10 (corrected): the decoder stream is the stored strings only when,
besides every string being non-empty, every within-block common prefix
length is below 128 — a prefix length of 128 (or any encoding whose first
vbyte byte is 0) makes the decoder read a NUL in first position and end
the stream early even though all strings are non-empty (see the
counterexample); an empty string stored first ends the stream at once;
and PfcDict::get is unaffected in every case. -/
theorem claim_C10_decoder_stream (l : List ByteStr) (d : PfcDict)
    (hasc : l.Chain' bytesLt)
    (hnul : ∀ x ∈ l, 0 ∉ x)
    (hlen : l.length < 2 ^ 56)
    (hd : pfcDictOf l = some d) :
    ((∀ x ∈ l, x ≠ []) →
      (∀ j, 0 < j → j < l.length → j % 8 ≠ 0 →
        commonPrefixLen (l.getD (j - 1) []) (l.getD j []) < 128) →
      dictReaderToStream (pfcFinalize (pfcAddAll pfcInit l).2) = some l) ∧
    (∀ rest, l = [] :: rest →
      dictReaderToStream (pfcFinalize (pfcAddAll pfcInit l).2) = some []) ∧
    (∀ j, j < l.length → pfcDictGet d j = some (some (l.getD j []))) := by
  rw [pfcDictOf_built l (by omega)] at hd
  injection hd with hd2
  subst hd2
  have htail : (builtTail l).getD 0 0 = 0 := by
    unfold builtTail
    cases hp : (8 - (encFrom 0 [] l).length % 8) % 8 with
    | zero =>
      show ((u64be l.length).getD 0 0) = 0
      show l.length / 2 ^ 56 % 256 = 0
      rw [Nat.div_eq_of_lt hlen]
    | succ q =>
      rfl
  refine ⟨?_, ?_, fun j hj => pfcDictGet_built l j hnul hj⟩
  · intro hne hpre128
    rw [pfcFinalize_built l]
    show decoderRunAux ((builtBytes l).length + 1) (builtBytes l) [] 0 = some l
    unfold builtBytes
    refine decoderRunAux_enc l _ 0 [] (builtTail l) hnul hne ?_ htail (by omega)
    intro j hj hm
    cases j with
    | zero =>
      exfalso
      omega
    | succ j =>
      have := hpre128 (j + 1) (by omega) hj (by omega)
      simpa using this
  · intro rest hl
    subst hl
    rw [pfcFinalize_built]
    have hshape : builtBytes ([] :: rest)
        = 0 :: (encFrom 1 [] rest ++ builtTail ([] :: rest)) := by
      show (pfcEntry 0 [] [] ++ encFrom 1 [] rest) ++ builtTail ([] :: rest) = _
      rw [pfcEntry_head rfl]
      simp [List.append_assoc]
    unfold dictReaderToStream
    rw [hshape]
    rfl

set_option maxRecDepth 4000 in
/-- C10 counterexample: two NON-EMPTY strings, 129 times "a" and 128
times "a" followed by "b", in strictly ascending order and NUL-free; the
second entry's common prefix is 128, whose vbyte encoding [0, 129] starts
with a NUL byte, so the decoder stream ends after the first string
instead of yielding both. -/
theorem claim_C10_counterexample :
    dictReaderToStream
        (pfcFinalize (pfcAddAll pfcInit
          [List.replicate 129 97, List.replicate 128 97 ++ [98]]).2)
      = some [List.replicate 129 97] ∧
    List.replicate 129 97 ≠ ([] : ByteStr) ∧
    List.replicate 128 97 ++ [98] ≠ ([] : ByteStr) ∧
    bytesLt (List.replicate 129 97) (List.replicate 128 97 ++ [98]) ∧
    (0 : Nat) ∉ List.replicate 129 97 ∧
    (0 : Nat) ∉ List.replicate 128 97 ++ [98] :=
  ⟨by decide, by decide, by decide, by decide, by decide, by decide⟩

/-- C10 witness: the dictionary ["a", "b"] has non-empty strings and a
common prefix of 0 < 128, so the stream yields exactly ["a", "b"]; the
empty-string clause holds vacuously and get reads back both entries. -/
theorem claim_C10_witness :
    ((∀ x ∈ ([[97], [98]] : List ByteStr), x ≠ []) →
      (∀ j, 0 < j → j < ([[97], [98]] : List ByteStr).length → j % 8 ≠ 0 →
        commonPrefixLen (([[97], [98]] : List ByteStr).getD (j - 1) [])
          (([[97], [98]] : List ByteStr).getD j []) < 128) →
      dictReaderToStream (pfcFinalize (pfcAddAll pfcInit [[97], [98]]).2)
        = some [[97], [98]]) ∧
    (∀ rest, ([[97], [98]] : List ByteStr) = [] :: rest →
      dictReaderToStream (pfcFinalize (pfcAddAll pfcInit [[97], [98]]).2)
        = some []) ∧
    (∀ j, j < ([[97], [98]] : List ByteStr).length →
      pfcDictGet ⟨2, [], [97, 0, 128, 98, 0, 0, 0, 0, 0, 0, 0, 0, 0, 0, 0, 2]⟩ j
        = some (some (([[97], [98]] : List ByteStr).getD j []))) :=
  claim_C10_decoder_stream [[97], [98]] _
    (by norm_num [List.chain'_cons]; decide)
    (by decide) (by decide) rfl

end TStore
